import Mathlib

/-!
Verification of the faer dense linear algebra kernels against their
natural-language specification.

The development shallowly embeds the relevant Rust routines:

* matrices are modelled as total functions from pairs of natural numbers to a
  scalar field (the addressable plane behind a strided matrix view); each
  in-place routine becomes a function from the input plane to the output
  plane, with the region the view exposes given by explicit dimensions,
  and every write clipped to that region (a Rust view cannot write outside
  itself);
* the scalar type is a linear ordered field, instantiated at the rational or
  real numbers; the embedding follows the real instantiation of the generic
  kernels, where the associated real type coincides with the scalar itself
  (faer_real is the identity) and conjugation is the identity, while the
  square root of the scalar trait is kept as an explicit function parameter;
* loops whose termination is not structural are given explicit fuel, with
  fuel exhaustion (the value none) modelling divergence of the source loop;
* fallible routines return Except values.

The SIMD micro kernels and the dense matrix multiply primitive are out of
scope of the sources and are modelled from the spec as the mathematical
accumulate operation they compute.
-/

namespace Faer

/-! ### Scalar and matrix plane -/

/-- The addressable plane behind a matrix view: a total function from row and
column indices to scalars. The region a view exposes is given separately by
explicit dimensions. -/
def Mat (K : Type) : Type := ℕ → ℕ → K

variable {K : Type} [LinearOrderedField K]

/-- Write a single element of the plane. -/
def mwrite (A : Mat K) (i j : ℕ) (v : K) : Mat K :=
  fun r c => if r = i ∧ c = j then v else A r c

/-- The submatrix view starting at row r0 and column c0. -/
def subm (A : Mat K) (r0 c0 : ℕ) : Mat K :=
  fun i j => A (r0 + i) (c0 + j)

/-- Write a whole region back into a plane: inside the nr by nc region at
offset (r0, c0) the new values are taken from S (in local coordinates),
outside it the plane is unchanged. This is the meaning of mutating through a
submatrix view. -/
def wback (A S : Mat K) (r0 c0 nr nc : ℕ) : Mat K :=
  fun i j =>
    if r0 ≤ i ∧ i < r0 + nr ∧ c0 ≤ j ∧ j < c0 + nc then S (i - r0) (j - c0)
    else A i j

/-- The transposed plane. -/
def transposeM (A : Mat K) : Mat K := fun i j => A j i

/-! ### Parallelism selector and the fork join primitive (src/src/utils/thread.rs) -/

/-- The parallelism configuration: sequential, or a bounded worker count with
0 meaning the ambient default worker count. -/
inductive Parallelism where
  | none
  | rayon (nthreads : ℕ)
  deriving DecidableEq

/-- parallelism_degree from src/src/utils/thread.rs: None gives 1, Rayon(0)
gives the ambient default worker count (rayon current_num_threads, passed
here as an explicit parameter), Rayon(n) gives n. -/
def parallelism_degree (ambientThreads : ℕ) : Parallelism → ℕ
  | .none => 1
  | .rayon 0 => ambientThreads
  | .rayon (n + 1) => n + 1

/-- The two tasks handed to join_raw. -/
inductive JoinTask where
  | taskA
  | taskB
  deriving DecidableEq

/-- join_raw from src/src/utils/thread.rs, modelled as a scheduling plan: the
list gives, in execution order, each task together with the parallelism
argument it receives; the boolean tells whether the two tasks are forked onto
the pool (true) or run on the calling thread (false).

With Parallelism::None both closures run on the calling thread, task A first,
each receiving None. With Rayon(1) both run on the calling thread, task A
first, each receiving None. Otherwise the count (0 replaced by the ambient
default) is halved, rounding up, and both tasks are forked with that
budget. -/
def join_raw (ambientThreads : ℕ) (parallelism : Parallelism) :
    List (JoinTask × Parallelism) × Bool :=
  match parallelism with
  | .none => ([(.taskA, .none), (.taskB, .none)], false)
  | .rayon nthreads =>
    if nthreads = 1 then
      ([(.taskA, .none), (.taskB, .none)], false)
    else
      let nthreads := if 0 < nthreads then nthreads else ambientThreads
      let sub := Parallelism.rayon (nthreads - nthreads / 2)
      ([(.taskA, sub), (.taskB, sub)], true)

/-! ### Workspace sizing (dyn_stack::StackReq) -/

/-- A scratch requirement: a byte count and an alignment. -/
structure StackReq where
  bytes : ℕ
  align : ℕ
  deriving DecidableEq

/-- The default (empty) requirement: zero bytes, alignment one. -/
def StackReq.empty : StackReq := ⟨0, 1⟩

/-- The sizing overflow error of dyn_stack. -/
inductive SizeOverflow where
  | overflow
  deriving DecidableEq

/-! ### The recursive triangular solve blocksize (src/faer-core/src/solve.rs) -/

/-- blocksize from src/faer-core/src/solve.rs: the top block of the recursive
split; the remainder n - blocksize is kept a multiple of the register
friendly size. -/
def blocksize (n : ℕ) : ℕ :=
  let base_rem := n / 2
  n -
    (if 32 ≤ n then (base_rem + 15) / 16 * 16
     else if 16 ≤ n then (base_rem + 7) / 8 * 8
     else if 8 ≤ n then (base_rem + 3) / 4 * 4
     else base_rem)

/-- recursion_threshold from src/faer-core/src/solve.rs. -/
def recursion_threshold : ℕ := 4

/-- The blocksize as the claim words it: the smaller half of n rounded DOWN
to a multiple of 16 when 32 ≤ n, of 8 when 16 ≤ n, of 4 when 8 ≤ n, and
exactly the smaller half otherwise. -/
def blocksizeClaimed (n : ℕ) : ℕ :=
  if 32 ≤ n then n / 2 / 16 * 16
  else if 16 ≤ n then n / 2 / 8 * 8
  else if 8 ≤ n then n / 2 / 4 * 4
  else n / 2

/-- k rounded up to the next multiple of m. -/
def roundUpMultiple (k m : ℕ) : ℕ := (k + m - 1) / m * m

/-- The blocksize as amended: n minus the smaller half of n rounded UP to a
multiple of 16 when 32 ≤ n, of 8 when 16 ≤ n, of 4 when 8 ≤ n; below 8 the
blocksize is exactly n minus the smaller half, that is the larger half. -/
def blocksizeAmended (n : ℕ) : ℕ :=
  n -
    (if 32 ≤ n then roundUpMultiple (n / 2) 16
     else if 16 ≤ n then roundUpMultiple (n / 2) 8
     else if 8 ≤ n then roundUpMultiple (n / 2) 4
     else n / 2)

/-! ### The triangular solve kernel (src/faer-core/src/solve.rs) -/

/-- The conjugation request flag threaded through the solve and multiply
kernels. -/
inductive Conj where
  | no
  | yes
  deriving DecidableEq

/-- Apply the requested conjugation, where conj is the scalar conjugation of
the field instance (the identity map at the reals). -/
def maybeConj (conj : K → K) : Conj → K → K
  | .no, x => x
  | .yes, x => conj x

/-- Modelled from the spec: the dense matrix multiply primitive.
faer_core::mul::matmul_with_conj is SIMD dispatch code outside the staged
sources; the spec treats it as the flat accumulate leaf routine. On the m by
nn region it computes acc := alpha * acc + beta * op(lhs) * op(rhs) with
inner dimension kk, where op applies the requested conjugation entrywise and
alpha = none discards the previous contents; outside the region acc is
unchanged. -/
def matmul_with_conj (conj : K → K) (acc lhs : Mat K) (conj_lhs : Conj)
    (rhs : Mat K) (conj_rhs : Conj) (m kk nn : ℕ) (alpha : Option K) (beta : K) :
    Mat K :=
  fun i j =>
    if i < m ∧ j < nn then
      (match alpha with
       | some a => a * acc i j
       | none => 0) +
        beta * ∑ t ∈ Finset.range kk,
          maybeConj conj conj_lhs (lhs i t) * maybeConj conj conj_rhs (rhs t j)
    else acc i j

/-- The fully unrolled non unit lower triangular base case
(solve_lower_triangular_in_place_base_case_generic_unchecked), for n at most
4, applied to every column j < k of the right hand side region. cf is the
maybe_conj_lhs closure. -/
def solve_lower_base_case (cf : K → K) (tril rhs : Mat K) (n k : ℕ) : Mat K :=
  match n with
  | 0 => rhs
  | 1 =>
    let inv := (cf (tril 0 0))⁻¹
    fun i j => if i = 0 ∧ j < k then rhs 0 j * inv else rhs i j
  | 2 =>
    let l00_inv := (cf (tril 0 0))⁻¹
    let l11_inv := (cf (tril 1 1))⁻¹
    let nl10_div_l11 := -(cf (tril 1 0) * l11_inv)
    fun i j =>
      if i < 2 ∧ j < k then
        let y0 := rhs 0 j * l00_inv
        let y1 := rhs 1 j * l11_inv + nl10_div_l11 * y0
        if i = 0 then y0 else y1
      else rhs i j
  | 3 =>
    let l00_inv := (cf (tril 0 0))⁻¹
    let l11_inv := (cf (tril 1 1))⁻¹
    let l22_inv := (cf (tril 2 2))⁻¹
    let nl10_div_l11 := -(cf (tril 1 0) * l11_inv)
    let nl20_div_l22 := -(cf (tril 2 0) * l22_inv)
    let nl21_div_l22 := -(cf (tril 2 1) * l22_inv)
    fun i j =>
      if i < 3 ∧ j < k then
        let y0 := rhs 0 j * l00_inv
        let y1 := rhs 1 j * l11_inv + nl10_div_l11 * y0
        let y2 := rhs 2 j * l22_inv + nl20_div_l22 * y0 + nl21_div_l22 * y1
        if i = 0 then y0 else if i = 1 then y1 else y2
      else rhs i j
  | 4 =>
    let l00_inv := (cf (tril 0 0))⁻¹
    let l11_inv := (cf (tril 1 1))⁻¹
    let l22_inv := (cf (tril 2 2))⁻¹
    let l33_inv := (cf (tril 3 3))⁻¹
    let nl10_div_l11 := -(cf (tril 1 0) * l11_inv)
    let nl20_div_l22 := -(cf (tril 2 0) * l22_inv)
    let nl21_div_l22 := -(cf (tril 2 1) * l22_inv)
    let nl30_div_l33 := -(cf (tril 3 0) * l33_inv)
    let nl31_div_l33 := -(cf (tril 3 1) * l33_inv)
    let nl32_div_l33 := -(cf (tril 3 2) * l33_inv)
    fun i j =>
      if i < 4 ∧ j < k then
        let y0 := rhs 0 j * l00_inv
        let y1 := rhs 1 j * l11_inv + nl10_div_l11 * y0
        let y2 := rhs 2 j * l22_inv + (nl20_div_l22 * y0 + nl21_div_l22 * y1)
        let y3 := rhs 3 j * l33_inv + nl30_div_l33 * y0 +
          (nl31_div_l33 * y1 + nl32_div_l33 * y2)
        if i = 0 then y0 else if i = 1 then y1 else if i = 2 then y2 else y3
      else rhs i j
  | _ + 5 => rhs

/-- The fully unrolled unit lower triangular base case
(solve_unit_lower_triangular_in_place_base_case_generic_unchecked), for n at
most 4: the diagonal is implicitly one. -/
def solve_unit_lower_base_case (cf : K → K) (tril rhs : Mat K) (n k : ℕ) :
    Mat K :=
  match n with
  | 0 => rhs
  | 1 => rhs
  | 2 =>
    let nl10_div_l11 := -cf (tril 1 0)
    fun i j =>
      if i = 1 ∧ j < k then rhs 1 j + nl10_div_l11 * rhs 0 j else rhs i j
  | 3 =>
    let nl10_div_l11 := -cf (tril 1 0)
    let nl20_div_l22 := -cf (tril 2 0)
    let nl21_div_l22 := -cf (tril 2 1)
    fun i j =>
      if i < 3 ∧ j < k then
        let y0 := rhs 0 j
        let y1 := rhs 1 j + nl10_div_l11 * y0
        let y2 := rhs 2 j + nl20_div_l22 * y0 + nl21_div_l22 * y1
        if i = 0 then y0 else if i = 1 then y1 else y2
      else rhs i j
  | 4 =>
    let nl10_div_l11 := -cf (tril 1 0)
    let nl20_div_l22 := -cf (tril 2 0)
    let nl21_div_l22 := -cf (tril 2 1)
    let nl30_div_l33 := -cf (tril 3 0)
    let nl31_div_l33 := -cf (tril 3 1)
    let nl32_div_l33 := -cf (tril 3 2)
    fun i j =>
      if i < 4 ∧ j < k then
        let y0 := rhs 0 j
        let y1 := rhs 1 j + nl10_div_l11 * y0
        let y2 := rhs 2 j + (nl20_div_l22 * y0 + nl21_div_l22 * y1)
        let y3 := rhs 3 j + nl30_div_l33 * y0 +
          (nl31_div_l33 * y1 + nl32_div_l33 * y2)
        if i = 0 then y0 else if i = 1 then y1 else if i = 2 then y2 else y3
      else rhs i j
  | _ + 5 => rhs

theorem blocksize_pos {n : ℕ} (h : 4 < n) : 0 < blocksize n := by
  simp only [blocksize]
  split_ifs <;> omega

theorem blocksize_lt {n : ℕ} (h : 4 < n) : blocksize n < n := by
  simp only [blocksize]
  split_ifs <;> omega

/-- solve_lower_triangular_in_place_unchecked from src/faer-core/src/solve.rs:
the recursive blocked forward substitution, solving op(T) Y = X in place over
the n by k region of rhs. If the right hand side is wide (k above 64) and T
is not too large (n at most 128), the columns are split in half and each half
is solved through join_raw (the two halves touch disjoint columns, so the
sequential composition below is their joint effect); if n is at most the
recursion threshold the unrolled base case runs; otherwise T is split at the
blocksize, the top part is solved, the bottom right hand side is updated by
a matrix multiply, and the bottom part is solved. -/
def solve_lower_triangular_in_place_unchecked (conj : K → K) (cl : Conj)
    (tril rhs : Mat K) (n k : ℕ) : Mat K :=
  if h1 : 64 < k ∧ n ≤ 128 then
    let left := solve_lower_triangular_in_place_unchecked conj cl tril rhs n (k / 2)
    let right := solve_lower_triangular_in_place_unchecked conj cl tril
      (subm left 0 (k / 2)) n (k - k / 2)
    wback left right 0 (k / 2) n (k - k / 2)
  else if h2 : n ≤ recursion_threshold then
    match cl with
    | .yes => solve_lower_base_case conj tril rhs n k
    | .no => solve_lower_base_case id tril rhs n k
  else
    let bs := blocksize n
    let s1 := solve_lower_triangular_in_place_unchecked conj cl tril rhs bs k
    let upd := matmul_with_conj conj (subm s1 bs 0) (subm tril bs 0) cl s1 .no
      (n - bs) bs k (some 1) (-1)
    let s2 := wback s1 upd bs 0 (n - bs) k
    let s3 := solve_lower_triangular_in_place_unchecked conj cl
      (subm tril bs bs) (subm s2 bs 0) (n - bs) k
    wback s2 s3 bs 0 (n - bs) k
termination_by 2 * k + n
decreasing_by
  · omega
  · omega
  · have hp := blocksize_pos (n := n) (by simpa [recursion_threshold] using h2)
    have hl := blocksize_lt (n := n) (by simpa [recursion_threshold] using h2)
    omega
  · have hp := blocksize_pos (n := n) (by simpa [recursion_threshold] using h2)
    have hl := blocksize_lt (n := n) (by simpa [recursion_threshold] using h2)
    omega

/-- solve_unit_lower_triangular_in_place_unchecked from
src/faer-core/src/solve.rs: same structure with the unit diagonal base
case. -/
def solve_unit_lower_triangular_in_place_unchecked (conj : K → K) (cl : Conj)
    (tril rhs : Mat K) (n k : ℕ) : Mat K :=
  if h1 : 64 < k ∧ n ≤ 128 then
    let left := solve_unit_lower_triangular_in_place_unchecked conj cl tril rhs n (k / 2)
    let right := solve_unit_lower_triangular_in_place_unchecked conj cl tril
      (subm left 0 (k / 2)) n (k - k / 2)
    wback left right 0 (k / 2) n (k - k / 2)
  else if h2 : n ≤ recursion_threshold then
    match cl with
    | .yes => solve_unit_lower_base_case conj tril rhs n k
    | .no => solve_unit_lower_base_case id tril rhs n k
  else
    let bs := blocksize n
    let s1 := solve_unit_lower_triangular_in_place_unchecked conj cl tril rhs bs k
    let upd := matmul_with_conj conj (subm s1 bs 0) (subm tril bs 0) cl s1 .no
      (n - bs) bs k (some 1) (-1)
    let s2 := wback s1 upd bs 0 (n - bs) k
    let s3 := solve_unit_lower_triangular_in_place_unchecked conj cl
      (subm tril bs bs) (subm s2 bs 0) (n - bs) k
    wback s2 s3 bs 0 (n - bs) k
termination_by 2 * k + n
decreasing_by
  · omega
  · omega
  · have hp := blocksize_pos (n := n) (by simpa [recursion_threshold] using h2)
    have hl := blocksize_lt (n := n) (by simpa [recursion_threshold] using h2)
    omega
  · have hp := blocksize_pos (n := n) (by simpa [recursion_threshold] using h2)
    have hl := blocksize_lt (n := n) (by simpa [recursion_threshold] using h2)
    omega

/-- The reversed rows view of an n row region. -/
def reverse_rows (A : Mat K) (n : ℕ) : Mat K := fun i j => A (n - 1 - i) j

/-- The view with both rows and columns of an n by n region reversed. -/
def reverse_rows_and_cols (A : Mat K) (n : ℕ) : Mat K :=
  fun i j => A (n - 1 - i) (n - 1 - j)

/-- solve_upper_triangular_in_place_unchecked from
src/faer-core/src/solve.rs: delegates to the lower primitive on the row and
column reversed triangle and the row reversed right hand side; the result is
seen through the reversed view, hence reversed again and written back over
the n by k region. -/
def solve_upper_triangular_in_place_unchecked (conj : K → K) (cl : Conj)
    (triu rhs : Mat K) (n k : ℕ) : Mat K :=
  wback rhs
    (reverse_rows
      (solve_lower_triangular_in_place_unchecked conj cl
        (reverse_rows_and_cols triu n) (reverse_rows rhs n) n k) n)
    0 0 n k

/-- solve_unit_upper_triangular_in_place_unchecked from
src/faer-core/src/solve.rs: the same reduction for the unit diagonal
variant. -/
def solve_unit_upper_triangular_in_place_unchecked (conj : K → K) (cl : Conj)
    (triu rhs : Mat K) (n k : ℕ) : Mat K :=
  wback rhs
    (reverse_rows
      (solve_unit_lower_triangular_in_place_unchecked conj cl
        (reverse_rows_and_cols triu n) (reverse_rows rhs n) n k) n)
    0 0 n k

/-! ### Semantics of the triangular solves -/

/-- The lower triangle (diagonal included) of the n by n region, zero
elsewhere. -/
def lowerTriOf (A : Mat K) (n : ℕ) : Mat K :=
  fun i j => if i < n ∧ j ≤ i then A i j else 0

/-- The strictly lower triangle of the n by n region with an implicit unit
diagonal, zero elsewhere. -/
def unitLowerOf (A : Mat K) (n : ℕ) : Mat K :=
  fun i j => if i < n ∧ j < i then A i j else if i < n ∧ j = i then 1 else 0

/-- The upper triangle (diagonal included) of the n by n region, zero
elsewhere. -/
def upperTriOf (A : Mat K) (n : ℕ) : Mat K :=
  fun i j => if i ≤ j ∧ j < n then A i j else 0

/-- The strictly upper triangle of the n by n region with an implicit unit
diagonal, zero elsewhere. -/
def unitUpperOf (A : Mat K) (n : ℕ) : Mat K :=
  fun i j => if i < j ∧ j < n then A i j else if j = i ∧ i < n then 1 else 0

/-- Mathematical matrix product with inner dimension d. -/
def matProd (A B : Mat K) (d : ℕ) : Mat K :=
  fun i j => ∑ t ∈ Finset.range d, A i t * B t j

/-- Apply a scalar function entrywise. -/
def mapMat (f : K → K) (A : Mat K) : Mat K := fun i j => f (A i j)

theorem sum_range_split (a b : ℕ) (f : ℕ → K) :
    ∑ t ∈ Finset.range (a + b), f t =
      (∑ t ∈ Finset.range a, f t) + ∑ u ∈ Finset.range b, f (a + u) :=
  Finset.sum_range_add f a b

set_option maxHeartbeats 1600000 in
/-- Correctness of the unrolled non unit base case: on the region the
product of the (conjugated) lower triangle with the output reproduces the
right hand side, and outside the region the right hand side is unchanged. -/
theorem solve_lower_base_correct (cf : K → K) (tril rhs : Mat K) (n k : ℕ)
    (hn : n ≤ 4) (hd : ∀ i, i < n → cf (tril i i) ≠ 0) :
    (∀ i j, i < n → j < k →
      matProd (lowerTriOf (mapMat cf tril) n)
        (solve_lower_base_case cf tril rhs n k) n i j = rhs i j) ∧
    (∀ i j, n ≤ i ∨ k ≤ j → solve_lower_base_case cf tril rhs n k i j = rhs i j) := by
  match n, hn with
  | 0, _ =>
    exact ⟨fun i j hi => absurd hi (by omega), fun i j h => rfl⟩
  | 1, _ =>
    have h0 := hd 0 (by omega)
    constructor
    · intro i j hi hj
      interval_cases i
      simp only [matProd, lowerTriOf, mapMat, solve_lower_base_case,
        Finset.sum_range_succ, Finset.sum_range_zero]
      simp only [show (0 : ℕ) < 1 ∧ (0 : ℕ) ≤ 0 from by omega, if_true,
        show (0 : ℕ) = 0 ∧ j < k from ⟨rfl, hj⟩, if_pos]
      field_simp
    · intro i j h
      simp only [solve_lower_base_case]
      rw [if_neg (by omega)]
  | 2, _ =>
    have h0 := hd 0 (by omega)
    have h1 := hd 1 (by omega)
    constructor
    · intro i j hi hj
      simp only [matProd, lowerTriOf, mapMat, solve_lower_base_case,
        Finset.sum_range_succ, Finset.sum_range_zero]
      interval_cases i <;>
        (norm_num [hj] <;> field_simp <;> ring)
    · intro i j h
      simp only [solve_lower_base_case]
      rw [if_neg (by omega)]
  | 3, _ =>
    have h0 := hd 0 (by omega)
    have h1 := hd 1 (by omega)
    have h2 := hd 2 (by omega)
    constructor
    · intro i j hi hj
      simp only [matProd, lowerTriOf, mapMat, solve_lower_base_case,
        Finset.sum_range_succ, Finset.sum_range_zero]
      interval_cases i <;>
        (norm_num [hj] <;> field_simp <;> ring)
    · intro i j h
      simp only [solve_lower_base_case]
      rw [if_neg (by omega)]
  | 4, _ =>
    have h0 := hd 0 (by omega)
    have h1 := hd 1 (by omega)
    have h2 := hd 2 (by omega)
    have h3 := hd 3 (by omega)
    constructor
    · intro i j hi hj
      simp only [matProd, lowerTriOf, mapMat, solve_lower_base_case,
        Finset.sum_range_succ, Finset.sum_range_zero]
      interval_cases i <;>
        (norm_num [hj] <;> field_simp <;> ring)
    · intro i j h
      simp only [solve_lower_base_case]
      rw [if_neg (by omega)]

/-- Correctness of the unrolled unit diagonal base case. -/
theorem solve_unit_lower_base_correct (cf : K → K) (tril rhs : Mat K) (n k : ℕ)
    (hn : n ≤ 4) :
    (∀ i j, i < n → j < k →
      matProd (unitLowerOf (mapMat cf tril) n)
        (solve_unit_lower_base_case cf tril rhs n k) n i j = rhs i j) ∧
    (∀ i j, n ≤ i ∨ k ≤ j →
      solve_unit_lower_base_case cf tril rhs n k i j = rhs i j) := by
  match n, hn with
  | 0, _ =>
    exact ⟨fun i j hi => absurd hi (by omega), fun i j h => rfl⟩
  | 1, _ =>
    constructor
    · intro i j hi hj
      interval_cases i
      simp [matProd, unitLowerOf, mapMat, solve_unit_lower_base_case,
        Finset.sum_range_succ]
    · intro i j h
      rfl
  | 2, _ =>
    constructor
    · intro i j hi hj
      simp only [matProd, unitLowerOf, mapMat, solve_unit_lower_base_case,
        Finset.sum_range_succ, Finset.sum_range_zero]
      interval_cases i <;>
        (norm_num [hj] <;> ring)
    · intro i j h
      simp only [solve_unit_lower_base_case]
      rw [if_neg (by omega)]
  | 3, _ =>
    constructor
    · intro i j hi hj
      simp only [matProd, unitLowerOf, mapMat, solve_unit_lower_base_case,
        Finset.sum_range_succ, Finset.sum_range_zero]
      interval_cases i <;>
        (norm_num [hj] <;> ring)
    · intro i j h
      simp only [solve_unit_lower_base_case]
      rw [if_neg (by omega)]
  | 4, _ =>
    constructor
    · intro i j hi hj
      simp only [matProd, unitLowerOf, mapMat, solve_unit_lower_base_case,
        Finset.sum_range_succ, Finset.sum_range_zero]
      interval_cases i <;>
        (norm_num [hj] <;> ring)
    · intro i j h
      simp only [solve_unit_lower_base_case]
      rw [if_neg (by omega)]

theorem wback_notin {A S : Mat K} {r0 c0 nr nc i j : ℕ}
    (h : ¬(r0 ≤ i ∧ i < r0 + nr ∧ c0 ≤ j ∧ j < c0 + nc)) :
    wback A S r0 c0 nr nc i j = A i j := by
  simp only [wback]
  rw [if_neg h]

theorem wback_in {A S : Mat K} {r0 c0 nr nc i j : ℕ}
    (h : r0 ≤ i ∧ i < r0 + nr ∧ c0 ≤ j ∧ j < c0 + nc) :
    wback A S r0 c0 nr nc i j = S (i - r0) (j - c0) := by
  simp only [wback]
  rw [if_pos h]

theorem solve_lower_unfold_cols (conj : K → K) (cl : Conj) (tril rhs : Mat K)
    (n k : ℕ) (h1 : 64 < k ∧ n ≤ 128) :
    solve_lower_triangular_in_place_unchecked conj cl tril rhs n k =
      wback (solve_lower_triangular_in_place_unchecked conj cl tril rhs n (k / 2))
        (solve_lower_triangular_in_place_unchecked conj cl tril
          (subm (solve_lower_triangular_in_place_unchecked conj cl tril rhs n (k / 2))
            0 (k / 2)) n (k - k / 2))
        0 (k / 2) n (k - k / 2) := by
  rw [solve_lower_triangular_in_place_unchecked.eq_def, dif_pos h1]

theorem solve_lower_unfold_base (conj : K → K) (cl : Conj) (tril rhs : Mat K)
    (n k : ℕ) (h1 : ¬(64 < k ∧ n ≤ 128)) (h2 : n ≤ recursion_threshold) :
    solve_lower_triangular_in_place_unchecked conj cl tril rhs n k =
      solve_lower_base_case (maybeConj conj cl) tril rhs n k := by
  cases cl <;>
    · rw [solve_lower_triangular_in_place_unchecked.eq_def, dif_neg h1, dif_pos h2]
      rfl

theorem solve_lower_unfold_rec (conj : K → K) (cl : Conj) (tril rhs : Mat K)
    (n k : ℕ) (h1 : ¬(64 < k ∧ n ≤ 128)) (h2 : ¬(n ≤ recursion_threshold)) :
    solve_lower_triangular_in_place_unchecked conj cl tril rhs n k =
      wback
        (wback (solve_lower_triangular_in_place_unchecked conj cl tril rhs (blocksize n) k)
          (matmul_with_conj conj
            (subm (solve_lower_triangular_in_place_unchecked conj cl tril rhs (blocksize n) k) (blocksize n) 0)
            (subm tril (blocksize n) 0) cl
            (solve_lower_triangular_in_place_unchecked conj cl tril rhs (blocksize n) k) .no
            (n - blocksize n) (blocksize n) k (some 1) (-1))
          (blocksize n) 0 (n - blocksize n) k)
        (solve_lower_triangular_in_place_unchecked conj cl (subm tril (blocksize n) (blocksize n))
          (subm (wback (solve_lower_triangular_in_place_unchecked conj cl tril rhs (blocksize n) k)
          (matmul_with_conj conj
            (subm (solve_lower_triangular_in_place_unchecked conj cl tril rhs (blocksize n) k) (blocksize n) 0)
            (subm tril (blocksize n) 0) cl
            (solve_lower_triangular_in_place_unchecked conj cl tril rhs (blocksize n) k) .no
            (n - blocksize n) (blocksize n) k (some 1) (-1))
          (blocksize n) 0 (n - blocksize n) k) (blocksize n) 0)
          (n - blocksize n) k)
        (blocksize n) 0 (n - blocksize n) k := by
  rw [solve_lower_triangular_in_place_unchecked.eq_def, dif_neg h1, dif_neg h2]

theorem solve_unit_lower_unfold_cols (conj : K → K) (cl : Conj) (tril rhs : Mat K)
    (n k : ℕ) (h1 : 64 < k ∧ n ≤ 128) :
    solve_unit_lower_triangular_in_place_unchecked conj cl tril rhs n k =
      wback (solve_unit_lower_triangular_in_place_unchecked conj cl tril rhs n (k / 2))
        (solve_unit_lower_triangular_in_place_unchecked conj cl tril
          (subm (solve_unit_lower_triangular_in_place_unchecked conj cl tril rhs n (k / 2))
            0 (k / 2)) n (k - k / 2))
        0 (k / 2) n (k - k / 2) := by
  rw [solve_unit_lower_triangular_in_place_unchecked.eq_def, dif_pos h1]

theorem solve_unit_lower_unfold_base (conj : K → K) (cl : Conj) (tril rhs : Mat K)
    (n k : ℕ) (h1 : ¬(64 < k ∧ n ≤ 128)) (h2 : n ≤ recursion_threshold) :
    solve_unit_lower_triangular_in_place_unchecked conj cl tril rhs n k =
      solve_unit_lower_base_case (maybeConj conj cl) tril rhs n k := by
  cases cl <;>
    · rw [solve_unit_lower_triangular_in_place_unchecked.eq_def, dif_neg h1, dif_pos h2]
      rfl

theorem solve_unit_lower_unfold_rec (conj : K → K) (cl : Conj) (tril rhs : Mat K)
    (n k : ℕ) (h1 : ¬(64 < k ∧ n ≤ 128)) (h2 : ¬(n ≤ recursion_threshold)) :
    solve_unit_lower_triangular_in_place_unchecked conj cl tril rhs n k =
      wback
        (wback (solve_unit_lower_triangular_in_place_unchecked conj cl tril rhs (blocksize n) k)
          (matmul_with_conj conj
            (subm (solve_unit_lower_triangular_in_place_unchecked conj cl tril rhs (blocksize n) k) (blocksize n) 0)
            (subm tril (blocksize n) 0) cl
            (solve_unit_lower_triangular_in_place_unchecked conj cl tril rhs (blocksize n) k) .no
            (n - blocksize n) (blocksize n) k (some 1) (-1))
          (blocksize n) 0 (n - blocksize n) k)
        (solve_unit_lower_triangular_in_place_unchecked conj cl (subm tril (blocksize n) (blocksize n))
          (subm (wback (solve_unit_lower_triangular_in_place_unchecked conj cl tril rhs (blocksize n) k)
          (matmul_with_conj conj
            (subm (solve_unit_lower_triangular_in_place_unchecked conj cl tril rhs (blocksize n) k) (blocksize n) 0)
            (subm tril (blocksize n) 0) cl
            (solve_unit_lower_triangular_in_place_unchecked conj cl tril rhs (blocksize n) k) .no
            (n - blocksize n) (blocksize n) k (some 1) (-1))
          (blocksize n) 0 (n - blocksize n) k) (blocksize n) 0)
          (n - blocksize n) k)
        (blocksize n) 0 (n - blocksize n) k := by
  rw [solve_unit_lower_triangular_in_place_unchecked.eq_def, dif_neg h1, dif_neg h2]

/-- Correctness of the recursive non unit lower triangular solve: multiplying
the (conjugated) lower triangle of T by the in place result reproduces the
right hand side on the n by k region, and the result agrees with the right
hand side off the region. -/
theorem solve_lower_correct (conj : K → K) (cl : Conj) :
    ∀ (N : ℕ) (tril rhs : Mat K) (n k : ℕ), 2 * k + n ≤ N →
      (∀ i, i < n → maybeConj conj cl (tril i i) ≠ 0) →
      ((∀ i j, i < n → j < k →
        matProd (lowerTriOf (mapMat (maybeConj conj cl) tril) n)
          (solve_lower_triangular_in_place_unchecked conj cl tril rhs n k) n i j
          = rhs i j) ∧
       (∀ i j, n ≤ i ∨ k ≤ j →
        solve_lower_triangular_in_place_unchecked conj cl tril rhs n k i j
          = rhs i j)) := by
  intro N
  induction N with
  | zero =>
    intro tril rhs n k hN hd
    have hn : n = 0 := by omega
    have hk : k = 0 := by omega
    subst hn hk
    rw [solve_lower_unfold_base conj cl tril rhs 0 0 (by simp) (by simp [recursion_threshold])]
    exact ⟨fun i j hi => absurd hi (by omega), fun i j h => rfl⟩
  | succ N ih =>
    intro tril rhs n k hN hd
    by_cases h1 : 64 < k ∧ n ≤ 128
    · rw [solve_lower_unfold_cols conj cl tril rhs n k h1]
      set L := solve_lower_triangular_in_place_unchecked conj cl tril rhs n (k / 2)
        with hLdef
      set R := solve_lower_triangular_in_place_unchecked conj cl tril
        (subm L 0 (k / 2)) n (k - k / 2) with hRdef
      have IHL := ih tril rhs n (k / 2) (by omega) hd
      have IHR := ih tril (subm L 0 (k / 2)) n (k - k / 2) (by omega) hd
      constructor
      · intro i j hi hj
        by_cases hj2 : j < k / 2
        · have hres : ∀ t, wback L R 0 (k / 2) n (k - k / 2) t j = L t j :=
            fun t => wback_notin (by omega)
          have : matProd (lowerTriOf (mapMat (maybeConj conj cl) tril) n)
              (wback L R 0 (k / 2) n (k - k / 2)) n i j =
              matProd (lowerTriOf (mapMat (maybeConj conj cl) tril) n) L n i j := by
            simp only [matProd]
            exact Finset.sum_congr rfl fun t ht => by rw [hres t]
          rw [this]
          exact IHL.1 i j hi hj2
        · have hres : ∀ t, wback L R 0 (k / 2) n (k - k / 2) t j =
              if t < n then R t (j - k / 2) else L t j := by
            intro t
            by_cases htn : t < n
            · rw [wback_in (by omega), if_pos htn, Nat.sub_zero]
            · rw [wback_notin (by omega), if_neg htn]
          have step1 : matProd (lowerTriOf (mapMat (maybeConj conj cl) tril) n)
              (wback L R 0 (k / 2) n (k - k / 2)) n i j =
              matProd (lowerTriOf (mapMat (maybeConj conj cl) tril) n) R n i
                (j - k / 2) := by
            simp only [matProd]
            refine Finset.sum_congr rfl fun t ht => ?_
            rw [hres t, if_pos (Finset.mem_range.mp ht)]
          rw [step1, IHR.1 i (j - k / 2) hi (by omega)]
          have : subm L 0 (k / 2) i (j - k / 2) = L i j := by
            simp only [subm]
            rw [show (0 : ℕ) + i = i by omega, show k / 2 + (j - k / 2) = j by omega]
          rw [this]
          exact IHL.2 i j (Or.inr (by omega))
      · intro i j h
        have : wback L R 0 (k / 2) n (k - k / 2) i j = L i j :=
          wback_notin (by omega)
        rw [this]
        exact IHL.2 i j (by omega)
    · by_cases h2 : n ≤ recursion_threshold
      · rw [solve_lower_unfold_base conj cl tril rhs n k h1 h2]
        exact solve_lower_base_correct (maybeConj conj cl) tril rhs n k h2 hd
      · rw [solve_lower_unfold_rec conj cl tril rhs n k h1 h2]
        have hn4 : 4 < n := by simpa [recursion_threshold] using h2
        have hbs0 : 0 < blocksize n := blocksize_pos hn4
        have hbsn : blocksize n < n := blocksize_lt hn4
        set bs := blocksize n with hbsdef
        clear_value bs
        set cf := maybeConj conj cl with hcfdef
        set s1 := solve_lower_triangular_in_place_unchecked conj cl tril rhs bs k
          with hs1def
        set upd := matmul_with_conj conj (subm s1 bs 0) (subm tril bs 0) cl s1 .no
          (n - bs) bs k (some 1) (-1) with hupddef
        set s2 := wback s1 upd bs 0 (n - bs) k with hs2def
        set s3 := solve_lower_triangular_in_place_unchecked conj cl
          (subm tril bs bs) (subm s2 bs 0) (n - bs) k with hs3def
        have IH1 := ih tril rhs bs k (by omega) (fun i hi => hd i (by omega))
        have IH2 := ih (subm tril bs bs) (subm s2 bs 0) (n - bs) k (by omega)
          (fun i hi => by
            have := hd (bs + i) (by omega)
            simpa [subm, hcfdef] using this)
        rw [← hs1def] at IH1
        rw [← hs3def] at IH2
        constructor
        · intro i j hi hj
          have hreslow : ∀ t, t < bs →
              wback s2 s3 bs 0 (n - bs) k t j = s1 t j := by
            intro t ht
            rw [wback_notin (by omega), hs2def, wback_notin (by omega)]
          by_cases hibs : i < bs
          · have step1 : matProd (lowerTriOf (mapMat cf tril) n)
                (wback s2 s3 bs 0 (n - bs) k) n i j =
                ∑ t ∈ Finset.range n,
                  lowerTriOf (mapMat cf tril) bs i t * s1 t j := by
              simp only [matProd]
              refine Finset.sum_congr rfl fun t ht => ?_
              by_cases htle : t ≤ i
              · have ht1 : lowerTriOf (mapMat cf tril) n i t =
                    lowerTriOf (mapMat cf tril) bs i t := by
                  simp only [lowerTriOf]
                  rw [if_pos ⟨hi, htle⟩, if_pos ⟨hibs, htle⟩]
                rw [ht1, hreslow t (by omega)]
              · simp only [lowerTriOf]
                rw [if_neg (by omega), if_neg (by omega), zero_mul, zero_mul]
            rw [step1]
            have step2 : ∑ t ∈ Finset.range n,
                lowerTriOf (mapMat cf tril) bs i t * s1 t j =
                matProd (lowerTriOf (mapMat cf tril) bs) s1 bs i j := by
              simp only [matProd]
              refine (Finset.sum_subset (Finset.range_subset.mpr (by omega))
                fun t ht htn => ?_).symm
              have : ¬(t < bs) := by
                simpa using htn
              simp only [lowerTriOf]
              rw [if_neg (by omega), zero_mul]
            rw [step2]
            exact IH1.1 i j hibs hj
          · have hsplit : matProd (lowerTriOf (mapMat cf tril) n)
                (wback s2 s3 bs 0 (n - bs) k) n i j =
                (∑ t ∈ Finset.range bs, cf (tril i t) * s1 t j) +
                  ∑ u ∈ Finset.range (n - bs),
                    lowerTriOf (mapMat cf (subm tril bs bs)) (n - bs) (i - bs) u *
                      s3 u j := by
              simp only [matProd]
              rw [show Finset.range n = Finset.range (bs + (n - bs)) by
                    rw [show bs + (n - bs) = n by omega],
                  sum_range_split]
              congr 1
              · refine Finset.sum_congr rfl fun t ht => ?_
                have ht' : t < bs := Finset.mem_range.mp ht
                rw [hreslow t ht']
                simp only [lowerTriOf, mapMat]
                rw [if_pos (show i < n ∧ t ≤ i from ⟨by omega, by omega⟩)]
              · refine Finset.sum_congr rfl fun u hu => ?_
                have hu' : u < n - bs := Finset.mem_range.mp hu
                have e1 : wback s2 s3 bs 0 (n - bs) k (bs + u) j = s3 u j := by
                  rw [wback_in (by omega), Nat.add_sub_cancel_left, Nat.sub_zero]
                rw [e1]
                simp only [lowerTriOf, mapMat, subm]
                by_cases hle : bs + u ≤ i
                · rw [if_pos (show i < n ∧ bs + u ≤ i from ⟨hi, hle⟩),
                    if_pos (show i - bs < n - bs ∧ u ≤ i - bs from
                      ⟨by omega, by omega⟩),
                    show bs + (i - bs) = i from by omega]
                · rw [if_neg (show ¬(i < n ∧ bs + u ≤ i) from by omega),
                    if_neg (show ¬(i - bs < n - bs ∧ u ≤ i - bs) from by omega)]
            rw [hsplit]
            have hbot : ∑ u ∈ Finset.range (n - bs),
                lowerTriOf (mapMat cf (subm tril bs bs)) (n - bs) (i - bs) u *
                  s3 u j = subm s2 bs 0 (i - bs) j := by
              have := IH2.1 (i - bs) j (by omega) hj
              simpa [matProd, hcfdef] using this
            rw [hbot]
            have hs2v : subm s2 bs 0 (i - bs) j = upd (i - bs) j := by
              simp only [subm, hs2def]
              rw [show bs + (i - bs) = i by omega, show 0 + j = j by omega]
              rw [wback_in (by omega), Nat.sub_zero]
            rw [hs2v]
            have hupdv : upd (i - bs) j =
                s1 i j - ∑ t ∈ Finset.range bs, cf (tril i t) * s1 t j := by
              simp only [hupddef, matmul_with_conj]
              rw [if_pos ⟨by omega, hj⟩]
              simp only [subm, maybeConj, hcfdef, Nat.zero_add,
                show bs + (i - bs) = i by omega]
              ring
            rw [hupdv, IH1.2 i j (Or.inl (by omega))]
            ring
        · intro i j h
          rw [wback_notin (by omega), hs2def, wback_notin (by omega)]
          exact IH1.2 i j (by omega)

/-- Correctness of the recursive unit lower triangular solve. -/
theorem solve_unit_lower_correct (conj : K → K) (cl : Conj) :
    ∀ (N : ℕ) (tril rhs : Mat K) (n k : ℕ), 2 * k + n ≤ N →
      ((∀ i j, i < n → j < k →
        matProd (unitLowerOf (mapMat (maybeConj conj cl) tril) n)
          (solve_unit_lower_triangular_in_place_unchecked conj cl tril rhs n k) n i j
          = rhs i j) ∧
       (∀ i j, n ≤ i ∨ k ≤ j →
        solve_unit_lower_triangular_in_place_unchecked conj cl tril rhs n k i j
          = rhs i j)) := by
  intro N
  induction N with
  | zero =>
    intro tril rhs n k hN
    have hn : n = 0 := by omega
    have hk : k = 0 := by omega
    subst hn hk
    rw [solve_unit_lower_unfold_base conj cl tril rhs 0 0 (by simp)
      (by simp [recursion_threshold])]
    exact ⟨fun i j hi => absurd hi (by omega), fun i j h => rfl⟩
  | succ N ih =>
    intro tril rhs n k hN
    by_cases h1 : 64 < k ∧ n ≤ 128
    · rw [solve_unit_lower_unfold_cols conj cl tril rhs n k h1]
      set L := solve_unit_lower_triangular_in_place_unchecked conj cl tril rhs n (k / 2)
        with hLdef
      set R := solve_unit_lower_triangular_in_place_unchecked conj cl tril
        (subm L 0 (k / 2)) n (k - k / 2) with hRdef
      have IHL := ih tril rhs n (k / 2) (by omega)
      have IHR := ih tril (subm L 0 (k / 2)) n (k - k / 2) (by omega)
      constructor
      · intro i j hi hj
        by_cases hj2 : j < k / 2
        · have hres : ∀ t, wback L R 0 (k / 2) n (k - k / 2) t j = L t j :=
            fun t => wback_notin (by omega)
          have : matProd (unitLowerOf (mapMat (maybeConj conj cl) tril) n)
              (wback L R 0 (k / 2) n (k - k / 2)) n i j =
              matProd (unitLowerOf (mapMat (maybeConj conj cl) tril) n) L n i j := by
            simp only [matProd]
            exact Finset.sum_congr rfl fun t ht => by rw [hres t]
          rw [this]
          exact IHL.1 i j hi hj2
        · have hres : ∀ t, wback L R 0 (k / 2) n (k - k / 2) t j =
              if t < n then R t (j - k / 2) else L t j := by
            intro t
            by_cases htn : t < n
            · rw [wback_in (by omega), if_pos htn, Nat.sub_zero]
            · rw [wback_notin (by omega), if_neg htn]
          have step1 : matProd (unitLowerOf (mapMat (maybeConj conj cl) tril) n)
              (wback L R 0 (k / 2) n (k - k / 2)) n i j =
              matProd (unitLowerOf (mapMat (maybeConj conj cl) tril) n) R n i
                (j - k / 2) := by
            simp only [matProd]
            refine Finset.sum_congr rfl fun t ht => ?_
            rw [hres t, if_pos (Finset.mem_range.mp ht)]
          rw [step1, IHR.1 i (j - k / 2) hi (by omega)]
          have : subm L 0 (k / 2) i (j - k / 2) = L i j := by
            simp only [subm]
            rw [show (0 : ℕ) + i = i by omega, show k / 2 + (j - k / 2) = j by omega]
          rw [this]
          exact IHL.2 i j (Or.inr (by omega))
      · intro i j h
        have : wback L R 0 (k / 2) n (k - k / 2) i j = L i j :=
          wback_notin (by omega)
        rw [this]
        exact IHL.2 i j (by omega)
    · by_cases h2 : n ≤ recursion_threshold
      · rw [solve_unit_lower_unfold_base conj cl tril rhs n k h1 h2]
        exact solve_unit_lower_base_correct (maybeConj conj cl) tril rhs n k h2
      · rw [solve_unit_lower_unfold_rec conj cl tril rhs n k h1 h2]
        have hn4 : 4 < n := by simpa [recursion_threshold] using h2
        have hbs0 : 0 < blocksize n := blocksize_pos hn4
        have hbsn : blocksize n < n := blocksize_lt hn4
        set bs := blocksize n with hbsdef
        clear_value bs
        set cf := maybeConj conj cl with hcfdef
        set s1 := solve_unit_lower_triangular_in_place_unchecked conj cl tril rhs bs k
          with hs1def
        set upd := matmul_with_conj conj (subm s1 bs 0) (subm tril bs 0) cl s1 .no
          (n - bs) bs k (some 1) (-1) with hupddef
        set s2 := wback s1 upd bs 0 (n - bs) k with hs2def
        set s3 := solve_unit_lower_triangular_in_place_unchecked conj cl
          (subm tril bs bs) (subm s2 bs 0) (n - bs) k with hs3def
        have IH1 := ih tril rhs bs k (by omega)
        have IH2 := ih (subm tril bs bs) (subm s2 bs 0) (n - bs) k (by omega)
        rw [← hs1def] at IH1
        rw [← hs3def] at IH2
        constructor
        · intro i j hi hj
          have hreslow : ∀ t, t < bs →
              wback s2 s3 bs 0 (n - bs) k t j = s1 t j := by
            intro t ht
            rw [wback_notin (by omega), hs2def, wback_notin (by omega)]
          by_cases hibs : i < bs
          · have step1 : matProd (unitLowerOf (mapMat cf tril) n)
                (wback s2 s3 bs 0 (n - bs) k) n i j =
                ∑ t ∈ Finset.range n,
                  unitLowerOf (mapMat cf tril) bs i t * s1 t j := by
              simp only [matProd]
              refine Finset.sum_congr rfl fun t ht => ?_
              by_cases htle : t ≤ i
              · have ht1 : unitLowerOf (mapMat cf tril) n i t =
                    unitLowerOf (mapMat cf tril) bs i t := by
                  simp only [unitLowerOf]
                  by_cases hlt : t < i
                  · rw [if_pos (show i < n ∧ t < i from ⟨hi, hlt⟩),
                      if_pos (show i < bs ∧ t < i from ⟨hibs, hlt⟩)]
                  · have hti : t = i := by omega
                    rw [if_neg (show ¬(i < n ∧ t < i) from by omega),
                      if_neg (show ¬(i < bs ∧ t < i) from by omega),
                      if_pos (show i < n ∧ t = i from ⟨hi, hti⟩),
                      if_pos (show i < bs ∧ t = i from ⟨hibs, hti⟩)]
                rw [ht1, hreslow t (by omega)]
              · simp only [unitLowerOf]
                rw [if_neg (show ¬(i < n ∧ t < i) from by omega),
                  if_neg (show ¬(i < n ∧ t = i) from by omega),
                  if_neg (show ¬(i < bs ∧ t < i) from by omega),
                  if_neg (show ¬(i < bs ∧ t = i) from by omega),
                  zero_mul, zero_mul]
            rw [step1]
            have step2 : ∑ t ∈ Finset.range n,
                unitLowerOf (mapMat cf tril) bs i t * s1 t j =
                matProd (unitLowerOf (mapMat cf tril) bs) s1 bs i j := by
              simp only [matProd]
              refine (Finset.sum_subset (Finset.range_subset.mpr (by omega))
                fun t ht htn => ?_).symm
              have : ¬(t < bs) := by simpa using htn
              simp only [unitLowerOf]
              rw [if_neg (show ¬(i < bs ∧ t < i) from by omega),
                if_neg (show ¬(i < bs ∧ t = i) from by omega), zero_mul]
            rw [step2]
            exact IH1.1 i j hibs hj
          · have hsplit : matProd (unitLowerOf (mapMat cf tril) n)
                (wback s2 s3 bs 0 (n - bs) k) n i j =
                (∑ t ∈ Finset.range bs, cf (tril i t) * s1 t j) +
                  ∑ u ∈ Finset.range (n - bs),
                    unitLowerOf (mapMat cf (subm tril bs bs)) (n - bs) (i - bs) u *
                      s3 u j := by
              simp only [matProd]
              rw [show Finset.range n = Finset.range (bs + (n - bs)) by
                    rw [show bs + (n - bs) = n by omega],
                  sum_range_split]
              congr 1
              · refine Finset.sum_congr rfl fun t ht => ?_
                have ht' : t < bs := Finset.mem_range.mp ht
                rw [hreslow t ht']
                simp only [unitLowerOf, mapMat]
                rw [if_pos (show i < n ∧ t < i from ⟨by omega, by omega⟩)]
              · refine Finset.sum_congr rfl fun u hu => ?_
                have hu' : u < n - bs := Finset.mem_range.mp hu
                have e1 : wback s2 s3 bs 0 (n - bs) k (bs + u) j = s3 u j := by
                  rw [wback_in (by omega), Nat.add_sub_cancel_left, Nat.sub_zero]
                rw [e1]
                simp only [unitLowerOf, mapMat, subm]
                by_cases hlt : bs + u < i
                · rw [if_pos (show i < n ∧ bs + u < i from ⟨hi, hlt⟩),
                    if_pos (show i - bs < n - bs ∧ u < i - bs from
                      ⟨by omega, by omega⟩),
                    show bs + (i - bs) = i from by omega]
                · by_cases heq : bs + u = i
                  · rw [if_neg (show ¬(i < n ∧ bs + u < i) from by omega),
                      if_neg (show ¬(i - bs < n - bs ∧ u < i - bs) from by omega),
                      if_pos (show i < n ∧ bs + u = i from ⟨hi, heq⟩),
                      if_pos (show i - bs < n - bs ∧ u = i - bs from
                        ⟨by omega, by omega⟩)]
                  · rw [if_neg (show ¬(i < n ∧ bs + u < i) from by omega),
                      if_neg (show ¬(i < n ∧ bs + u = i) from by omega),
                      if_neg (show ¬(i - bs < n - bs ∧ u < i - bs) from by omega),
                      if_neg (show ¬(i - bs < n - bs ∧ u = i - bs) from by omega)]
            rw [hsplit]
            have hbot : ∑ u ∈ Finset.range (n - bs),
                unitLowerOf (mapMat cf (subm tril bs bs)) (n - bs) (i - bs) u *
                  s3 u j = subm s2 bs 0 (i - bs) j := by
              have := IH2.1 (i - bs) j (by omega) hj
              simpa [matProd, hcfdef] using this
            rw [hbot]
            have hs2v : subm s2 bs 0 (i - bs) j = upd (i - bs) j := by
              simp only [subm, hs2def]
              rw [show bs + (i - bs) = i by omega, show 0 + j = j by omega]
              rw [wback_in (by omega), Nat.sub_zero]
            rw [hs2v]
            have hupdv : upd (i - bs) j =
                s1 i j - ∑ t ∈ Finset.range bs, cf (tril i t) * s1 t j := by
              simp only [hupddef, matmul_with_conj]
              rw [if_pos ⟨by omega, hj⟩]
              simp only [subm, maybeConj, hcfdef, Nat.zero_add,
                show bs + (i - bs) = i by omega]
              ring
            rw [hupdv, IH1.2 i j (Or.inl (by omega))]
            ring
        · intro i j h
          rw [wback_notin (by omega), hs2def, wback_notin (by omega)]
          exact IH1.2 i j (by omega)

theorem solve_upper_entry (conj : K → K) (cl : Conj) (triu rhs : Mat K)
    (n k : ℕ) {t j : ℕ} (ht : t < n) (hj : j < k) :
    solve_upper_triangular_in_place_unchecked conj cl triu rhs n k t j =
      solve_lower_triangular_in_place_unchecked conj cl
        (reverse_rows_and_cols triu n) (reverse_rows rhs n) n k (n - 1 - t) j := by
  simp only [solve_upper_triangular_in_place_unchecked]
  rw [wback_in ⟨by omega, by omega, by omega, by omega⟩, Nat.sub_zero, Nat.sub_zero]
  rfl

theorem solve_unit_upper_entry (conj : K → K) (cl : Conj) (triu rhs : Mat K)
    (n k : ℕ) {t j : ℕ} (ht : t < n) (hj : j < k) :
    solve_unit_upper_triangular_in_place_unchecked conj cl triu rhs n k t j =
      solve_unit_lower_triangular_in_place_unchecked conj cl
        (reverse_rows_and_cols triu n) (reverse_rows rhs n) n k (n - 1 - t) j := by
  simp only [solve_unit_upper_triangular_in_place_unchecked]
  rw [wback_in ⟨by omega, by omega, by omega, by omega⟩, Nat.sub_zero, Nat.sub_zero]
  rfl

theorem upperTri_reflect (cf : K → K) (triu : Mat K) (n i t : ℕ)
    (hi : i < n) (ht : t < n) :
    upperTriOf (mapMat cf triu) n i t =
      lowerTriOf (mapMat cf (reverse_rows_and_cols triu n)) n (n - 1 - i)
        (n - 1 - t) := by
  simp only [upperTriOf, lowerTriOf, mapMat, reverse_rows_and_cols]
  by_cases hle : i ≤ t
  · rw [if_pos ⟨hle, ht⟩,
      if_pos (show n - 1 - i < n ∧ n - 1 - t ≤ n - 1 - i from ⟨by omega, by omega⟩),
      show n - 1 - (n - 1 - i) = i from by omega,
      show n - 1 - (n - 1 - t) = t from by omega]
  · rw [if_neg (show ¬(i ≤ t ∧ t < n) from by omega),
      if_neg (show ¬(n - 1 - i < n ∧ n - 1 - t ≤ n - 1 - i) from by omega)]

theorem unitUpper_reflect (cf : K → K) (triu : Mat K) (n i t : ℕ)
    (hi : i < n) (ht : t < n) :
    unitUpperOf (mapMat cf triu) n i t =
      unitLowerOf (mapMat cf (reverse_rows_and_cols triu n)) n (n - 1 - i)
        (n - 1 - t) := by
  simp only [unitUpperOf, unitLowerOf, mapMat, reverse_rows_and_cols]
  by_cases hlt : i < t
  · rw [if_pos ⟨hlt, ht⟩,
      if_pos (show n - 1 - i < n ∧ n - 1 - t < n - 1 - i from ⟨by omega, by omega⟩),
      show n - 1 - (n - 1 - i) = i from by omega,
      show n - 1 - (n - 1 - t) = t from by omega]
  · by_cases heq : t = i
    · rw [if_neg (show ¬(i < t ∧ t < n) from by omega),
        if_pos ⟨heq, hi⟩,
        if_neg (show ¬(n - 1 - i < n ∧ n - 1 - t < n - 1 - i) from by omega),
        if_pos (show n - 1 - i < n ∧ n - 1 - t = n - 1 - i from ⟨by omega, by omega⟩)]
    · rw [if_neg (show ¬(i < t ∧ t < n) from by omega),
        if_neg (show ¬(t = i ∧ i < n) from by omega),
        if_neg (show ¬(n - 1 - i < n ∧ n - 1 - t < n - 1 - i) from by omega),
        if_neg (show ¬(n - 1 - i < n ∧ n - 1 - t = n - 1 - i) from by omega)]

/-! ### Positive definiteness and the Schur complement argument -/

/-- The symmetric matrix determined by the lower triangular half of B: the
factorizations read only the lower half of their input. -/
def symLower (B : Mat K) : Mat K := fun i j => if j ≤ i then B i j else B j i

theorem symLower_symm (B : Mat K) (i j : ℕ) : symLower B i j = symLower B j i := by
  simp only [symLower]
  rcases Nat.lt_trichotomy i j with h | h | h
  · rw [if_neg (by omega), if_pos (by omega)]
  · subst h
    rfl
  · rw [if_pos (by omega), if_neg (by omega)]

theorem symLower_low (B : Mat K) {i j : ℕ} (h : j ≤ i) : symLower B i j = B i j := by
  simp only [symLower]
  rw [if_pos h]

/-- The quadratic form of the n by n region. -/
def quadForm (A : Mat K) (n : ℕ) (x : ℕ → K) : K :=
  ∑ i ∈ Finset.range n, ∑ j ∈ Finset.range n, x i * A i j * x j

/-- Positive definiteness of the n by n region. -/
def PosDefOn (A : Mat K) (n : ℕ) : Prop :=
  ∀ x : ℕ → K, (∃ i, i < n ∧ x i ≠ 0) → 0 < quadForm A n x

theorem quadForm_trunc (A : Mat K) {m n : ℕ} (hmn : m ≤ n) (x : ℕ → K)
    (hx : ∀ i, m ≤ i → x i = 0) : quadForm A n x = quadForm A m x := by
  unfold quadForm
  rw [← Finset.sum_subset (Finset.range_subset.mpr hmn) (fun i hi hin => by
    rw [hx i (by simpa using hin)]
    simp)]
  refine Finset.sum_congr rfl fun i hi => ?_
  rw [← Finset.sum_subset (Finset.range_subset.mpr hmn) (fun j hj hjn => by
    rw [hx j (by simpa using hjn), mul_zero])]

theorem posDefOn_mono (A : Mat K) {m n : ℕ} (hmn : m ≤ n) (hA : PosDefOn A n) :
    PosDefOn A m := by
  intro x hx
  obtain ⟨i, hi, hxi⟩ := hx
  set y : ℕ → K := fun t => if t < m then x t else 0 with hy
  have hya : ∀ a, a < m → y a = x a := by
    intro a ha
    simp only [hy]
    rw [if_pos ha]
  have hyb : ∀ a, m ≤ a → y a = 0 := by
    intro a ha
    simp only [hy]
    rw [if_neg (by omega)]
  have h1 : quadForm A m x = quadForm A m y := by
    unfold quadForm
    refine Finset.sum_congr rfl fun a ha => Finset.sum_congr rfl fun b hb => ?_
    rw [hya a (Finset.mem_range.mp ha), hya b (Finset.mem_range.mp hb)]
  have h2 : quadForm A n y = quadForm A m y := quadForm_trunc A hmn y hyb
  have h3 := hA y ⟨i, by omega, by rw [hya i hi]; exact hxi⟩
  rw [h2] at h3
  rw [h1]
  exact h3

theorem sum_range_extend (f : ℕ → K) {j m : ℕ} (h : j < m) :
    ∑ t ∈ Finset.range (j + 1), f t =
      ∑ t ∈ Finset.range m, if t ≤ j then f t else 0 := by
  rw [← Finset.sum_filter]
  congr 1
  ext t
  simp only [Finset.mem_filter, Finset.mem_range]
  omega

theorem sum_ite_Ico (f : ℕ → K) (a m : ℕ) :
    ∑ t ∈ Finset.range m, (if a ≤ t then f t else 0) =
      ∑ t ∈ Finset.Ico a m, f t := by
  rw [← Finset.sum_filter]
  congr 1
  ext t
  simp only [Finset.mem_filter, Finset.mem_range, Finset.mem_Ico]
  omega

/-- Back substitution for the transposed lower factor: z = backSub L m w
satisfies, for j below m, the equation sum over t in [j, m) of L t j * z t
equal to w j, reading only the lower entries and diagonal of L. -/
def backSub (L : Mat K) (m : ℕ) (w : ℕ → K) (j : ℕ) : K :=
  (w j - ∑ t ∈ (Finset.Ico (j + 1) m).attach, L t.1 j * backSub L m w t.1) *
    (L j j)⁻¹
termination_by m - j
decreasing_by
  have := Finset.mem_Ico.mp t.2
  omega

theorem backSub_correct (L : Mat K) (m : ℕ) (w : ℕ → K)
    (hd : ∀ j, j < m → L j j ≠ 0) :
    ∀ j, j < m → ∑ t ∈ Finset.Ico j m, L t j * backSub L m w t = w j := by
  intro j hj
  rw [Finset.sum_eq_sum_Ico_succ_bot (by omega : j < m)]
  rw [backSub, Finset.sum_attach (Finset.Ico (j + 1) m)
    (fun t => L t j * backSub L m w t)]
  have hLd := hd j hj
  field_simp

/-- The indicator extended lower factor entries. -/
def lowInd (L : Mat K) : Mat K := fun i t => if t ≤ i then L i t else 0

theorem sum_sum_factor (m bsz : ℕ) (c : ℕ → K) (E : Mat K) (D : ℕ → K) :
    ∑ i ∈ Finset.range m, ∑ j ∈ Finset.range m,
        c i * c j * ∑ t ∈ Finset.range bsz, E i t * D t * E j t =
      ∑ t ∈ Finset.range bsz, D t * (∑ i ∈ Finset.range m, c i * E i t) *
        (∑ j ∈ Finset.range m, c j * E j t) := by
  have step1 : ∀ i ∈ Finset.range m, ∀ j ∈ Finset.range m,
      c i * c j * ∑ t ∈ Finset.range bsz, E i t * D t * E j t =
        ∑ t ∈ Finset.range bsz, c i * c j * (E i t * D t * E j t) := by
    intro i hi j hj
    rw [Finset.mul_sum]
  rw [Finset.sum_congr rfl fun i hi => Finset.sum_congr rfl fun j hj =>
    step1 i hi j hj]
  rw [Finset.sum_congr rfl fun i hi => Finset.sum_comm]
  rw [Finset.sum_comm]
  refine Finset.sum_congr rfl fun t ht => ?_
  have inner : ∀ i, ∑ j ∈ Finset.range m, c i * c j * (E i t * D t * E j t) =
      (c i * E i t * D t) * ∑ j ∈ Finset.range m, c j * E j t := by
    intro i
    rw [Finset.mul_sum]
    exact Finset.sum_congr rfl fun j hj => by ring
  rw [Finset.sum_congr rfl fun i hi => inner i, ← Finset.sum_mul]
  have outer : ∑ i ∈ Finset.range m, c i * E i t * D t =
      D t * ∑ i ∈ Finset.range m, c i * E i t := by
    rw [Finset.mul_sum]
    exact Finset.sum_congr rfl fun i hi => by ring
  rw [outer]

theorem sum_sum_factor2 (m1 m2 bsz : ℕ) (c1 c2 : ℕ → K) (E1 E2 : Mat K)
    (D : ℕ → K) :
    ∑ i ∈ Finset.range m1, ∑ j ∈ Finset.range m2,
        c1 i * c2 j * ∑ t ∈ Finset.range bsz, E1 i t * D t * E2 j t =
      ∑ t ∈ Finset.range bsz, D t * (∑ i ∈ Finset.range m1, c1 i * E1 i t) *
        (∑ j ∈ Finset.range m2, c2 j * E2 j t) := by
  have step1 : ∀ i ∈ Finset.range m1, ∀ j ∈ Finset.range m2,
      c1 i * c2 j * ∑ t ∈ Finset.range bsz, E1 i t * D t * E2 j t =
        ∑ t ∈ Finset.range bsz, c1 i * c2 j * (E1 i t * D t * E2 j t) := by
    intro i hi j hj
    rw [Finset.mul_sum]
  rw [Finset.sum_congr rfl fun i hi => Finset.sum_congr rfl fun j hj =>
    step1 i hi j hj]
  rw [Finset.sum_congr rfl fun i hi => Finset.sum_comm]
  rw [Finset.sum_comm]
  refine Finset.sum_congr rfl fun t ht => ?_
  have inner : ∀ i, ∑ j ∈ Finset.range m2, c1 i * c2 j * (E1 i t * D t * E2 j t) =
      (c1 i * E1 i t * D t) * ∑ j ∈ Finset.range m2, c2 j * E2 j t := by
    intro i
    rw [Finset.mul_sum]
    exact Finset.sum_congr rfl fun j hj => by ring
  rw [Finset.sum_congr rfl fun i hi => inner i, ← Finset.sum_mul]
  have outer2 : ∑ i ∈ Finset.range m1, c1 i * E1 i t * D t =
      D t * ∑ i ∈ Finset.range m1, c1 i * E1 i t := by
    rw [Finset.mul_sum]
    exact Finset.sum_congr rfl fun i hi => by ring
  rw [outer2]

/-- The weighted Schur complement of the leading bs block: the trailing block
of A minus Y D Y transposed. -/
def schurComp (A Y : Mat K) (D : ℕ → K) (bs : ℕ) : Mat K :=
  fun i j => A (bs + i) (bs + j) - ∑ t ∈ Finset.range bs, Y i t * D t * Y j t

/-- The Schur complement positivity argument, with a diagonal weight D so
that it serves both the LLT factorization (D identically one) and the LDLT
factorization: if the leading bs block of the symmetric matrix A carries the
factorization T D T transposed, the off diagonal block satisfies
Y D T transposed = A21, and A is positive definite on the n region, then
the Schur complement is positive definite on the (n - bs) region. -/
theorem schur_posdef {A T Y : Mat K} {D : ℕ → K} {n bs : ℕ}
    (hbs : bs ≤ n)
    (hAsym : ∀ i j, A i j = A j i)
    (hdne : ∀ j, j < bs → T j j ≠ 0)
    (hfact : ∀ i j, j ≤ i → i < bs →
      ∑ t ∈ Finset.range (j + 1), T i t * D t * T j t = A i j)
    (hY : ∀ i j, i < n - bs → j < bs →
      ∑ t ∈ Finset.range (j + 1), Y i t * D t * T j t = A (bs + i) j)
    (hA : PosDefOn A n) :
    PosDefOn (schurComp A Y D bs) (n - bs) := by
  intro y hy
  obtain ⟨i0, hi0, hy0⟩ := hy
  set v : ℕ → K := fun t => ∑ i ∈ Finset.range (n - bs), y i * Y i t with hv
  set z : ℕ → K := backSub T bs v with hz
  have hzc : ∀ j, j < bs → ∑ t ∈ Finset.Ico j bs, T t j * z t = v j :=
    backSub_correct T bs v hdne
  set x : ℕ → K :=
    fun i => if i < bs then -(z i) else if i < n then y (i - bs) else 0 with hx
  have hxlow : ∀ i, i < bs → x i = -(z i) := by
    intro i hi
    simp only [hx]
    rw [if_pos hi]
  have hxhigh : ∀ u, u < n - bs → x (bs + u) = y u := by
    intro u hu
    simp only [hx]
    rw [if_neg (by omega), if_pos (by omega), Nat.add_sub_cancel_left]
  have hEntryLow : ∀ i j, j ≤ i → i < bs → A i j =
      ∑ t ∈ Finset.range bs, lowInd T i t * D t * lowInd T j t := by
    intro i j hji hi
    rw [← hfact i j hji hi, sum_range_extend _ (by omega : j < bs)]
    refine Finset.sum_congr rfl fun t ht => ?_
    simp only [lowInd]
    by_cases h1 : t ≤ j
    · rw [if_pos h1, if_pos (by omega : t ≤ i), if_pos h1]
    · rw [if_neg h1, if_neg h1, mul_zero]
  have hEntry : ∀ i j, i < bs → j < bs → A i j =
      ∑ t ∈ Finset.range bs, lowInd T i t * D t * lowInd T j t := by
    intro i j hi hj
    rcases le_or_lt j i with h | h
    · exact hEntryLow i j h hi
    · rw [hAsym i j, hEntryLow j i (by omega) hj]
      exact Finset.sum_congr rfl fun t ht => by ring
  have hCross : ∀ u i, u < n - bs → i < bs → A (bs + u) i =
      ∑ t ∈ Finset.range bs, Y u t * D t * lowInd T i t := by
    intro u i hu hi
    rw [← hY u i hu hi, sum_range_extend _ (by omega : i < bs)]
    refine Finset.sum_congr rfl fun t ht => ?_
    simp only [lowInd]
    by_cases h1 : t ≤ i
    · rw [if_pos h1, if_pos h1]
    · rw [if_neg h1, if_neg h1, mul_zero]
  have hsig0 : ∀ t, t < bs →
      ∑ i ∈ Finset.range bs, z i * lowInd T i t = v t := by
    intro t ht
    have e : ∀ i, z i * lowInd T i t =
        if t ≤ i then T i t * z i else 0 := by
      intro i
      simp only [lowInd]
      by_cases h1 : t ≤ i
      · rw [if_pos h1, if_pos h1]
        ring
      · rw [if_neg h1, if_neg h1, mul_zero]
    rw [Finset.sum_congr rfl fun i hi => e i, sum_ite_Ico]
    exact hzc t ht
  have hsigneg : ∀ t, t < bs →
      ∑ i ∈ Finset.range bs, -(z i) * lowInd T i t = -(v t) := by
    intro t ht
    rw [← hsig0 t ht, ← Finset.sum_neg_distrib]
    exact Finset.sum_congr rfl fun i hi => by ring
  have hsplitQ : quadForm A n x =
      ((∑ i ∈ Finset.range bs, ∑ j ∈ Finset.range bs, x i * A i j * x j) +
        ∑ i ∈ Finset.range bs, ∑ u ∈ Finset.range (n - bs),
          x i * A i (bs + u) * x (bs + u)) +
      ((∑ u ∈ Finset.range (n - bs), ∑ j ∈ Finset.range bs,
          x (bs + u) * A (bs + u) j * x j) +
        ∑ u ∈ Finset.range (n - bs), ∑ u2 ∈ Finset.range (n - bs),
          x (bs + u) * A (bs + u) (bs + u2) * x (bs + u2)) := by
    unfold quadForm
    rw [show Finset.range n = Finset.range (bs + (n - bs)) by
      rw [show bs + (n - bs) = n by omega]]
    rw [sum_range_split bs (n - bs) _]
    congr 1
    · rw [← Finset.sum_add_distrib]
      exact Finset.sum_congr rfl fun i hi => sum_range_split bs (n - bs) _
    · rw [← Finset.sum_add_distrib]
      exact Finset.sum_congr rfl fun u hu => sum_range_split bs (n - bs) _
  have hP1 : ∑ i ∈ Finset.range bs, ∑ j ∈ Finset.range bs, x i * A i j * x j =
      ∑ t ∈ Finset.range bs, D t * v t * v t := by
    have e1 : ∀ i ∈ Finset.range bs, ∀ j ∈ Finset.range bs,
        x i * A i j * x j = -(z i) * -(z j) *
          ∑ t ∈ Finset.range bs, lowInd T i t * D t * lowInd T j t := by
      intro i hi j hj
      rw [hxlow i (Finset.mem_range.mp hi), hxlow j (Finset.mem_range.mp hj),
        hEntry i j (Finset.mem_range.mp hi) (Finset.mem_range.mp hj)]
      ring
    rw [Finset.sum_congr rfl fun i hi => Finset.sum_congr rfl fun j hj =>
      e1 i hi j hj]
    rw [sum_sum_factor2 bs bs bs (fun i => -(z i)) (fun j => -(z j))
      (lowInd T) (lowInd T) D]
    refine Finset.sum_congr rfl fun t ht => ?_
    rw [hsigneg t (Finset.mem_range.mp ht)]
    ring
  have hP2 : ∑ i ∈ Finset.range bs, ∑ u ∈ Finset.range (n - bs),
      x i * A i (bs + u) * x (bs + u) =
        -(∑ t ∈ Finset.range bs, D t * v t * v t) := by
    have e1 : ∀ i ∈ Finset.range bs, ∀ u ∈ Finset.range (n - bs),
        x i * A i (bs + u) * x (bs + u) = -(z i) * y u *
          ∑ t ∈ Finset.range bs, lowInd T i t * D t * Y u t := by
      intro i hi u hu
      have hflip : ∑ t ∈ Finset.range bs, Y u t * D t * lowInd T i t =
          ∑ t ∈ Finset.range bs, lowInd T i t * D t * Y u t :=
        Finset.sum_congr rfl fun t ht => by ring
      rw [hxlow i (Finset.mem_range.mp hi), hxhigh u (Finset.mem_range.mp hu),
        hAsym i (bs + u),
        hCross u i (Finset.mem_range.mp hu) (Finset.mem_range.mp hi), hflip]
      ring
    rw [Finset.sum_congr rfl fun i hi => Finset.sum_congr rfl fun u hu =>
      e1 i hi u hu]
    rw [sum_sum_factor2 bs (n - bs) bs (fun i => -(z i)) y (lowInd T) Y D]
    rw [← Finset.sum_neg_distrib]
    refine Finset.sum_congr rfl fun t ht => ?_
    rw [hsigneg t (Finset.mem_range.mp ht)]
    have hvy : ∑ u ∈ Finset.range (n - bs), y u * Y u t = v t := by
      simp only [hv]
    rw [hvy]
    ring
  have hP3 : ∑ u ∈ Finset.range (n - bs), ∑ j ∈ Finset.range bs,
      x (bs + u) * A (bs + u) j * x j =
        -(∑ t ∈ Finset.range bs, D t * v t * v t) := by
    have e1 : ∀ u ∈ Finset.range (n - bs), ∀ j ∈ Finset.range bs,
        x (bs + u) * A (bs + u) j * x j = y u * -(z j) *
          ∑ t ∈ Finset.range bs, Y u t * D t * lowInd T j t := by
      intro u hu j hj
      rw [hxhigh u (Finset.mem_range.mp hu), hxlow j (Finset.mem_range.mp hj),
        hCross u j (Finset.mem_range.mp hu) (Finset.mem_range.mp hj)]
      ring
    rw [Finset.sum_congr rfl fun u hu => Finset.sum_congr rfl fun j hj =>
      e1 u hu j hj]
    rw [sum_sum_factor2 (n - bs) bs bs y (fun j => -(z j)) Y (lowInd T) D]
    rw [← Finset.sum_neg_distrib]
    refine Finset.sum_congr rfl fun t ht => ?_
    rw [hsigneg t (Finset.mem_range.mp ht)]
    have hvy : ∑ u ∈ Finset.range (n - bs), y u * Y u t = v t := by
      simp only [hv]
    rw [hvy]
    ring
  have hP4 : quadForm (schurComp A Y D bs) (n - bs) y =
      (∑ u ∈ Finset.range (n - bs), ∑ u2 ∈ Finset.range (n - bs),
        y u * A (bs + u) (bs + u2) * y u2) -
        ∑ t ∈ Finset.range bs, D t * v t * v t := by
    unfold quadForm schurComp
    have e1 : ∀ u ∈ Finset.range (n - bs), ∀ u2 ∈ Finset.range (n - bs),
        y u * (A (bs + u) (bs + u2) -
            ∑ t ∈ Finset.range bs, Y u t * D t * Y u2 t) * y u2 =
          y u * A (bs + u) (bs + u2) * y u2 -
            y u * y u2 * ∑ t ∈ Finset.range bs, Y u t * D t * Y u2 t := by
      intro u hu u2 hu2
      ring
    rw [Finset.sum_congr rfl fun u hu => Finset.sum_congr rfl fun u2 hu2 =>
      e1 u hu u2 hu2]
    rw [Finset.sum_congr rfl fun u hu => Finset.sum_sub_distrib,
      Finset.sum_sub_distrib]
    congr 1
    rw [sum_sum_factor2 (n - bs) (n - bs) bs y y Y Y D]
  have hP4x : ∑ u ∈ Finset.range (n - bs), ∑ u2 ∈ Finset.range (n - bs),
      x (bs + u) * A (bs + u) (bs + u2) * x (bs + u2) =
        ∑ u ∈ Finset.range (n - bs), ∑ u2 ∈ Finset.range (n - bs),
          y u * A (bs + u) (bs + u2) * y u2 :=
    Finset.sum_congr rfl fun u hu => Finset.sum_congr rfl fun u2 hu2 => by
      rw [hxhigh u (Finset.mem_range.mp hu), hxhigh u2 (Finset.mem_range.mp hu2)]
  have hQ := hA x ⟨bs + i0, by omega, by rw [hxhigh i0 hi0]; exact hy0⟩
  rw [hsplitQ, hP1, hP2, hP3, hP4x] at hQ
  rw [hP4]
  linarith

/-- The (empty) tuning parameter struct of the LLT kernel. -/
structure LltParams where

/-- cholesky_in_place_req from src/faer-libs/faer-cholesky/src/llt/compute.rs:
ignores every argument and returns the default (empty) requirement. -/
def llt_cholesky_in_place_req (dim : ℕ) (parallelism : Parallelism)
    (params : LltParams) : Except SizeOverflow StackReq :=
  .ok .empty

/-! ### The LLT factorization (src/faer-libs/faer-cholesky/src/llt/compute.rs) -/

/-- The non positive definite pivot error of the Cholesky modules. -/
inductive CholeskyError where
  | nonPositivePivot
  deriving DecidableEq

/-- The dynamic regularization parameters of the LLT kernel. -/
structure LltRegularization (K : Type) where
  dynamic_regularization_delta : K
  dynamic_regularization_epsilon : K

/-- The local `real` of the LLT left looking loop at column idx before the
regularization check: the diagonal entry minus the squared norm of the
computed row prefix (abs2 of each entry, that is the entry times its
conjugate). -/
def llt_real0 (conj : K → K) (M : Mat K) (idx : ℕ) : K :=
  M idx idx - ∑ j ∈ Finset.range idx, M idx j * conj (M idx j)

/-- The dynamic regularization test of the LLT loop: delta positive (has_eps
of the source) and the pivot between 0 and eps inclusive. -/
def llt_regularized (conj : K → K) (delta eps : K) (M : Mat K) (idx : ℕ) :
    Prop :=
  0 < delta ∧ 0 ≤ llt_real0 conj M idx ∧ llt_real0 conj M idx ≤ eps

instance (conj : K → K) (delta eps : K) (M : Mat K) (idx : ℕ) :
    Decidable (llt_regularized conj delta eps M idx) :=
  inferInstanceAs (Decidable (_ ∧ _ ∧ _))

/-- The pivot after the regularization branch: delta if the test hit,
otherwise the raw pivot. -/
def llt_real1 (conj : K → K) (delta eps : K) (M : Mat K) (idx : ℕ) : K :=
  if llt_regularized conj delta eps M idx then delta
  else llt_real0 conj M idx

/-- The regularization count after the branch. -/
def llt_count1 (conj : K → K) (delta eps : K) (M : Mat K) (idx count : ℕ) :
    ℕ :=
  if llt_regularized conj delta eps M idx then count + 1 else count

/-- The plane after processing a non final column idx of the LLT left
looking loop: the diagonal entry receives the square root of the pivot, and
each subdiagonal entry of column idx receives the A21 update (subtract the
product of the computed prefixes) scaled by the inverse of the new diagonal
entry. -/
def llt_col_update (conj sqrt : K → K) (delta eps : K) (n : ℕ) (M : Mat K)
    (idx : ℕ) : Mat K :=
  fun i j =>
    if i = idx ∧ j = idx then sqrt (llt_real1 conj delta eps M idx)
    else if idx < i ∧ i < n ∧ j = idx then
      (M i idx - ∑ t ∈ Finset.range idx, M i t * conj (M idx t)) *
        (sqrt (llt_real1 conj delta eps M idx))⁻¹
    else M i j

/-- The loop of cholesky_in_place_left_looking_impl from
src/faer-libs/faer-cholesky/src/llt/compute.rs, entered at column idx. Each
pass computes the pivot, applies dynamic regularization (counting the
replacement), takes the square root of a positive pivot or stops with
CholeskyError, and for a non final column updates and scales the subdiagonal
part of column idx before moving on. Besides the in place result and the
count, the model returns the trace of the raw pivot values in processing
order, so the handling of each pivot can be stated. -/
def llt_left_looking_loop (conj sqrt : K → K) (delta eps : K) (n : ℕ)
    (M : Mat K) (idx count : ℕ) (trace : List K) :
    List K × Except CholeskyError (Mat K × ℕ) :=
  if h : n ≤ idx then (trace, .ok (M, count))
  else
    if 0 < llt_real1 conj delta eps M idx then
      if idx + 1 = n then
        (trace ++ [llt_real0 conj M idx],
          .ok (mwrite M idx idx (sqrt (llt_real1 conj delta eps M idx)),
            llt_count1 conj delta eps M idx count))
      else
        llt_left_looking_loop conj sqrt delta eps n
          (llt_col_update conj sqrt delta eps n M idx) (idx + 1)
          (llt_count1 conj delta eps M idx count)
          (trace ++ [llt_real0 conj M idx])
    else
      (trace ++ [llt_real0 conj M idx],
        .error CholeskyError.nonPositivePivot)
termination_by n - idx
decreasing_by omega

/-- cholesky_in_place_left_looking_impl from
src/faer-libs/faer-cholesky/src/llt/compute.rs: returns Ok with count 0 at
once for an empty matrix, otherwise runs the column loop from index 0 with
eps and delta replaced by the absolute values of the regularization
parameters. -/
def llt_cholesky_in_place_left_looking_impl (conj sqrt : K → K)
    (reg : LltRegularization K) (M : Mat K) (n : ℕ) :
    List K × Except CholeskyError (Mat K × ℕ) :=
  if n = 0 then ([], .ok (M, 0))
  else
    llt_left_looking_loop conj sqrt |reg.dynamic_regularization_delta|
      |reg.dynamic_regularization_epsilon| n M 0 0 []

/-- Modelled from the spec: faer_core::mul::triangular::matmul with a
TriangularLower destination block and rectangular operands (the recursive
blocked kernel lives outside the staged sources). It behaves as the
rectangular multiply restricted to the lower triangle (diagonal included) of
the m by m destination block; the strictly upper entries are left as they
were. -/
def triangular_matmul_lower (conj : K → K) (acc lhs : Mat K) (conj_lhs : Conj)
    (rhs : Mat K) (conj_rhs : Conj) (m kk : ℕ) (alpha : Option K) (beta : K) :
    Mat K :=
  fun i j =>
    if j ≤ i then
      matmul_with_conj conj acc lhs conj_lhs rhs conj_rhs m kk m alpha beta i j
    else acc i j

/-- The blocksize of the blocked LLT kernel:
min(n / 2, 128 * parallelism_degree(parallelism)). -/
def llt_blocksize (par : Parallelism) (ambient n : ℕ) : ℕ :=
  min (n / 2) (128 * parallelism_degree ambient par)

/-- The plane after the triangular solve step of the blocked LLT kernel:
solve_lower_triangular_in_place on the conjugated factored top left block
and the transposed view of the bottom left block, whose region the solve
writes through the view. -/
def llt_solve_step (conj : K → K) (M0 : Mat K) (bs n : ℕ) : Mat K :=
  fun i j =>
    if bs ≤ i ∧ i < n ∧ j < bs then
      solve_lower_triangular_in_place_unchecked conj .yes M0
        (fun a b => M0 (bs + b) a) bs (n - bs) j (i - bs)
    else M0 i j

/-- The plane after the rank update step of the blocked LLT kernel: the
triangular matmul subtracts the product of the bottom left block with its
own adjoint from the lower triangle of the bottom right block. -/
def llt_update_step (conj : K → K) (M1 : Mat K) (bs n : ℕ) : Mat K :=
  wback M1
    (triangular_matmul_lower conj (subm M1 bs bs) (subm M1 bs 0) .no
      (transposeM (subm M1 bs 0)) .yes (n - bs) bs (some 1) (-1))
    bs bs (n - bs) (n - bs)

/-- cholesky_in_place_impl from
src/faer-libs/faer-cholesky/src/llt/compute.rs: below 32 the left looking
kernel runs; otherwise the matrix is split at the blocksize, the top left
block is factored recursively, the bottom left block is solved against the
conjugated factor through the transposed view, the bottom right block
receives the rank update, and is then factored recursively. Traces
concatenate and the regularization counts add. The branch on the blocksize
being positive only discharges the (unreachable) degenerate case of a zero
worker count so that the recursion is well founded. -/
def llt_cholesky_in_place_impl (conj sqrt : K → K)
    (reg : LltRegularization K) (par : Parallelism) (ambient : ℕ)
    (M : Mat K) (n : ℕ) : List K × Except CholeskyError (Mat K × ℕ) :=
  if n < 32 then
    llt_cholesky_in_place_left_looking_impl conj sqrt reg M n
  else
    if hbs : 0 < llt_blocksize par ambient n then
      match llt_cholesky_in_place_impl conj sqrt reg par ambient M
          (llt_blocksize par ambient n) with
      | (tr0, .error e) => (tr0, .error e)
      | (tr0, .ok (M0, c0)) =>
        match llt_cholesky_in_place_impl conj sqrt reg par ambient
            (subm (llt_update_step conj
                (llt_solve_step conj M0 (llt_blocksize par ambient n) n)
                (llt_blocksize par ambient n) n)
              (llt_blocksize par ambient n) (llt_blocksize par ambient n))
            (n - llt_blocksize par ambient n) with
        | (tr1, .error e) => (tr0 ++ tr1, .error e)
        | (tr1, .ok (Msub, c1)) =>
          (tr0 ++ tr1,
            .ok (wback
              (llt_update_step conj
                (llt_solve_step conj M0 (llt_blocksize par ambient n) n)
                (llt_blocksize par ambient n) n)
              Msub (llt_blocksize par ambient n) (llt_blocksize par ambient n)
              (n - llt_blocksize par ambient n)
              (n - llt_blocksize par ambient n), c0 + c1))
    else ([], .ok (M, 0))
termination_by n
decreasing_by
  all_goals
    have h1 : llt_blocksize par ambient n ≤ n / 2 := min_le_left _ _
    omega

/-- cholesky_in_place from src/faer-libs/faer-cholesky/src/llt/compute.rs:
the driver starts the recursion with a zero regularization count (the model
returns the accumulated count directly instead of an out parameter). -/
def llt_cholesky_in_place (conj sqrt : K → K) (reg : LltRegularization K)
    (par : Parallelism) (ambient : ℕ) (M : Mat K) (n : ℕ) :
    List K × Except CholeskyError (Mat K × ℕ) :=
  llt_cholesky_in_place_impl conj sqrt reg par ambient M n

/-! ### The LDLT factorization (src/faer-cholesky/src/ldlt_diagonal/compute.rs) -/

/-- The scratch write of the LDLT left looking loop: the products of the
computed row prefix with the diagonal (l10 times d0) are stored into the
strictly upper part of column idx, the transposed top right block of the
source. -/
def ldlt_scratch (M : Mat K) (idx : ℕ) : Mat K :=
  fun i j => if i < idx ∧ j = idx then M idx i * M i i else M i j

/-- The new diagonal entry at column idx of the LDLT loop: the diagonal
entry minus the inner product (with the left operand conjugated) of the
scratch row with the computed row prefix. -/
def ldlt_d1 (conj : K → K) (M : Mat K) (idx : ℕ) : K :=
  M idx idx - ∑ j ∈ Finset.range idx, conj (M idx j * M j j) * M idx j

/-- The plane after processing a non final column idx of the LDLT left
looking loop: the scratch is written, the diagonal entry receives the new
value, and each subdiagonal entry of column idx is updated against the
scratch and divided by the new diagonal entry. -/
def ldlt_col_update (conj : K → K) (n : ℕ) (M : Mat K) (idx : ℕ) : Mat K :=
  fun i j =>
    if i < idx ∧ j = idx then M idx i * M i i
    else if i = idx ∧ j = idx then ldlt_d1 conj M idx
    else if idx < i ∧ i < n ∧ j = idx then
      (M i idx - ∑ t ∈ Finset.range idx, M i t * conj (M idx t * M t t)) *
        (ldlt_d1 conj M idx)⁻¹
    else M i j

/-- The loop of cholesky_in_place_left_looking_impl from
src/faer-cholesky/src/ldlt_diagonal/compute.rs, entered at column idx. -/
def ldlt_left_looking_loop (conj : K → K) (n : ℕ) (M : Mat K) (idx : ℕ) :
    Mat K :=
  if h : n ≤ idx then M
  else
    if idx + 1 = n then
      mwrite (ldlt_scratch M idx) idx idx (ldlt_d1 conj M idx)
    else ldlt_left_looking_loop conj n (ldlt_col_update conj n M idx) (idx + 1)
termination_by n - idx
decreasing_by omega

/-- cholesky_in_place_left_looking_impl from
src/faer-cholesky/src/ldlt_diagonal/compute.rs: returns at once for a size
of 0 or 1, otherwise runs the column loop from index 0. -/
def ldlt_cholesky_in_place_left_looking_impl (conj : K → K) (M : Mat K)
    (n : ℕ) : Mat K :=
  if n ≤ 1 then M else ldlt_left_looking_loop conj n M 0

/-- The blocksize of the blocked LDLT kernel: min(n / 2, 128). -/
def ldlt_blocksize (n : ℕ) : ℕ := min (n / 2) 128

/-- The plane after the triangular solve and division step of the blocked
LDLT kernel: the unit lower solve runs on the conjugated factored top left
block and the transposed view of the bottom left block, and each column of
the solved block is divided by the matching diagonal entry. -/
def ldlt_solve_step (conj : K → K) (M0 : Mat K) (bs n : ℕ) : Mat K :=
  fun i j =>
    if bs ≤ i ∧ i < n ∧ j < bs then
      solve_unit_lower_triangular_in_place_unchecked conj .yes M0
        (fun a b => M0 (bs + b) a) bs (n - bs) j (i - bs) * (M0 j j)⁻¹
    else M0 i j

/-- The undivided scratch copy l10xd0 of the solved bottom left block of the
blocked LDLT kernel (row a, column b of the scratch is entry (b, a) of the
solve result seen through the transposed view). -/
def ldlt_l10xd0 (conj : K → K) (M0 : Mat K) (bs n : ℕ) : Mat K :=
  fun a b =>
    solve_unit_lower_triangular_in_place_unchecked conj .yes M0
      (fun x y => M0 (bs + y) x) bs (n - bs) b a

/-- The plane after the rank update step of the blocked LDLT kernel: the
triangular matmul subtracts the product of the divided bottom left block
with the adjoint of the scratch from the lower triangle of the bottom right
block. -/
def ldlt_update_step (conj : K → K) (M0 M1 : Mat K) (bs n : ℕ) : Mat K :=
  wback M1
    (triangular_matmul_lower conj (subm M1 bs bs) (subm M1 bs 0) .no
      (transposeM (ldlt_l10xd0 conj M0 bs n)) .yes (n - bs) bs (some 1) (-1))
    bs bs (n - bs) (n - bs)

/-- cholesky_in_place_impl from
src/faer-cholesky/src/ldlt_diagonal/compute.rs: below 32 the left looking
kernel runs; otherwise the matrix is split at min(n / 2, 128), the top left
block is factored recursively, the bottom left block is solved and divided
by the diagonal, the bottom right block receives the rank update against the
adjoint of the undivided scratch, and is then factored recursively. -/
def ldlt_cholesky_in_place_impl (conj : K → K) (M : Mat K) (n : ℕ) : Mat K :=
  if n < 32 then
    ldlt_cholesky_in_place_left_looking_impl conj M n
  else
    wback
      (ldlt_update_step conj
        (ldlt_cholesky_in_place_impl conj M (ldlt_blocksize n))
        (ldlt_solve_step conj
          (ldlt_cholesky_in_place_impl conj M (ldlt_blocksize n))
          (ldlt_blocksize n) n)
        (ldlt_blocksize n) n)
      (ldlt_cholesky_in_place_impl conj
        (subm
          (ldlt_update_step conj
            (ldlt_cholesky_in_place_impl conj M (ldlt_blocksize n))
            (ldlt_solve_step conj
              (ldlt_cholesky_in_place_impl conj M (ldlt_blocksize n))
              (ldlt_blocksize n) n)
            (ldlt_blocksize n) n)
          (ldlt_blocksize n) (ldlt_blocksize n))
        (n - ldlt_blocksize n))
      (ldlt_blocksize n) (ldlt_blocksize n)
      (n - ldlt_blocksize n) (n - ldlt_blocksize n)
termination_by n
decreasing_by
  all_goals
    have h1 : ldlt_blocksize n ≤ n / 2 := min_le_left _ _
    have h2 : 0 < ldlt_blocksize n := lt_min (by omega) (by omega)
    omega

/-- raw_cholesky_in_place from
src/faer-cholesky/src/ldlt_diagonal/compute.rs: the driver forwards to the
recursive kernel. -/
def ldlt_raw_cholesky_in_place (conj : K → K) (M : Mat K) (n : ℕ) : Mat K :=
  ldlt_cholesky_in_place_impl conj M n

/-- The unit lower factor entry convention of the LDLT layout: ones on the
diagonal, the stored entries elsewhere. -/
def luEnt (M : Mat K) : Mat K := fun i t => if t = i then 1 else M i t

/-! ### Correctness of the LLT factorization -/

theorem posDefOn_diag {B : Mat K} {m : ℕ} (hB : PosDefOn B m) {i : ℕ}
    (hi : i < m) : 0 < B i i := by
  have h := hB (fun t => if t = i then 1 else 0) ⟨i, hi, by simp⟩
  have he : quadForm B m (fun t => if t = i then 1 else 0) = B i i := by
    unfold quadForm
    rw [Finset.sum_eq_single i]
    · rw [Finset.sum_eq_single i]
      · simp
      · intro b _ hbne
        simp [hbne]
      · intro hni
        exact absurd (Finset.mem_range.mpr hi) hni
    · intro a _ hane
      rw [Finset.sum_eq_zero]
      intro b _
      simp [hane]
    · intro hni
      exact absurd (Finset.mem_range.mpr hi) hni
  rw [he] at h
  exact h

/-- The pivot positivity of the partially factored state: if columns below
idx carry a weighted factorization of the leading block of the symmetric
positive definite A and the rows from idx on still agree with A below the
diagonal, the next raw pivot of the weighted elimination is positive. -/
theorem partial_pivot_pos {A M : Mat K} {D : ℕ → K} {n idx : ℕ}
    (hidx : idx < n) (hAsym : ∀ i j, A i j = A j i) (hA : PosDefOn A n)
    (hfact : ∀ i j, j < idx → j ≤ i → i < n →
      ∑ t ∈ Finset.range (j + 1), M i t * D t * M j t = A i j)
    (hpos : ∀ j, j < idx → 0 < M j j) :
    0 < A idx idx - ∑ t ∈ Finset.range idx, M idx t * D t * M idx t := by
  have hschur : PosDefOn
      (schurComp A (fun i t => M (idx + i) t) D idx) (n - idx) := by
    refine schur_posdef (T := M) (by omega) hAsym
      (fun j hj => ne_of_gt (hpos j hj)) ?_ ?_ hA
    · intro i j hji hi
      exact hfact i j (by omega) hji (by omega)
    · intro i j hi hj
      exact hfact (idx + i) j hj (by omega) (by omega)
  have hd := posDefOn_diag hschur (show 0 < n - idx by omega)
  simp only [schurComp, Nat.add_zero] at hd
  exact hd

/-- Correctness of the LLT left looking loop with the default (disabled)
regularization, by induction on the remaining columns: entering at column
idx with the earlier columns carrying a partial factorization of the
symmetric positive definite A, the loop succeeds with the entered count, the
final lower region carries the full factorization with positive diagonal,
and entries outside the columns from idx on of the lower n region are
untouched. -/
theorem llt_left_looking_loop_correct (sqrt : K → K)
    (hsqrt : ∀ x : K, 0 < x → 0 < sqrt x ∧ sqrt x * sqrt x = x)
    (A : Mat K) (hAsym : ∀ i j, A i j = A j i) (eps : K) (n : ℕ)
    (hA : PosDefOn A n) :
    ∀ (N idx count : ℕ) (trace : List K) (M : Mat K), n - idx ≤ N →
      idx < n →
      (∀ i j, j < idx → j ≤ i → i < n →
        ∑ t ∈ Finset.range (j + 1), M i t * M j t = A i j) →
      (∀ j, j < idx → 0 < M j j) →
      (∀ i j, idx ≤ j → j ≤ i → i < n → M i j = A i j) →
      ∃ tr L, llt_left_looking_loop id sqrt 0 eps n M idx count trace =
          (tr, Except.ok (L, count)) ∧
        (∀ i j, j ≤ i → i < n →
          ∑ t ∈ Finset.range (j + 1), L i t * L j t = A i j) ∧
        (∀ j, j < n → 0 < L j j) ∧
        (∀ i j, ¬(idx ≤ j ∧ j ≤ i ∧ i < n) → L i j = M i j) := by
  intro N
  induction N with
  | zero =>
    intro idx count trace M hN hidx _ _ _
    omega
  | succ N ih =>
    intro idx count trace M hN hidx hfact hpos huntouched
    have hreg : ¬ llt_regularized (id : K → K) 0 eps M idx := by
      rintro ⟨h0, -, -⟩
      exact absurd h0 (lt_irrefl 0)
    have hr1 : llt_real1 (id : K → K) 0 eps M idx = llt_real0 id M idx := by
      rw [llt_real1, if_neg hreg]
    have hc1 : llt_count1 (id : K → K) 0 eps M idx count = count := by
      rw [llt_count1, if_neg hreg]
    have hr0 : llt_real0 (id : K → K) M idx =
        M idx idx - ∑ t ∈ Finset.range idx, M idx t * M idx t := by
      simp [llt_real0]
    have hpiv : 0 < llt_real0 (id : K → K) M idx := by
      have h := partial_pivot_pos (D := fun _ => 1) hidx hAsym hA
        (fun i j hj hji hi => by
          rw [← hfact i j hj hji hi]
          exact Finset.sum_congr rfl fun t _ => by ring) hpos
      have he : llt_real0 (id : K → K) M idx =
          A idx idx - ∑ t ∈ Finset.range idx, M idx t * 1 * M idx t := by
        rw [hr0, huntouched idx idx (le_refl idx) (le_refl idx) hidx]
        congr 1
        exact Finset.sum_congr rfl fun t _ => by ring
      rw [he]
      exact h
    have hsq := hsqrt _ hpiv
    have hsne : sqrt (llt_real0 (id : K → K) M idx) ≠ 0 := ne_of_gt hsq.1
    by_cases hb : idx + 1 = n
    · rw [llt_left_looking_loop.eq_def, dif_neg (show ¬ n ≤ idx by omega),
        if_pos (show 0 < llt_real1 (id : K → K) 0 eps M idx from
          hr1 ▸ hpiv), if_pos hb, hc1, hr1]
      set W := mwrite M idx idx (sqrt (llt_real0 (id : K → K) M idx))
        with hW
      have hWdiag : W idx idx = sqrt (llt_real0 (id : K → K) M idx) := by
        rw [hW]
        unfold mwrite
        rw [if_pos ⟨rfl, rfl⟩]
      have hWoff : ∀ a b, ¬(a = idx ∧ b = idx) → W a b = M a b := by
        intro a b hab
        rw [hW]
        unfold mwrite
        rw [if_neg hab]
      refine ⟨_, _, rfl, ?_, ?_, ?_⟩
      · intro i j hji hi
        by_cases hj : j = idx
        · rw [show i = idx by omega, show j = idx from hj,
            Finset.sum_range_succ, hWdiag]
          have hstep : ∑ t ∈ Finset.range idx, W idx t * W idx t =
              ∑ t ∈ Finset.range idx, M idx t * M idx t := by
            refine Finset.sum_congr rfl fun t ht => ?_
            have htlt : t < idx := Finset.mem_range.mp ht
            rw [hWoff idx t (by omega)]
          rw [hstep, hsq.2, hr0,
            huntouched idx idx (le_refl idx) (le_refl idx) hidx]
          ring
        · have hjlt : j < idx := by omega
          have hstep : ∑ t ∈ Finset.range (j + 1), W i t * W j t =
              ∑ t ∈ Finset.range (j + 1), M i t * M j t := by
            refine Finset.sum_congr rfl fun t ht => ?_
            have htj : t ≤ j := by
              have := Finset.mem_range.mp ht
              omega
            rw [hWoff i t (by omega), hWoff j t (by omega)]
          rw [hstep]
          exact hfact i j hjlt hji hi
      · intro j hj
        by_cases hje : j = idx
        · rw [show j = idx from hje, hWdiag]
          exact hsq.1
        · rw [hWoff j j (by omega)]
          exact hpos j (by omega)
      · intro i j hout
        refine hWoff i j ?_
        rintro ⟨hi, hj⟩
        exact hout ⟨by omega, by omega, by omega⟩
    · rw [llt_left_looking_loop.eq_def, dif_neg (show ¬ n ≤ idx by omega),
        if_pos (show 0 < llt_real1 (id : K → K) 0 eps M idx from
          hr1 ▸ hpiv), if_neg hb, hc1]
      set M2 := llt_col_update id sqrt 0 eps n M idx with hM2
      have hM2diag : M2 idx idx = sqrt (llt_real0 (id : K → K) M idx) := by
        rw [hM2]
        unfold llt_col_update
        rw [if_pos ⟨rfl, rfl⟩, hr1]
      have hM2col : ∀ i, idx < i → i < n → M2 i idx =
          (M i idx - ∑ t ∈ Finset.range idx, M i t * M idx t) *
            (sqrt (llt_real0 (id : K → K) M idx))⁻¹ := by
        intro i hi hin
        rw [hM2]
        unfold llt_col_update
        rw [if_neg (by omega), if_pos ⟨hi, hin, rfl⟩, hr1]
        have hs : ∑ t ∈ Finset.range idx, M i t * id (M idx t) =
            ∑ t ∈ Finset.range idx, M i t * M idx t :=
          Finset.sum_congr rfl fun t _ => by simp
        rw [hs]
      have hM2off : ∀ i j, j ≠ idx ∨ (i ≠ idx ∧ ¬(idx < i ∧ i < n)) →
          M2 i j = M i j := by
        intro i j hcase
        rw [hM2]
        unfold llt_col_update
        rcases hcase with hj | ⟨hi1, hi2⟩
        · rw [if_neg (by omega), if_neg (by
            rintro ⟨-, -, he⟩
            exact hj he)]
        · rw [if_neg (by
            rintro ⟨he, -⟩
            exact hi1 he), if_neg (by
            rintro ⟨ha, hbn, -⟩
            exact hi2 ⟨ha, hbn⟩)]
      have inv1 : ∀ i j, j < idx + 1 → j ≤ i → i < n →
          ∑ t ∈ Finset.range (j + 1), M2 i t * M2 j t = A i j := by
        intro i j hj hji hi
        by_cases hje : j = idx
        · by_cases hie : i = idx
          · rw [show i = idx from hie, show j = idx from hje,
              Finset.sum_range_succ, hM2diag]
            have hstep : ∑ t ∈ Finset.range idx, M2 idx t * M2 idx t =
                ∑ t ∈ Finset.range idx, M idx t * M idx t := by
              refine Finset.sum_congr rfl fun t ht => ?_
              have htlt : t < idx := Finset.mem_range.mp ht
              rw [hM2off idx t (Or.inl (by omega))]
            rw [hstep, hsq.2, hr0,
              huntouched idx idx (le_refl idx) (le_refl idx) hidx]
            ring
          · have hilt : idx < i := by omega
            rw [show j = idx from hje, Finset.sum_range_succ, hM2diag,
              hM2col i hilt hi]
            have hstep : ∑ t ∈ Finset.range idx, M2 i t * M2 idx t =
                ∑ t ∈ Finset.range idx, M i t * M idx t := by
              refine Finset.sum_congr rfl fun t ht => ?_
              have htlt : t < idx := Finset.mem_range.mp ht
              rw [hM2off i t (Or.inl (by omega)),
                hM2off idx t (Or.inl (by omega))]
            rw [hstep, inv_mul_cancel_right₀ hsne,
              huntouched i idx (le_refl idx) (by omega) hi]
            ring
        · have hjlt : j < idx := by omega
          have hstep : ∑ t ∈ Finset.range (j + 1), M2 i t * M2 j t =
              ∑ t ∈ Finset.range (j + 1), M i t * M j t := by
            refine Finset.sum_congr rfl fun t ht => ?_
            have htj : t ≤ j := by
              have := Finset.mem_range.mp ht
              omega
            rw [hM2off i t (Or.inl (by omega)),
              hM2off j t (Or.inl (by omega))]
          rw [hstep]
          exact hfact i j hjlt hji hi
      have inv2 : ∀ j, j < idx + 1 → 0 < M2 j j := by
        intro j hj
        by_cases hje : j = idx
        · rw [show j = idx from hje, hM2diag]
          exact hsq.1
        · rw [hM2off j j (Or.inl (by omega))]
          exact hpos j (by omega)
      have inv3 : ∀ i j, idx + 1 ≤ j → j ≤ i → i < n → M2 i j = A i j := by
        intro i j hj hji hi
        rw [hM2off i j (Or.inl (by omega))]
        exact huntouched i j (by omega) hji hi
      obtain ⟨tr, L, heq, hfa, hpo, hfr⟩ := ih (idx + 1)
        count (trace ++ [llt_real0 id M idx]) M2 (by omega) (by omega)
        inv1 inv2 inv3
      refine ⟨tr, L, heq, hfa, hpo, ?_⟩
      intro i j hout
      rw [hfr i j (by
        rintro ⟨h1, h2, h3⟩
        exact hout ⟨by omega, h2, h3⟩)]
      by_cases hje : j = idx
      · refine hM2off i j (Or.inr ⟨?_, ?_⟩)
        · rintro rfl
          exact hout ⟨by omega, by omega, hidx⟩
        · rintro ⟨ha, hb⟩
          exact hout ⟨by omega, by omega, hb⟩
      · exact hM2off i j (Or.inl hje)

/-- Correctness of the recursive blocked LLT kernel with the default
(disabled) regularization: when the lower n region of the plane holds the
lower part of a symmetric positive definite A, the kernel succeeds with
regularization count 0, the lower region of the result carries a Cholesky
factor of A with positive diagonal, and the plane is untouched off the lower
n region. -/
theorem llt_cholesky_in_place_impl_correct (sqrt : K → K)
    (hsqrt : ∀ x : K, 0 < x → 0 < sqrt x ∧ sqrt x * sqrt x = x)
    (par : Parallelism) (ambient : ℕ)
    (hdeg : 0 < parallelism_degree ambient par) :
    ∀ (n : ℕ) (A M : Mat K), (∀ i j, A i j = A j i) → PosDefOn A n →
      (∀ i j, j ≤ i → i < n → M i j = A i j) →
      ∃ tr L, llt_cholesky_in_place_impl id sqrt ⟨0, 0⟩ par ambient M n =
          (tr, Except.ok (L, 0)) ∧
        (∀ i j, j ≤ i → i < n →
          ∑ t ∈ Finset.range (j + 1), L i t * L j t = A i j) ∧
        (∀ j, j < n → 0 < L j j) ∧
        (∀ i j, ¬(j ≤ i ∧ i < n) → L i j = M i j) := by
  intro n
  induction n using Nat.strong_induction_on with
  | _ n IH =>
    intro A M hAsym hA hM
    by_cases h32 : n < 32
    · rw [llt_cholesky_in_place_impl.eq_def, if_pos h32]
      unfold llt_cholesky_in_place_left_looking_impl
      by_cases hn0 : n = 0
      · rw [if_pos hn0]
        exact ⟨[], M, rfl, fun i j hji hi => absurd hi (by omega),
          fun j hj => absurd hj (by omega), fun i j _ => rfl⟩
      · rw [if_neg hn0]
        rw [show |(⟨0, 0⟩ :
            LltRegularization K).dynamic_regularization_delta| = 0 by
          rw [show (⟨0, 0⟩ :
            LltRegularization K).dynamic_regularization_delta = 0 from rfl,
            abs_zero]] 
        obtain ⟨tr, L, heq, hfa, hpo, hfr⟩ :=
          llt_left_looking_loop_correct sqrt hsqrt A hAsym 0 n hA n 0 0 [] M
            (by omega) (by omega) (fun i j hj _ _ => absurd hj (by omega))
            (fun j hj => absurd hj (by omega))
            (fun i j _ hji hi => hM i j hji hi)
        exact ⟨tr, L, heq, hfa, hpo, fun i j h =>
          hfr i j (by
            rintro ⟨-, h2, h3⟩
            exact h ⟨h2, h3⟩)⟩
    · rw [llt_cholesky_in_place_impl.eq_def, if_neg h32]
      set bs := llt_blocksize par ambient n with hbsdef
      have hbs1 : bs ≤ n / 2 := min_le_left _ _
      have hbs2 : 0 < bs := by
        rw [hbsdef, llt_blocksize]
        exact lt_min (by omega) (by positivity)
      clear_value bs
      rw [dif_pos hbs2]
      obtain ⟨tr0, L0, heq0, hfa0, hpo0, hfr0⟩ := IH bs (by omega) A M hAsym
        (posDefOn_mono A (by omega) hA)
        (fun i j hji hi => hM i j hji (by omega))
      simp only [heq0]
      have hL0A : ∀ i j, j ≤ i → i < n → bs ≤ i → L0 i j = A i j := by
        intro i j hji hi hbi
        rw [hfr0 i j (by
          rintro ⟨-, h2⟩
          omega)]
        exact hM i j hji hi
      set X := solve_lower_triangular_in_place_unchecked id Conj.yes L0
        (fun a b => L0 (bs + b) a) bs (n - bs) with hX
      have hsolve := solve_lower_correct (id : K → K) Conj.yes
        (2 * (n - bs) + bs) L0 (fun a b => L0 (bs + b) a) bs (n - bs)
        (le_refl _) (fun i hi => by
          simpa [maybeConj] using ne_of_gt (hpo0 i hi))
      rw [← hX] at hsolve
      have hcross : ∀ i j, bs ≤ i → i < n → j < bs →
          ∑ t ∈ Finset.range (j + 1), L0 j t * X t (i - bs) = A i j := by
        intro i j hbi hin hjb
        have h1 := hsolve.1 j (i - bs) hjb (by omega)
        simp only [matProd, lowerTriOf, mapMat, maybeConj, id_eq] at h1
        have h2 : ∑ t ∈ Finset.range bs,
            (if j < bs ∧ t ≤ j then L0 j t else 0) * X t (i - bs) =
            ∑ t ∈ Finset.range bs,
              (if t ≤ j then L0 j t * X t (i - bs) else 0) := by
          refine Finset.sum_congr rfl fun t _ => ?_
          by_cases htj : t ≤ j
          · rw [if_pos ⟨hjb, htj⟩, if_pos htj]
          · rw [if_neg (by tauto), if_neg htj, zero_mul]
        rw [h2] at h1
        rw [sum_range_extend (fun t => L0 j t * X t (i - bs)) hjb, h1,
          show bs + (i - bs) = i by omega]
        exact hL0A i j (by omega) hin hbi
      set S := llt_solve_step id L0 bs n with hS
      have hSin : ∀ i j, bs ≤ i → i < n → j < bs → S i j = X j (i - bs) := by
        intro i j hbi hin hjb
        rw [hS]
        unfold llt_solve_step
        rw [if_pos ⟨hbi, hin, hjb⟩, ← hX]
      have hSout : ∀ i j, ¬(bs ≤ i ∧ i < n ∧ j < bs) → S i j = L0 i j := by
        intro i j h
        rw [hS]
        unfold llt_solve_step
        rw [if_neg h]
      set U := llt_update_step id S bs n with hU
      have hUin : ∀ r c, c ≤ r → r < n - bs →
          U (bs + r) (bs + c) = S (bs + r) (bs + c) -
            ∑ t ∈ Finset.range bs, S (bs + r) t * S (bs + c) t := by
        intro r c hcr hr
        rw [hU]
        unfold llt_update_step wback triangular_matmul_lower matmul_with_conj
        rw [if_pos ⟨by omega, by omega, by omega, by omega⟩]
        rw [show bs + r - bs = r by omega, show bs + c - bs = c by omega]
        rw [if_pos hcr, if_pos ⟨by omega, by omega⟩]
        simp only [subm, transposeM, maybeConj]
        have hid : ∑ x ∈ Finset.range bs,
            S (bs + r) (0 + x) * id (S (bs + c) (0 + x)) =
              ∑ t ∈ Finset.range bs, S (bs + r) t * S (bs + c) t := by
          refine Finset.sum_congr rfl fun t _ => ?_
          rw [show (0 : ℕ) + t = t from by omega, id_eq]
        rw [hid]
        ring
      have hUout : ∀ i j, ¬(bs ≤ i ∧ i < n ∧ bs ≤ j ∧ j < n ∧ j - bs ≤ i - bs)
          → U i j = S i j := by
        intro i j h
        rw [hU]
        unfold llt_update_step wback
        by_cases hin : bs ≤ i ∧ i < bs + (n - bs) ∧ bs ≤ j ∧ j < bs + (n - bs)
        · rw [if_pos hin]
          unfold triangular_matmul_lower
          rw [if_neg (by omega)]
          simp only [subm]
          rw [show bs + (i - bs) = i by omega, show bs + (j - bs) = j by omega]
        · rw [if_neg hin]
      set Y : Mat K := fun r t => S (bs + r) t with hY
      have hYapp : ∀ r t, Y r t = S (bs + r) t := fun r t => by rw [hY]
      have hschur : PosDefOn (schurComp A Y (fun _ => 1) bs) (n - bs) := by
        refine schur_posdef (by omega) hAsym
          (fun j hj => ne_of_gt (hpo0 j hj)) ?_ ?_ hA
        · intro i j hji hi
          rw [← hfa0 i j hji hi]
          exact Finset.sum_congr rfl fun t _ => by ring
        · intro r j hr hj
          have h1 : ∀ t ∈ Finset.range (j + 1),
              Y r t * (fun _ : ℕ => (1 : K)) t * L0 j t =
                L0 j t * X t r := by
            intro t ht
            have htb : t < bs := by
              have := Finset.mem_range.mp ht
              omega
            rw [hYapp r t, hSin (bs + r) t (by omega) (by omega) htb,
              show bs + r - bs = r by omega]
            show X t r * 1 * L0 j t = L0 j t * X t r
            ring
          rw [Finset.sum_congr rfl h1]
          have h2 := hcross (bs + r) j (by omega) (by omega) hj
          rw [show bs + r - bs = r by omega] at h2
          exact h2
      have hA'sym : ∀ r c, schurComp A Y (fun _ => 1) bs r c =
          schurComp A Y (fun _ => 1) bs c r := by
        intro r c
        unfold schurComp
        rw [hAsym (bs + r) (bs + c)]
        congr 1
        exact Finset.sum_congr rfl fun t _ => by ring
      have hM' : ∀ r c, c ≤ r → r < n - bs →
          subm U bs bs r c = schurComp A Y (fun _ => 1) bs r c := by
        intro r c hcr hr
        simp only [subm]
        rw [hUin r c hcr hr]
        unfold schurComp
        congr 1
        · rw [hSout (bs + r) (bs + c) (by
            rintro ⟨-, -, h3⟩
            omega)]
          exact hL0A (bs + r) (bs + c) (by omega) (by omega) (by omega)
        · refine Finset.sum_congr rfl fun t _ => ?_
          rw [hYapp r t, hYapp c t]
          show S (bs + r) t * S (bs + c) t = S (bs + r) t * 1 * S (bs + c) t
          ring
      obtain ⟨tr1, L1, heq1, hfa1, hpo1, hfr1⟩ := IH (n - bs) (by omega)
        (schurComp A Y (fun _ => 1) bs) (subm U bs bs) hA'sym hschur hM'
      simp only [heq1]
      refine ⟨tr0 ++ tr1, _, rfl, ?_, ?_, ?_⟩
      · -- the factorization of the assembled plane
        have hFhigh : ∀ i j, bs ≤ i → i < n → bs ≤ j → j < n →
            wback U L1 bs bs (n - bs) (n - bs) i j =
              L1 (i - bs) (j - bs) := by
          intro i j h1 h2 h3 h4
          unfold wback
          rw [if_pos ⟨by omega, by omega, by omega, by omega⟩]
        have hFlow : ∀ i j, j < bs →
            wback U L1 bs bs (n - bs) (n - bs) i j = U i j := by
          intro i j hj
          unfold wback
          rw [if_neg (by omega)]
        intro i j hji hi
        by_cases hib : i < bs
        · -- both below the split
          have hstep : ∀ a t, a < bs → t ≤ j →
              wback U L1 bs bs (n - bs) (n - bs) a t = L0 a t := by
            intro a t ha ht
            rw [hFlow a t (by omega), hUout a t (by omega),
              hSout a t (by omega)]
          rw [Finset.sum_congr rfl fun t ht => by
            rw [hstep i t hib (by
              have := Finset.mem_range.mp ht
              omega), hstep j t (by omega) (by
              have := Finset.mem_range.mp ht
              omega)]]
          exact hfa0 i j hji hib
        · by_cases hjb : j < bs
          · -- row below the diagonal block, column in the left panel
            have hsi : ∀ t, t ≤ j →
                wback U L1 bs bs (n - bs) (n - bs) i t = X t (i - bs) := by
              intro t ht
              rw [hFlow i t (by omega), hUout i t (by omega),
                hSin i t (by omega) hi (by omega)]
            have hsj : ∀ t, t ≤ j →
                wback U L1 bs bs (n - bs) (n - bs) j t = L0 j t := by
              intro t ht
              rw [hFlow j t (by omega), hUout j t (by omega),
                hSout j t (by omega)]
            have hrw : ∑ t ∈ Finset.range (j + 1),
                wback U L1 bs bs (n - bs) (n - bs) i t *
                  wback U L1 bs bs (n - bs) (n - bs) j t =
                ∑ t ∈ Finset.range (j + 1), L0 j t * X t (i - bs) := by
              refine Finset.sum_congr rfl fun t ht => ?_
              have htj : t ≤ j := by
                have := Finset.mem_range.mp ht
                omega
              rw [hsi t htj, hsj t htj]
              ring
            rw [hrw]
            exact hcross i j (by omega) hi hjb
          · -- both in the trailing block
            have hsplit : Finset.range (j + 1) =
                Finset.range (bs + (j - bs + 1)) := by
              congr 1
              omega
            rw [hsplit, sum_range_split]
            have hpart1 : ∑ t ∈ Finset.range bs,
                wback U L1 bs bs (n - bs) (n - bs) i t *
                  wback U L1 bs bs (n - bs) (n - bs) j t =
                ∑ t ∈ Finset.range bs, Y (i - bs) t * (fun _ : ℕ => (1 : K)) t
                  * Y (j - bs) t := by
              refine Finset.sum_congr rfl fun t ht => ?_
              have htb : t < bs := Finset.mem_range.mp ht
              rw [hFlow i t htb, hFlow j t htb, hUout i t (by omega),
                hUout j t (by omega), hYapp (i - bs) t, hYapp (j - bs) t,
                show bs + (i - bs) = i by omega,
                show bs + (j - bs) = j by omega]
              show S i t * S j t = S i t * 1 * S j t
              ring
            have hpart2 : ∑ u ∈ Finset.range (j - bs + 1),
                wback U L1 bs bs (n - bs) (n - bs) i (bs + u) *
                  wback U L1 bs bs (n - bs) (n - bs) j (bs + u) =
                ∑ u ∈ Finset.range (j - bs + 1),
                  L1 (i - bs) u * L1 (j - bs) u := by
              refine Finset.sum_congr rfl fun u hu => ?_
              have hub : u ≤ j - bs := by
                have := Finset.mem_range.mp hu
                omega
              rw [hFhigh i (bs + u) (by omega) hi (by omega) (by omega),
                hFhigh j (bs + u) (by omega) (by omega) (by omega) (by omega),
                show bs + u - bs = u by omega]
            rw [hpart1, hpart2, hfa1 (i - bs) (j - bs) (by omega) (by omega)]
            unfold schurComp
            rw [show bs + (i - bs) = i by omega,
              show bs + (j - bs) = j by omega]
            ring
      · -- positive diagonal
        intro j hj
        by_cases hjb : j < bs
        · unfold wback
          rw [if_neg (by omega)]
          rw [hUout j j (by omega), hSout j j (by omega)]
          exact hpo0 j hjb
        · unfold wback
          rw [if_pos ⟨by omega, by omega, by omega, by omega⟩]
          exact hpo1 (j - bs) (by omega)
      · -- frame off the lower n region
        intro i j hout
        have hUSL : U i j = M i j := by
          rw [hUout i j (by
              rintro ⟨h1, h2, h3, h4, h5⟩
              exact hout ⟨by omega, h2⟩),
            hSout i j (by
              rintro ⟨h1, h2, h3⟩
              exact hout ⟨by omega, h2⟩),
            hfr0 i j (by
              rintro ⟨h1, h2⟩
              exact hout ⟨h1, by omega⟩)]
        by_cases hreg : bs ≤ i ∧ i < bs + (n - bs) ∧ bs ≤ j ∧
            j < bs + (n - bs)
        · unfold wback
          rw [if_pos hreg]
          rw [hfr1 (i - bs) (j - bs) (by
            rintro ⟨h1, h2⟩
            exact hout ⟨by omega, by omega⟩)]
          simp only [subm]
          rw [show bs + (i - bs) = i by omega,
            show bs + (j - bs) = j by omega]
          exact hUSL
        · unfold wback
          rw [if_neg hreg]
          exact hUSL

/-! ### Correctness of the LDLT factorization -/

/-- Correctness of the LDLT left looking loop, by induction on the remaining
columns: entering at column idx with the earlier columns carrying a partial
unit lower times diagonal factorization of the symmetric positive definite
A, the loop ends with the lower region carrying the full factorization with
positive diagonal, and entries outside the columns from idx on are
untouched. -/
theorem ldlt_left_looking_loop_correct (A : Mat K)
    (hAsym : ∀ i j, A i j = A j i) (n : ℕ) (hA : PosDefOn A n) :
    ∀ (N idx : ℕ) (M : Mat K), n - idx ≤ N → idx < n →
      (∀ i j, j < idx → j ≤ i → i < n →
        ∑ t ∈ Finset.range (j + 1), luEnt M i t * M t t * luEnt M j t
          = A i j) →
      (∀ j, j < idx → 0 < M j j) →
      (∀ i j, idx ≤ j → j ≤ i → i < n → M i j = A i j) →
      (∀ i j, j ≤ i → i < n →
        ∑ t ∈ Finset.range (j + 1),
          luEnt (ldlt_left_looking_loop id n M idx) i t *
            ldlt_left_looking_loop id n M idx t t *
            luEnt (ldlt_left_looking_loop id n M idx) j t = A i j) ∧
      (∀ j, j < n → 0 < ldlt_left_looking_loop id n M idx j j) ∧
      (∀ i j, ¬(idx ≤ j ∧ j < n ∧ i < n) →
        ldlt_left_looking_loop id n M idx i j = M i j) := by
  intro N
  induction N with
  | zero =>
    intro idx M hN hidx _ _ _
    omega
  | succ N ih =>
    intro idx M hN hidx hfact hpos huntouched
    have hluE : ∀ (B : Mat K) i t, t ≠ i → luEnt B i t = B i t := by
      intro B i t h
      rw [luEnt, if_neg h]
    have hluD : ∀ (B : Mat K) i, luEnt B i i = 1 := by
      intro B i
      rw [luEnt, if_pos rfl]
    have hd1 : ldlt_d1 (id : K → K) M idx =
        A idx idx - ∑ t ∈ Finset.range idx, M idx t * M t t * M idx t := by
      rw [ldlt_d1, huntouched idx idx (le_refl idx) (le_refl idx) hidx]
      congr 1
    have hpiv : 0 < ldlt_d1 (id : K → K) M idx := by
      have h := partial_pivot_pos (M := luEnt M) (D := fun t => M t t)
        hidx hAsym hA
        (fun i j hj hji hi => hfact i j hj hji hi)
        (fun j _ => by
          rw [hluD]
          exact zero_lt_one)
      rw [hd1]
      have he : ∑ t ∈ Finset.range idx, M idx t * M t t * M idx t =
          ∑ t ∈ Finset.range idx,
            luEnt M idx t * (fun t => M t t) t * luEnt M idx t := by
        refine Finset.sum_congr rfl fun t ht => ?_
        have htlt : t < idx := Finset.mem_range.mp ht
        rw [hluE M idx t (by omega)]
      rw [he]
      exact h
    have hdne : ldlt_d1 (id : K → K) M idx ≠ 0 := ne_of_gt hpiv
    by_cases hb : idx + 1 = n
    · rw [ldlt_left_looking_loop.eq_def, dif_neg (show ¬ n ≤ idx by omega),
        if_pos hb]
      set W := mwrite (ldlt_scratch M idx) idx idx (ldlt_d1 id M idx) with hW
      have hWdiag : W idx idx = ldlt_d1 (id : K → K) M idx := by
        rw [hW]
        unfold mwrite
        rw [if_pos ⟨rfl, rfl⟩]
      have hWoff : ∀ a b, ¬(a < idx ∧ b = idx) → ¬(a = idx ∧ b = idx) →
          W a b = M a b := by
        intro a b h1 h2
        rw [hW]
        unfold mwrite ldlt_scratch
        rw [if_neg h2, if_neg h1]
      refine ⟨?_, ?_, ?_⟩
      · intro i j hji hi
        by_cases hj : j = idx
        · have hie : i = idx := by omega
          rw [show i = idx from hie, show j = idx from hj,
            Finset.sum_range_succ, hWdiag, hluD]
          have hstep : ∑ t ∈ Finset.range idx,
              luEnt W idx t * W t t * luEnt W idx t =
              ∑ t ∈ Finset.range idx, M idx t * M t t * M idx t := by
            refine Finset.sum_congr rfl fun t ht => ?_
            have htlt : t < idx := Finset.mem_range.mp ht
            rw [hluE W idx t (by omega), hWoff idx t (by omega) (by omega),
              hWoff t t (by omega) (by omega)]
          rw [hstep, hd1]
          ring
        · have hjlt : j < idx := by omega
          have hstep : ∑ t ∈ Finset.range (j + 1),
              luEnt W i t * W t t * luEnt W j t =
              ∑ t ∈ Finset.range (j + 1),
                luEnt M i t * M t t * luEnt M j t := by
            refine Finset.sum_congr rfl fun t ht => ?_
            have htj : t ≤ j := by
              have := Finset.mem_range.mp ht
              omega
            have hW1 : ∀ a, luEnt W a t = luEnt M a t := by
              intro a
              by_cases hta : t = a
              · rw [hta, hluD, hluD]
              · rw [hluE W a t hta, hluE M a t hta,
                  hWoff a t (by omega) (by omega)]
            rw [hW1 i, hW1 j, hWoff t t (by omega) (by omega)]
          rw [hstep]
          exact hfact i j hjlt hji hi
      · intro j hj
        by_cases hje : j = idx
        · rw [show j = idx from hje, hWdiag]
          exact hpiv
        · rw [hWoff j j (by omega) (by omega)]
          exact hpos j (by omega)
      · intro i j hout
        rw [hWoff i j (by
          rintro ⟨h1, h2⟩
          exact hout ⟨by omega, by omega, by omega⟩) (by
          rintro ⟨h1, h2⟩
          exact hout ⟨by omega, by omega, by omega⟩)]
    · rw [ldlt_left_looking_loop.eq_def, dif_neg (show ¬ n ≤ idx by omega),
        if_neg hb]
      set M2 := ldlt_col_update id n M idx with hM2
      have hM2diag : M2 idx idx = ldlt_d1 (id : K → K) M idx := by
        rw [hM2]
        unfold ldlt_col_update
        rw [if_neg (by omega), if_pos ⟨rfl, rfl⟩]
      have hM2col : ∀ i, idx < i → i < n → M2 i idx =
          (M i idx - ∑ t ∈ Finset.range idx, M i t * (M idx t * M t t)) *
            (ldlt_d1 (id : K → K) M idx)⁻¹ := by
        intro i hi hin
        rw [hM2]
        unfold ldlt_col_update
        rw [if_neg (by omega), if_neg (by omega), if_pos ⟨hi, hin, rfl⟩]
        congr 2
      have hM2off : ∀ i j, j ≠ idx ∨ (n ≤ i ∧ idx < i) → M2 i j = M i j := by
        intro i j hcase
        rw [hM2]
        unfold ldlt_col_update
        rcases hcase with hj | ⟨h1, h2⟩
        · rw [if_neg (by omega), if_neg (by omega), if_neg (by
            rintro ⟨-, -, he⟩
            exact hj he)]
        · rw [if_neg (by omega), if_neg (by omega), if_neg (by omega)]
      have hM2scr : ∀ i, i < idx → M2 i idx = M idx i * M i i := by
        intro i hi
        rw [hM2]
        unfold ldlt_col_update
        rw [if_pos ⟨hi, rfl⟩]
      have inv1 : ∀ i j, j < idx + 1 → j ≤ i → i < n →
          ∑ t ∈ Finset.range (j + 1),
            luEnt M2 i t * M2 t t * luEnt M2 j t = A i j := by
        intro i j hj hji hi
        have hM2dlow : ∀ t, t < idx → M2 t t = M t t := by
          intro t ht
          rw [hM2off t t (Or.inl (by omega))]
        by_cases hje : j = idx
        · by_cases hie : i = idx
          · rw [show i = idx from hie, show j = idx from hje,
              Finset.sum_range_succ, hM2diag, hluD]
            have hstep : ∑ t ∈ Finset.range idx,
                luEnt M2 idx t * M2 t t * luEnt M2 idx t =
                ∑ t ∈ Finset.range idx, M idx t * M t t * M idx t := by
              refine Finset.sum_congr rfl fun t ht => ?_
              have htlt : t < idx := Finset.mem_range.mp ht
              rw [hluE M2 idx t (by omega), hM2off idx t (Or.inl (by omega)),
                hM2dlow t htlt]
            rw [hstep, hd1]
            ring
          · have hilt : idx < i := by omega
            rw [show j = idx from hje, Finset.sum_range_succ, hM2diag, hluD,
              hluE M2 i idx (by omega), hM2col i hilt hi]
            have hstep : ∑ t ∈ Finset.range idx,
                luEnt M2 i t * M2 t t * luEnt M2 idx t =
                ∑ t ∈ Finset.range idx, M i t * (M idx t * M t t) := by
              refine Finset.sum_congr rfl fun t ht => ?_
              have htlt : t < idx := Finset.mem_range.mp ht
              rw [hluE M2 i t (by omega), hluE M2 idx t (by omega),
                hM2off i t (Or.inl (by omega)), hM2off idx t (Or.inl (by omega)),
                hM2dlow t htlt]
              ring
            rw [hstep, inv_mul_cancel_right₀ hdne,
              huntouched i idx (le_refl idx) (by omega) hi]
            ring
        · have hjlt : j < idx := by omega
          have hstep : ∑ t ∈ Finset.range (j + 1),
              luEnt M2 i t * M2 t t * luEnt M2 j t =
              ∑ t ∈ Finset.range (j + 1),
                luEnt M i t * M t t * luEnt M j t := by
            refine Finset.sum_congr rfl fun t ht => ?_
            have htj : t ≤ j := by
              have := Finset.mem_range.mp ht
              omega
            have hW1 : ∀ a, luEnt M2 a t = luEnt M a t := by
              intro a
              by_cases hta : t = a
              · rw [hta, hluD, hluD]
              · rw [hluE M2 a t hta, hluE M a t hta,
                  hM2off a t (Or.inl (by omega))]
            rw [hW1 i, hW1 j, hM2dlow t (by omega)]
          rw [hstep]
          exact hfact i j hjlt hji hi
      have inv2 : ∀ j, j < idx + 1 → 0 < M2 j j := by
        intro j hj
        by_cases hje : j = idx
        · rw [show j = idx from hje, hM2diag]
          exact hpiv
        · rw [hM2off j j (Or.inl (by omega))]
          exact hpos j (by omega)
      have inv3 : ∀ i j, idx + 1 ≤ j → j ≤ i → i < n → M2 i j = A i j := by
        intro i j hj hji hi
        rw [hM2off i j (Or.inl (by omega))]
        exact huntouched i j (by omega) hji hi
      obtain ⟨hfa, hpo, hfr⟩ := ih (idx + 1) M2 (by omega) (by omega)
        inv1 inv2 inv3
      refine ⟨hfa, hpo, ?_⟩
      intro i j hout
      rw [hfr i j (by
        rintro ⟨h1, h2, h3⟩
        exact hout ⟨by omega, h2, h3⟩)]
      by_cases hje : j = idx
      · have hni : n ≤ i := by
          by_contra hc
          push_neg at hc
          exact hout ⟨by omega, by omega, hc⟩
        exact hM2off i j (Or.inr ⟨hni, by omega⟩)
      · exact hM2off i j (Or.inl hje)

/-- Correctness of the recursive blocked LDLT kernel: when the lower n
region of the plane holds the lower part of a symmetric positive definite A,
the lower region of the result carries the unit lower factor (strictly below
the diagonal) and the diagonal factor (on the diagonal) of A, the diagonal
is positive, and the plane is untouched outside the n by n square. -/
theorem ldlt_cholesky_in_place_impl_correct :
    ∀ (n : ℕ) (A M : Mat K), (∀ i j, A i j = A j i) → PosDefOn A n →
      (∀ i j, j ≤ i → i < n → M i j = A i j) →
      (∀ i j, j ≤ i → i < n →
        ∑ t ∈ Finset.range (j + 1),
          luEnt (ldlt_cholesky_in_place_impl id M n) i t *
            ldlt_cholesky_in_place_impl id M n t t *
            luEnt (ldlt_cholesky_in_place_impl id M n) j t = A i j) ∧
      (∀ j, j < n → 0 < ldlt_cholesky_in_place_impl id M n j j) ∧
      (∀ i j, ¬(j < n ∧ i < n) →
        ldlt_cholesky_in_place_impl id M n i j = M i j) := by
  intro n
  induction n using Nat.strong_induction_on with
  | _ n IH =>
    intro A M hAsym hA hM
    have hluE : ∀ (B : Mat K) i t, t ≠ i → luEnt B i t = B i t := by
      intro B i t h
      rw [luEnt, if_neg h]
    have hluD : ∀ (B : Mat K) i, luEnt B i i = 1 := by
      intro B i
      rw [luEnt, if_pos rfl]
    by_cases h32 : n < 32
    · rw [ldlt_cholesky_in_place_impl.eq_def, if_pos h32]
      unfold ldlt_cholesky_in_place_left_looking_impl
      by_cases hn1 : n ≤ 1
      · rw [if_pos hn1]
        refine ⟨?_, ?_, fun i j _ => rfl⟩
        · intro i j hji hi
          rw [show i = 0 by omega, show j = 0 by omega,
            Finset.sum_range_one, hluD, hM 0 0 (le_refl 0) (by omega)]
          ring
        · intro j hj
          rw [show j = 0 by omega, hM 0 0 (le_refl 0) (by omega)]
          exact posDefOn_diag hA (by omega)
      · rw [if_neg hn1]
        obtain ⟨hfa, hpo, hfr⟩ := ldlt_left_looking_loop_correct A hAsym n hA
          n 0 M (by omega) (by omega)
          (fun i j hj _ _ => absurd hj (by omega))
          (fun j hj => absurd hj (by omega))
          (fun i j _ hji hi => hM i j hji hi)
        exact ⟨hfa, hpo, fun i j h => hfr i j (by
          rintro ⟨-, h2, h3⟩
          exact h ⟨h2, h3⟩)⟩
    · rw [ldlt_cholesky_in_place_impl.eq_def, if_neg h32]
      set bs := ldlt_blocksize n with hbsdef
      have hbs1 : bs ≤ n / 2 := min_le_left _ _
      have hbs2 : 0 < bs := by
        rw [hbsdef, ldlt_blocksize]
        exact lt_min (by omega) (by norm_num)
      clear_value bs
      obtain ⟨hfa0, hpo0, hfr0⟩ := IH bs (by omega) A M hAsym
        (posDefOn_mono A (by omega) hA)
        (fun i j hji hi => hM i j hji (by omega))
      set M0 := ldlt_cholesky_in_place_impl id M bs with hM0
      have hM0A : ∀ i j, j ≤ i → i < n → bs ≤ i → M0 i j = A i j := by
        intro i j hji hi hbi
        rw [hfr0 i j (by
          rintro ⟨-, h2⟩
          omega)]
        exact hM i j hji hi
      have hdne0 : ∀ t, t < bs → M0 t t ≠ 0 := fun t ht =>
        ne_of_gt (hpo0 t ht)
      set X := solve_unit_lower_triangular_in_place_unchecked id Conj.yes M0
        (fun a b => M0 (bs + b) a) bs (n - bs) with hX
      have hsolve := solve_unit_lower_correct (id : K → K) Conj.yes
        (2 * (n - bs) + bs) M0 (fun a b => M0 (bs + b) a) bs (n - bs)
        (le_refl _)
      rw [← hX] at hsolve
      have hcross : ∀ i j, bs ≤ i → i < n → j < bs →
          ∑ t ∈ Finset.range (j + 1), luEnt M0 j t * X t (i - bs)
            = A i j := by
        intro i j hbi hin hjb
        have h1 := hsolve.1 j (i - bs) hjb (by omega)
        simp only [matProd, unitLowerOf, mapMat, maybeConj, id_eq] at h1
        have h2 : ∑ t ∈ Finset.range bs,
            (if j < bs ∧ t < j then M0 j t
              else if j < bs ∧ t = j then 1 else 0) * X t (i - bs) =
            ∑ t ∈ Finset.range bs,
              (if t ≤ j then luEnt M0 j t * X t (i - bs) else 0) := by
          refine Finset.sum_congr rfl fun t _ => ?_
          by_cases htj : t < j
          · rw [if_pos ⟨hjb, htj⟩, if_pos (by omega), hluE M0 j t (by omega)]
          · by_cases hte : t = j
            · rw [if_neg (by omega), if_pos ⟨hjb, hte⟩, if_pos (by omega),
                hte, hluD, one_mul]
            · rw [if_neg (by omega), if_neg (by
                rintro ⟨-, he⟩
                exact hte he), if_neg (by omega), zero_mul]
        rw [h2] at h1
        rw [sum_range_extend (fun t => luEnt M0 j t * X t (i - bs)) hjb, h1,
          show bs + (i - bs) = i by omega]
        exact hM0A i j (by omega) hin hbi
      set S := ldlt_solve_step id M0 bs n with hS
      have hSin : ∀ i j, bs ≤ i → i < n → j < bs →
          S i j = X j (i - bs) * (M0 j j)⁻¹ := by
        intro i j hbi hin hjb
        rw [hS]
        unfold ldlt_solve_step
        rw [if_pos ⟨hbi, hin, hjb⟩, ← hX]
      have hSout : ∀ i j, ¬(bs ≤ i ∧ i < n ∧ j < bs) → S i j = M0 i j := by
        intro i j h
        rw [hS]
        unfold ldlt_solve_step
        rw [if_neg h]
      set U := ldlt_update_step id M0 S bs n with hU
      have hUin : ∀ r c, c ≤ r → r < n - bs →
          U (bs + r) (bs + c) = S (bs + r) (bs + c) -
            ∑ t ∈ Finset.range bs, S (bs + r) t * X t c := by
        intro r c hcr hr
        rw [hU]
        unfold ldlt_update_step wback triangular_matmul_lower
          matmul_with_conj ldlt_l10xd0
        rw [if_pos ⟨by omega, by omega, by omega, by omega⟩]
        rw [show bs + r - bs = r by omega, show bs + c - bs = c by omega]
        rw [if_pos hcr, if_pos ⟨by omega, by omega⟩]
        simp only [subm, transposeM]
        rw [← hX]
        have hid : ∑ x ∈ Finset.range bs,
            maybeConj id Conj.no (S (bs + r) (0 + x)) *
              maybeConj id Conj.yes (X x c) =
              ∑ t ∈ Finset.range bs, S (bs + r) t * X t c := by
          refine Finset.sum_congr rfl fun t _ => ?_
          rw [show (0 : ℕ) + t = t from by omega]
          show S (bs + r) t * X t c = S (bs + r) t * X t c
          rfl
        rw [hid]
        ring
      have hUout : ∀ i j,
          ¬(bs ≤ i ∧ i < n ∧ bs ≤ j ∧ j < n ∧ j - bs ≤ i - bs) →
          U i j = S i j := by
        intro i j h
        rw [hU]
        unfold ldlt_update_step wback
        by_cases hin : bs ≤ i ∧ i < bs + (n - bs) ∧ bs ≤ j ∧
            j < bs + (n - bs)
        · rw [if_pos hin]
          unfold triangular_matmul_lower
          rw [if_neg (by omega)]
          simp only [subm]
          rw [show bs + (i - bs) = i by omega,
            show bs + (j - bs) = j by omega]
        · rw [if_neg hin]
      set Y : Mat K := fun r t => S (bs + r) t with hY
      have hYapp : ∀ r t, Y r t = S (bs + r) t := fun r t => by rw [hY]
      have hschur : PosDefOn
          (schurComp A Y (fun t => M0 t t) bs) (n - bs) := by
        refine schur_posdef (T := luEnt M0) (by omega) hAsym
          (fun j hj => by
            rw [hluD]
            exact one_ne_zero) ?_ ?_ hA
        · intro i j hji hi
          exact hfa0 i j hji hi
        · intro r j hr hj
          have h1 : ∀ t ∈ Finset.range (j + 1),
              Y r t * (fun t => M0 t t) t * luEnt M0 j t =
                luEnt M0 j t * X t r := by
            intro t ht
            have htb : t < bs := by
              have := Finset.mem_range.mp ht
              omega
            rw [hYapp r t, hSin (bs + r) t (by omega) (by omega) htb,
              show bs + r - bs = r by omega]
            show X t r * (M0 t t)⁻¹ * M0 t t * luEnt M0 j t =
              luEnt M0 j t * X t r
            rw [inv_mul_cancel_right₀ (hdne0 t htb)]
            ring
          rw [Finset.sum_congr rfl h1]
          have h2 := hcross (bs + r) j (by omega) (by omega) hj
          rw [show bs + r - bs = r by omega] at h2
          exact h2
      have hA'sym : ∀ r c, schurComp A Y (fun t => M0 t t) bs r c =
          schurComp A Y (fun t => M0 t t) bs c r := by
        intro r c
        unfold schurComp
        rw [hAsym (bs + r) (bs + c)]
        congr 1
        exact Finset.sum_congr rfl fun t _ => by ring
      have hM' : ∀ r c, c ≤ r → r < n - bs →
          subm U bs bs r c = schurComp A Y (fun t => M0 t t) bs r c := by
        intro r c hcr hr
        simp only [subm]
        rw [hUin r c hcr hr]
        unfold schurComp
        congr 1
        · rw [hSout (bs + r) (bs + c) (by
            rintro ⟨-, -, h3⟩
            omega)]
          exact hM0A (bs + r) (bs + c) (by omega) (by omega) (by omega)
        · refine Finset.sum_congr rfl fun t ht => ?_
          have htb : t < bs := Finset.mem_range.mp ht
          rw [hYapp r t, hYapp c t,
            hSin (bs + r) t (by omega) (by omega) htb,
            hSin (bs + c) t (by omega) (by omega) htb,
            show bs + r - bs = r by omega, show bs + c - bs = c by omega]
          show X t r * (M0 t t)⁻¹ * X t c =
            X t r * (M0 t t)⁻¹ * M0 t t * (X t c * (M0 t t)⁻¹)
          rw [inv_mul_cancel_right₀ (hdne0 t htb)]
          ring
      obtain ⟨hfa1, hpo1, hfr1⟩ := IH (n - bs) (by omega)
        (schurComp A Y (fun t => M0 t t) bs) (subm U bs bs) hA'sym hschur hM'
      set R1 := ldlt_cholesky_in_place_impl id (subm U bs bs) (n - bs)
        with hR1
      have hFhigh : ∀ i j, bs ≤ i → i < n → bs ≤ j → j < n →
          wback U R1 bs bs (n - bs) (n - bs) i j = R1 (i - bs) (j - bs) := by
        intro i j h1 h2 h3 h4
        unfold wback
        rw [if_pos ⟨by omega, by omega, by omega, by omega⟩]
      have hFlow : ∀ i j, j < bs →
          wback U R1 bs bs (n - bs) (n - bs) i j = U i j := by
        intro i j hj
        unfold wback
        rw [if_neg (by omega)]
      have hFpanel : ∀ a t, bs ≤ a → a < n → t < bs →
          wback U R1 bs bs (n - bs) (n - bs) a t =
            X t (a - bs) * (M0 t t)⁻¹ := by
        intro a t ha han ht
        rw [hFlow a t ht, hUout a t (by omega),
          hSin a t (by omega) han ht]
      have hFkeep : ∀ a t, a < bs → t < bs →
          wback U R1 bs bs (n - bs) (n - bs) a t = M0 a t := by
        intro a t ha ht
        rw [hFlow a t ht, hUout a t (by omega), hSout a t (by omega)]
      refine ⟨?_, ?_, ?_⟩
      · intro i j hji hi
        by_cases hib : i < bs
        · have hlu : ∀ a t, a < bs → t ≤ j →
              luEnt (wback U R1 bs bs (n - bs) (n - bs)) a t =
                luEnt M0 a t := by
            intro a t ha ht
            by_cases hta : t = a
            · rw [hta, hluD, hluD]
            · rw [hluE _ a t hta, hluE M0 a t hta, hFkeep a t ha (by omega)]
          rw [Finset.sum_congr rfl fun t ht => by
            rw [hlu i t hib (by
              have := Finset.mem_range.mp ht
              omega), hlu j t (by omega) (by
              have := Finset.mem_range.mp ht
              omega), hFkeep t t (by
              have := Finset.mem_range.mp ht
              omega) (by
              have := Finset.mem_range.mp ht
              omega)]]
          exact hfa0 i j hji hib
        · by_cases hjb : j < bs
          · have hrw : ∑ t ∈ Finset.range (j + 1),
                luEnt (wback U R1 bs bs (n - bs) (n - bs)) i t *
                  wback U R1 bs bs (n - bs) (n - bs) t t *
                  luEnt (wback U R1 bs bs (n - bs) (n - bs)) j t =
                ∑ t ∈ Finset.range (j + 1), luEnt M0 j t * X t (i - bs) := by
              refine Finset.sum_congr rfl fun t ht => ?_
              have htj : t ≤ j := by
                have := Finset.mem_range.mp ht
                omega
              have hlui : luEnt (wback U R1 bs bs (n - bs) (n - bs)) i t =
                  X t (i - bs) * (M0 t t)⁻¹ := by
                rw [hluE _ i t (by omega), hFpanel i t (by omega) hi
                  (by omega)]
              have hluj : luEnt (wback U R1 bs bs (n - bs) (n - bs)) j t =
                  luEnt M0 j t := by
                by_cases hta : t = j
                · rw [hta, hluD, hluD]
                · rw [hluE _ j t hta, hluE M0 j t hta,
                    hFkeep j t (by omega) (by omega)]
              rw [hlui, hluj, hFkeep t t (by omega) (by omega),
                inv_mul_cancel_right₀ (hdne0 t (by omega))]
              ring
            rw [hrw]
            exact hcross i j (by omega) hi hjb
          · have hsplit : Finset.range (j + 1) =
                Finset.range (bs + (j - bs + 1)) := by
              congr 1
              omega
            rw [hsplit, sum_range_split]
            have hpart1 : ∑ t ∈ Finset.range bs,
                luEnt (wback U R1 bs bs (n - bs) (n - bs)) i t *
                  wback U R1 bs bs (n - bs) (n - bs) t t *
                  luEnt (wback U R1 bs bs (n - bs) (n - bs)) j t =
                ∑ t ∈ Finset.range bs,
                  Y (i - bs) t * (fun t => M0 t t) t * Y (j - bs) t := by
              refine Finset.sum_congr rfl fun t ht => ?_
              have htb : t < bs := Finset.mem_range.mp ht
              rw [hluE _ i t (by omega), hluE _ j t (by omega),
                hFlow i t htb, hFlow j t htb, hUout i t (by omega),
                hUout j t (by omega), hYapp (i - bs) t, hYapp (j - bs) t,
                show bs + (i - bs) = i by omega,
                show bs + (j - bs) = j by omega,
                hFkeep t t (by omega) htb]
            have hpart2 : ∑ u ∈ Finset.range (j - bs + 1),
                luEnt (wback U R1 bs bs (n - bs) (n - bs)) i (bs + u) *
                  wback U R1 bs bs (n - bs) (n - bs) (bs + u) (bs + u) *
                  luEnt (wback U R1 bs bs (n - bs) (n - bs)) j (bs + u) =
                ∑ u ∈ Finset.range (j - bs + 1),
                  luEnt R1 (i - bs) u * R1 u u * luEnt R1 (j - bs) u := by
              refine Finset.sum_congr rfl fun u hu => ?_
              have hub : u ≤ j - bs := by
                have := Finset.mem_range.mp hu
                omega
              have hluF : ∀ a, bs ≤ a → a < n →
                  luEnt (wback U R1 bs bs (n - bs) (n - bs)) a (bs + u) =
                    luEnt R1 (a - bs) u := by
                intro a ha han
                by_cases hta : bs + u = a
                · rw [hta, hluD, show a - bs = u by omega, hluD]
                · rw [hluE _ a (bs + u) hta,
                    hluE R1 (a - bs) u (by omega),
                    hFhigh a (bs + u) ha han (by omega) (by omega),
                    show bs + u - bs = u by omega]
              rw [hluF i (by omega) hi, hluF j (by omega) (by omega),
                hFhigh (bs + u) (bs + u) (by omega) (by omega) (by omega)
                  (by omega),
                show bs + u - bs = u by omega]
            rw [hpart1, hpart2,
              hfa1 (i - bs) (j - bs) (by omega) (by omega)]
            unfold schurComp
            rw [show bs + (i - bs) = i by omega,
              show bs + (j - bs) = j by omega]
            ring
      · intro j hj
        by_cases hjb : j < bs
        · rw [hFkeep j j hjb hjb]
          exact hpo0 j hjb
        · rw [hFhigh j j (by omega) hj (by omega) hj]
          exact hpo1 (j - bs) (by omega)
      · intro i j hout
        have hUSL : U i j = M i j := by
          rw [hUout i j (by
              rintro ⟨h1, h2, h3, h4, h5⟩
              exact hout ⟨by omega, h2⟩),
            hSout i j (by
              rintro ⟨h1, h2, h3⟩
              exact hout ⟨by omega, h2⟩),
            hfr0 i j (by
              rintro ⟨h1, h2⟩
              exact hout ⟨by omega, by omega⟩)]
        by_cases hreg : bs ≤ i ∧ i < bs + (n - bs) ∧ bs ≤ j ∧
            j < bs + (n - bs)
        · unfold wback
          rw [if_pos hreg]
          rw [hfr1 (i - bs) (j - bs) (by
            rintro ⟨h1, h2⟩
            exact hout ⟨by omega, by omega⟩)]
          simp only [subm]
          rw [show bs + (i - bs) = i by omega,
            show bs + (j - bs) = j by omega]
          exact hUSL
        · unfold wback
          rw [if_neg hreg]
          exact hUSL

/-! ### The regularization and error policy of the LLT pivots -/

/-- If the loop output trace holds a negative pivot (and the entry trace held
none), the loop stopped with CholeskyError: a negative pivot never passes the
regularization test, whatever delta and eps are. -/
theorem llt_loop_negative_pivot (conj sqrt : K → K) (delta eps : K) (n : ℕ) :
    ∀ (N idx count : ℕ) (trace : List K) (M : Mat K), n - idx ≤ N →
      (∀ p ∈ trace, ¬ p < 0) →
      ∀ tr r, llt_left_looking_loop conj sqrt delta eps n M idx count trace =
        (tr, r) →
      ∀ p ∈ tr, p < 0 →
        r = Except.error CholeskyError.nonPositivePivot := by
  intro N
  induction N with
  | zero =>
    intro idx count trace M hN htr tr r heq p hp hpneg
    rw [llt_left_looking_loop.eq_def, dif_pos (by omega : n ≤ idx)] at heq
    injection heq with h1 h2
    subst h1
    exact absurd hpneg (htr p hp)
  | succ N ih =>
    intro idx count trace M hN htr tr r heq p hp hpneg
    by_cases hni : n ≤ idx
    · rw [llt_left_looking_loop.eq_def, dif_pos hni] at heq
      injection heq with h1 h2
      subst h1
      exact absurd hpneg (htr p hp)
    · by_cases hr1 : 0 < llt_real1 conj delta eps M idx
      · rw [llt_left_looking_loop.eq_def, dif_neg hni, if_pos hr1] at heq
        have hge : ¬ llt_real0 conj M idx < 0 := by
          intro hneg
          have he : llt_real1 conj delta eps M idx =
              llt_real0 conj M idx := by
            rw [llt_real1, if_neg (by
              rintro ⟨-, h2, -⟩
              exact absurd hneg (not_lt.mpr h2))]
          rw [he] at hr1
          exact absurd hr1 (not_lt.mpr (le_of_lt hneg))
        by_cases hbreak : idx + 1 = n
        · rw [if_pos hbreak] at heq
          injection heq with h1 h2
          subst h1
          rcases List.mem_append.mp hp with hmem | hmem
          · exact absurd hpneg (htr p hmem)
          · rw [List.mem_singleton.mp hmem] at hpneg
            exact absurd hpneg hge
        · rw [if_neg hbreak] at heq
          exact ih (idx + 1) _ _ _ (by omega) (fun q hq => by
            rcases List.mem_append.mp hq with h | h
            · exact htr q h
            · rw [List.mem_singleton.mp h]
              exact hge) tr r heq p hp hpneg
      · rw [llt_left_looking_loop.eq_def, dif_neg hni, if_neg hr1] at heq
        injection heq with h1 h2
        exact h2.symm

/-- With regularization disabled (delta zero), any non positive pivot in the
output trace means the loop stopped with CholeskyError. -/
theorem llt_loop_disabled_pivot (conj sqrt : K → K) (eps : K) (n : ℕ) :
    ∀ (N idx count : ℕ) (trace : List K) (M : Mat K), n - idx ≤ N →
      (∀ p ∈ trace, ¬ p ≤ 0) →
      ∀ tr r, llt_left_looking_loop conj sqrt 0 eps n M idx count trace =
        (tr, r) →
      ∀ p ∈ tr, p ≤ 0 →
        r = Except.error CholeskyError.nonPositivePivot := by
  intro N
  induction N with
  | zero =>
    intro idx count trace M hN htr tr r heq p hp hple
    rw [llt_left_looking_loop.eq_def, dif_pos (by omega : n ≤ idx)] at heq
    injection heq with h1 h2
    subst h1
    exact absurd hple (htr p hp)
  | succ N ih =>
    intro idx count trace M hN htr tr r heq p hp hple
    have hreg : ¬ llt_regularized conj (0 : K) eps M idx := by
      rintro ⟨h0, -, -⟩
      exact absurd h0 (lt_irrefl 0)
    have he : llt_real1 conj (0 : K) eps M idx = llt_real0 conj M idx := by
      rw [llt_real1, if_neg hreg]
    by_cases hni : n ≤ idx
    · rw [llt_left_looking_loop.eq_def, dif_pos hni] at heq
      injection heq with h1 h2
      subst h1
      exact absurd hple (htr p hp)
    · by_cases hr1 : 0 < llt_real1 conj (0 : K) eps M idx
      · rw [llt_left_looking_loop.eq_def, dif_neg hni, if_pos hr1] at heq
        have hgt : ¬ llt_real0 conj M idx ≤ 0 := by
          rw [he] at hr1
          exact not_le.mpr hr1
        by_cases hbreak : idx + 1 = n
        · rw [if_pos hbreak] at heq
          injection heq with h1 h2
          subst h1
          rcases List.mem_append.mp hp with hmem | hmem
          · exact absurd hple (htr p hmem)
          · rw [List.mem_singleton.mp hmem] at hple
            exact absurd hple hgt
        · rw [if_neg hbreak] at heq
          exact ih (idx + 1) _ _ _ (by omega) (fun q hq => by
            rcases List.mem_append.mp hq with h | h
            · exact htr q h
            · rw [List.mem_singleton.mp h]
              exact hgt) tr r heq p hp hple
      · rw [llt_left_looking_loop.eq_def, dif_neg hni, if_neg hr1] at heq
        injection heq with h1 h2
        exact h2.symm

/-- With regularization enabled (delta positive, eps non negative), a
successful loop never decreases the count, and a zero pivot in the freshly
appended part of the trace makes the final count strictly larger than the
entered one. -/
theorem llt_loop_regularization_count (conj sqrt : K → K) (delta eps : K)
    (hdelta : 0 < delta) (heps : 0 ≤ eps) (n : ℕ) :
    ∀ (N idx count : ℕ) (trace : List K) (M : Mat K), n - idx ≤ N →
      ∀ tr L c, llt_left_looking_loop conj sqrt delta eps n M idx count
        trace = (tr, Except.ok (L, c)) →
      count ≤ c ∧ ((0 : K) ∈ tr → (0 : K) ∈ trace ∨ count < c) := by
  intro N
  induction N with
  | zero =>
    intro idx count trace M hN tr L c heq
    rw [llt_left_looking_loop.eq_def, dif_pos (by omega : n ≤ idx)] at heq
    injection heq with h1 h2
    subst h1
    injection h2 with h3
    injection h3 with h4 h5
    subst h5
    exact ⟨le_refl _, fun h => Or.inl h⟩
  | succ N ih =>
    intro idx count trace M hN tr L c heq
    by_cases hni : n ≤ idx
    · rw [llt_left_looking_loop.eq_def, dif_pos hni] at heq
      injection heq with h1 h2
      subst h1
      injection h2 with h3
      injection h3 with h4 h5
      subst h5
      exact ⟨le_refl _, fun h => Or.inl h⟩
    · have hcount : count ≤ llt_count1 conj delta eps M idx count := by
        rw [llt_count1]
        split_ifs <;> omega
      have hzero : llt_real0 conj M idx = 0 →
          llt_count1 conj delta eps M idx count = count + 1 := by
        intro h0
        rw [llt_count1, if_pos ⟨hdelta, by rw [h0], by rw [h0]; exact heps⟩]
      by_cases hr1 : 0 < llt_real1 conj delta eps M idx
      · rw [llt_left_looking_loop.eq_def, dif_neg hni, if_pos hr1] at heq
        by_cases hbreak : idx + 1 = n
        · rw [if_pos hbreak] at heq
          injection heq with h1 h2
          subst h1
          injection h2 with h3
          injection h3 with h4 h5
          subst h5
          refine ⟨hcount, fun h => ?_⟩
          rcases List.mem_append.mp h with hmem | hmem
          · exact Or.inl hmem
          · have h0 : llt_real0 conj M idx = 0 :=
              (List.mem_singleton.mp hmem).symm
            exact Or.inr (by
              rw [hzero h0]
              omega)
        · rw [if_neg hbreak] at heq
          obtain ⟨hc1, hm1⟩ := ih (idx + 1) _ _ _ (by omega) tr L c heq
          refine ⟨le_trans hcount hc1, fun h => ?_⟩
          rcases hm1 h with hmem | hlt
          · rcases List.mem_append.mp hmem with h2 | h2
            · exact Or.inl h2
            · have h0 : llt_real0 conj M idx = 0 :=
                (List.mem_singleton.mp h2).symm
              exact Or.inr (by
                have := hzero h0
                omega)
          · exact Or.inr (by omega)
      · rw [llt_left_looking_loop.eq_def, dif_neg hni, if_neg hr1] at heq
        injection heq with h1 h2
        exact absurd h2.symm (by simp)

/-- Lifting the negative pivot policy through the blocked recursion. -/
theorem llt_impl_negative_pivot (conj sqrt : K → K)
    (reg : LltRegularization K) (par : Parallelism) (ambient : ℕ) :
    ∀ (n : ℕ) (M : Mat K) (tr : List K)
      (r : Except CholeskyError (Mat K × ℕ)),
      llt_cholesky_in_place_impl conj sqrt reg par ambient M n = (tr, r) →
      ∀ p ∈ tr, p < 0 →
        r = Except.error CholeskyError.nonPositivePivot := by
  intro n
  induction n using Nat.strong_induction_on with
  | _ n IH =>
    intro M tr r heq p hp hpneg
    by_cases h32 : n < 32
    · rw [llt_cholesky_in_place_impl.eq_def, if_pos h32] at heq
      unfold llt_cholesky_in_place_left_looking_impl at heq
      by_cases hn0 : n = 0
      · rw [if_pos hn0] at heq
        injection heq with h1 h2
        subst h1
        exact absurd hp (by simp)
      · rw [if_neg hn0] at heq
        exact llt_loop_negative_pivot conj sqrt _ _ n n 0 0 [] M (by omega)
          (by simp) tr r heq p hp hpneg
    · rw [llt_cholesky_in_place_impl.eq_def, if_neg h32] at heq
      by_cases hbs : 0 < llt_blocksize par ambient n
      · rw [dif_pos hbs] at heq
        have hbslt : llt_blocksize par ambient n < n := by
          have h1 : llt_blocksize par ambient n ≤ n / 2 := min_le_left _ _
          omega
        rcases hsub1 : llt_cholesky_in_place_impl conj sqrt reg par ambient M
          (llt_blocksize par ambient n) with ⟨tr0, r0⟩
        cases r0 with
        | error e =>
          simp only [hsub1] at heq
          injection heq with h1 h2
          cases e
          exact h2.symm
        | ok v =>
          rcases v with ⟨M0, c0⟩
          simp only [hsub1] at heq
          rcases hsub2 : llt_cholesky_in_place_impl conj sqrt reg par ambient
            (subm (llt_update_step conj
              (llt_solve_step conj M0 (llt_blocksize par ambient n) n)
              (llt_blocksize par ambient n) n)
              (llt_blocksize par ambient n) (llt_blocksize par ambient n))
            (n - llt_blocksize par ambient n) with ⟨tr1, r1⟩
          cases r1 with
          | error e =>
            simp only [hsub2] at heq
            injection heq with h1 h2
            cases e
            exact h2.symm
          | ok w =>
            rcases w with ⟨Msub, c1⟩
            simp only [hsub2] at heq
            injection heq with h1 h2
            subst h1
            rcases List.mem_append.mp hp with hmem | hmem
            · exact absurd (IH _ hbslt M tr0 _ hsub1 p hmem hpneg)
                (by simp)
            · exact absurd (IH _ (by omega) _ tr1 _ hsub2 p hmem hpneg)
                (by simp)
      · rw [dif_neg hbs] at heq
        injection heq with h1 h2
        subst h1
        exact absurd hp (by simp)

/-- Lifting the disabled regularization policy through the blocked
recursion. -/
theorem llt_impl_disabled_pivot (conj sqrt : K → K)
    (reg : LltRegularization K) (par : Parallelism) (ambient : ℕ)
    (hdel : reg.dynamic_regularization_delta = 0) :
    ∀ (n : ℕ) (M : Mat K) (tr : List K)
      (r : Except CholeskyError (Mat K × ℕ)),
      llt_cholesky_in_place_impl conj sqrt reg par ambient M n = (tr, r) →
      ∀ p ∈ tr, p ≤ 0 →
        r = Except.error CholeskyError.nonPositivePivot := by
  intro n
  induction n using Nat.strong_induction_on with
  | _ n IH =>
    intro M tr r heq p hp hple
    by_cases h32 : n < 32
    · rw [llt_cholesky_in_place_impl.eq_def, if_pos h32] at heq
      unfold llt_cholesky_in_place_left_looking_impl at heq
      by_cases hn0 : n = 0
      · rw [if_pos hn0] at heq
        injection heq with h1 h2
        subst h1
        exact absurd hp (by simp)
      · rw [if_neg hn0] at heq
        rw [hdel, abs_zero] at heq
        exact llt_loop_disabled_pivot conj sqrt _ n n 0 0 [] M (by omega)
          (by simp) tr r heq p hp hple
    · rw [llt_cholesky_in_place_impl.eq_def, if_neg h32] at heq
      by_cases hbs : 0 < llt_blocksize par ambient n
      · rw [dif_pos hbs] at heq
        have hbslt : llt_blocksize par ambient n < n := by
          have h1 : llt_blocksize par ambient n ≤ n / 2 := min_le_left _ _
          omega
        rcases hsub1 : llt_cholesky_in_place_impl conj sqrt reg par ambient M
          (llt_blocksize par ambient n) with ⟨tr0, r0⟩
        cases r0 with
        | error e =>
          simp only [hsub1] at heq
          injection heq with h1 h2
          cases e
          exact h2.symm
        | ok v =>
          rcases v with ⟨M0, c0⟩
          simp only [hsub1] at heq
          rcases hsub2 : llt_cholesky_in_place_impl conj sqrt reg par ambient
            (subm (llt_update_step conj
              (llt_solve_step conj M0 (llt_blocksize par ambient n) n)
              (llt_blocksize par ambient n) n)
              (llt_blocksize par ambient n) (llt_blocksize par ambient n))
            (n - llt_blocksize par ambient n) with ⟨tr1, r1⟩
          cases r1 with
          | error e =>
            simp only [hsub2] at heq
            injection heq with h1 h2
            cases e
            exact h2.symm
          | ok w =>
            rcases w with ⟨Msub, c1⟩
            simp only [hsub2] at heq
            injection heq with h1 h2
            subst h1
            rcases List.mem_append.mp hp with hmem | hmem
            · exact absurd (IH _ hbslt M tr0 _ hsub1 p hmem hple) (by simp)
            · exact absurd (IH _ (by omega) _ tr1 _ hsub2 p hmem hple)
                (by simp)
      · rw [dif_neg hbs] at heq
        injection heq with h1 h2
        subst h1
        exact absurd hp (by simp)

/-- Lifting the regularization count policy through the blocked recursion:
on success with delta nonzero, a zero pivot in the trace forces a positive
count. -/
theorem llt_impl_regularization_count (conj sqrt : K → K)
    (reg : LltRegularization K) (par : Parallelism) (ambient : ℕ)
    (hdel : reg.dynamic_regularization_delta ≠ 0) :
    ∀ (n : ℕ) (M : Mat K) (tr : List K) (L : Mat K) (c : ℕ),
      llt_cholesky_in_place_impl conj sqrt reg par ambient M n =
        (tr, Except.ok (L, c)) →
      (0 : K) ∈ tr → 0 < c := by
  intro n
  induction n using Nat.strong_induction_on with
  | _ n IH =>
    intro M tr L c heq hmem
    by_cases h32 : n < 32
    · rw [llt_cholesky_in_place_impl.eq_def, if_pos h32] at heq
      unfold llt_cholesky_in_place_left_looking_impl at heq
      by_cases hn0 : n = 0
      · rw [if_pos hn0] at heq
        injection heq with h1 h2
        subst h1
        exact absurd hmem (by simp)
      · rw [if_neg hn0] at heq
        obtain ⟨h1, h2⟩ := llt_loop_regularization_count conj sqrt
          |reg.dynamic_regularization_delta|
          |reg.dynamic_regularization_epsilon|
          (abs_pos.mpr hdel) (abs_nonneg _) n n 0 0 [] M (by omega)
          tr L c heq
        rcases h2 hmem with h3 | h3
        · exact absurd h3 (by simp)
        · exact h3
    · rw [llt_cholesky_in_place_impl.eq_def, if_neg h32] at heq
      by_cases hbs : 0 < llt_blocksize par ambient n
      · rw [dif_pos hbs] at heq
        have hbslt : llt_blocksize par ambient n < n := by
          have h1 : llt_blocksize par ambient n ≤ n / 2 := min_le_left _ _
          omega
        rcases hsub1 : llt_cholesky_in_place_impl conj sqrt reg par ambient M
          (llt_blocksize par ambient n) with ⟨tr0, r0⟩
        cases r0 with
        | error e =>
          simp only [hsub1] at heq
          injection heq with h1 h2
          exact absurd h2.symm (by simp)
        | ok v =>
          rcases v with ⟨M0, c0⟩
          simp only [hsub1] at heq
          rcases hsub2 : llt_cholesky_in_place_impl conj sqrt reg par ambient
            (subm (llt_update_step conj
              (llt_solve_step conj M0 (llt_blocksize par ambient n) n)
              (llt_blocksize par ambient n) n)
              (llt_blocksize par ambient n) (llt_blocksize par ambient n))
            (n - llt_blocksize par ambient n) with ⟨tr1, r1⟩
          cases r1 with
          | error e =>
            simp only [hsub2] at heq
            injection heq with h1 h2
            exact absurd h2.symm (by simp)
          | ok w =>
            rcases w with ⟨Msub, c1⟩
            simp only [hsub2] at heq
            injection heq with h1 h2
            subst h1
            injection h2 with h3
            injection h3 with h4 h5
            rcases List.mem_append.mp hmem with hm | hm
            · have := IH _ hbslt M tr0 M0 c0 hsub1 hm
              omega
            · have := IH _ (by omega) _ tr1 Msub c1 hsub2 hm
              omega
      · rw [dif_neg hbs] at heq
        injection heq with h1 h2
        subst h1
        exact absurd hmem (by simp)

/-! ### Theorems for claims C4, C9, C10 about the definitions above -/

/-- C4, counterexample: the recursive triangular solve blocksize is NOT the
smaller half of n rounded down to a SIMD friendly multiple. At n = 5 the code
picks 3 while the claimed value is floor(5/2) = 2; at n = 40 the code picks 8
while the claimed value (20 rounded down to a multiple of 16) is 16. -/
theorem blocksize_counterexample :
    blocksize 5 = 3 ∧ blocksizeClaimed 5 = 2 ∧
      blocksize 40 = 8 ∧ blocksizeClaimed 40 = 16 := by
  decide

/-- C4, amended: in the recursive case (n above the base case threshold 4),
the chosen split blocksize equals n minus the smaller half of n rounded UP to
a SIMD friendly multiple (16 when n is at least 32, 8 when at least 16, 4
when at least 8, and no rounding below 8, where the blocksize is the larger
half of n); the blocksize is positive and strictly less than n, so the
recursion is well founded. -/
theorem blocksize_is_remainder_rounded_up (n : ℕ) (h : recursion_threshold < n) :
    blocksize n = blocksizeAmended n ∧ 0 < blocksize n ∧ blocksize n < n := by
  have h4 : 4 < n := h
  simp only [blocksize, blocksizeAmended, blocksizeClaimed, roundUpMultiple]
  split_ifs with h32 h16 h8 <;> omega

/-- Witness for C4 at n = 40. -/
theorem blocksize_is_remainder_rounded_up_witness :
    recursion_threshold < 40 ∧
      (blocksize 40 = blocksizeAmended 40 ∧ 0 < blocksize 40 ∧ blocksize 40 < 40) :=
  ⟨by decide, blocksize_is_remainder_rounded_up 40 (by decide)⟩

/-- C9: the fork join primitive. With the sequential setting (None, or a
bounded worker count of 1) both tasks run on the calling thread in order
(task A, then task B), each receiving the sequential setting. With a bounded
worker count n not equal to 1, the count (with 0 first replaced by the
ambient default worker count) is halved, rounding up, and both tasks are
forked with that half budget. -/
theorem join_raw_budget (ambientThreads : ℕ) :
    join_raw ambientThreads .none = ([(.taskA, .none), (.taskB, .none)], false) ∧
    join_raw ambientThreads (.rayon 1) = ([(.taskA, .none), (.taskB, .none)], false) ∧
    (∀ n : ℕ, n ≠ 1 →
      join_raw ambientThreads (.rayon n) =
        (let m := if 0 < n then n else ambientThreads
         ([(.taskA, .rayon (m - m / 2)), (.taskB, .rayon (m - m / 2))], true))) := by
  refine ⟨rfl, by simp [join_raw], fun n hn => ?_⟩
  simp [join_raw, hn]

/-- Witness for C9: a bounded worker count of 5 with ambient count 4 forks
both tasks with budget 3 (half of 5, rounded up). -/
theorem join_raw_budget_witness :
    (5 : ℕ) ≠ 1 ∧
      join_raw 4 (.rayon 5) = ([(.taskA, .rayon 3), (.taskB, .rayon 3)], true) := by
  refine ⟨by decide, ?_⟩
  have h := (join_raw_budget 4).2.2 5 (by decide)
  simpa using h

/-- C10: for every dimension, parallelism setting and parameter value, the
plain Cholesky sizing function cholesky_in_place_req returns the empty
scratch requirement: zero bytes (alignment one). Any scratch buffer, the
empty one included, therefore satisfies the sizing contract of the LLT
factorization. -/
theorem llt_req_is_empty (dim : ℕ) (par : Parallelism) (params : LltParams) :
    llt_cholesky_in_place_req dim par params = Except.ok ⟨0, 1⟩ ∧
      StackReq.empty.bytes = 0 :=
  ⟨rfl, rfl⟩

/-- C8: the upper triangular solves (unit and non unit variants) are exactly
the reduction to the lower primitive through reversal: each equals the lower
solve applied to T with rows and columns reversed and to X with rows
reversed, written back through the reversed view; moreover the reduction is
a correct upper triangular solve: multiplying the (conjugated) upper
triangle by the result reproduces the right hand side on the region. -/
theorem upper_solves_reduce_to_lower (conj : K → K) (cl : Conj)
    (triu rhs : Mat K) (n k : ℕ)
    (hd : ∀ i, i < n → maybeConj conj cl (triu i i) ≠ 0) :
    (solve_upper_triangular_in_place_unchecked conj cl triu rhs n k =
      wback rhs
        (reverse_rows (solve_lower_triangular_in_place_unchecked conj cl
          (reverse_rows_and_cols triu n) (reverse_rows rhs n) n k) n) 0 0 n k) ∧
    (solve_unit_upper_triangular_in_place_unchecked conj cl triu rhs n k =
      wback rhs
        (reverse_rows (solve_unit_lower_triangular_in_place_unchecked conj cl
          (reverse_rows_and_cols triu n) (reverse_rows rhs n) n k) n) 0 0 n k) ∧
    (∀ i j, i < n → j < k →
      matProd (upperTriOf (mapMat (maybeConj conj cl) triu) n)
        (solve_upper_triangular_in_place_unchecked conj cl triu rhs n k) n i j
        = rhs i j) ∧
    (∀ i j, i < n → j < k →
      matProd (unitUpperOf (mapMat (maybeConj conj cl) triu) n)
        (solve_unit_upper_triangular_in_place_unchecked conj cl triu rhs n k) n i j
        = rhs i j) := by
  refine ⟨rfl, rfl, ?_, ?_⟩
  · intro i j hi hj
    have hd2 : ∀ t, t < n →
        maybeConj conj cl (reverse_rows_and_cols triu n t t) ≠ 0 := by
      intro t ht
      simpa [reverse_rows_and_cols] using hd (n - 1 - t) (by omega)
    have hlc := solve_lower_correct conj cl (2 * k + n)
      (reverse_rows_and_cols triu n) (reverse_rows rhs n) n k le_rfl hd2
    have hstep : matProd (upperTriOf (mapMat (maybeConj conj cl) triu) n)
        (solve_upper_triangular_in_place_unchecked conj cl triu rhs n k) n i j
        = ∑ t ∈ Finset.range n,
            lowerTriOf (mapMat (maybeConj conj cl) (reverse_rows_and_cols triu n)) n
                (n - 1 - i) (n - 1 - t) *
              solve_lower_triangular_in_place_unchecked conj cl
                (reverse_rows_and_cols triu n) (reverse_rows rhs n) n k
                (n - 1 - t) j := by
      simp only [matProd]
      refine Finset.sum_congr rfl fun t ht => ?_
      have ht' : t < n := Finset.mem_range.mp ht
      rw [solve_upper_entry conj cl triu rhs n k ht' hj,
        upperTri_reflect (maybeConj conj cl) triu n i t hi ht']
    rw [hstep, Finset.sum_range_reflect
      (fun u => lowerTriOf (mapMat (maybeConj conj cl) (reverse_rows_and_cols triu n)) n
          (n - 1 - i) u *
        solve_lower_triangular_in_place_unchecked conj cl
          (reverse_rows_and_cols triu n) (reverse_rows rhs n) n k u j) n]
    have h2 := hlc.1 (n - 1 - i) j (by omega) hj
    simp only [matProd] at h2
    rw [h2]
    simp only [reverse_rows]
    rw [show n - 1 - (n - 1 - i) = i from by omega]
  · intro i j hi hj
    have hlc := solve_unit_lower_correct conj cl (2 * k + n)
      (reverse_rows_and_cols triu n) (reverse_rows rhs n) n k le_rfl
    have hstep : matProd (unitUpperOf (mapMat (maybeConj conj cl) triu) n)
        (solve_unit_upper_triangular_in_place_unchecked conj cl triu rhs n k) n i j
        = ∑ t ∈ Finset.range n,
            unitLowerOf (mapMat (maybeConj conj cl) (reverse_rows_and_cols triu n)) n
                (n - 1 - i) (n - 1 - t) *
              solve_unit_lower_triangular_in_place_unchecked conj cl
                (reverse_rows_and_cols triu n) (reverse_rows rhs n) n k
                (n - 1 - t) j := by
      simp only [matProd]
      refine Finset.sum_congr rfl fun t ht => ?_
      have ht' : t < n := Finset.mem_range.mp ht
      rw [solve_unit_upper_entry conj cl triu rhs n k ht' hj,
        unitUpper_reflect (maybeConj conj cl) triu n i t hi ht']
    rw [hstep, Finset.sum_range_reflect
      (fun u => unitLowerOf (mapMat (maybeConj conj cl) (reverse_rows_and_cols triu n)) n
          (n - 1 - i) u *
        solve_unit_lower_triangular_in_place_unchecked conj cl
          (reverse_rows_and_cols triu n) (reverse_rows rhs n) n k u j) n]
    have h2 := hlc.1 (n - 1 - i) j (by omega) hj
    simp only [matProd] at h2
    rw [h2]
    simp only [reverse_rows]
    rw [show n - 1 - (n - 1 - i) = i from by omega]

/-- Witness for C8 at a concrete one by one system over the rationals. -/
theorem upper_solves_reduce_to_lower_witness :
    (∀ i, i < 1 → maybeConj (fun x : ℚ => x) Conj.no ((fun _ _ => (3 : ℚ)) i i) ≠ 0) ∧
      matProd
        (upperTriOf (mapMat (maybeConj (fun x : ℚ => x) Conj.no) (fun _ _ => (3 : ℚ))) 1)
        (solve_upper_triangular_in_place_unchecked (fun x : ℚ => x) Conj.no
          (fun _ _ => (3 : ℚ)) (fun _ _ => (6 : ℚ)) 1 1) 1 0 0 = (fun _ _ => (6 : ℚ)) 0 0 := by
  have hd : ∀ i, i < 1 →
      maybeConj (fun x : ℚ => x) Conj.no ((fun _ _ => (3 : ℚ)) i i) ≠ 0 := by
    intro i hi
    norm_num [maybeConj]
  exact ⟨hd, (upper_solves_reduce_to_lower (fun x : ℚ => x) Conj.no
    (fun _ _ => (3 : ℚ)) (fun _ _ => (6 : ℚ)) 1 1 hd).2.2.1 0 0 (by norm_num)
    (by norm_num)⟩

/-- The triangular masked product over the full range agrees with the
truncated factorization sums: packaging lemma for the LLT reconstruction. -/
theorem lowerTri_prod_eq (L B : Mat K) (n : ℕ)
    (hfa : ∀ i j, j ≤ i → i < n →
      ∑ t ∈ Finset.range (j + 1), L i t * L j t = B i j)
    (hBsym : ∀ i j, B i j = B j i) :
    ∀ i j, i < n → j < n →
      matProd (lowerTriOf L n) (transposeM (lowerTriOf L n)) n i j =
        B i j := by
  have key : ∀ i j, j ≤ i → i < n → j < n →
      matProd (lowerTriOf L n) (transposeM (lowerTriOf L n)) n i j =
        B i j := by
    intro i j hji hi hj
    unfold matProd transposeM lowerTriOf
    have h1 : ∑ t ∈ Finset.range n,
        (if i < n ∧ t ≤ i then L i t else 0) *
          (if j < n ∧ t ≤ j then L j t else 0) =
        ∑ t ∈ Finset.range n, (if t ≤ j then L i t * L j t else 0) := by
      refine Finset.sum_congr rfl fun t _ => ?_
      by_cases htj : t ≤ j
      · rw [if_pos ⟨hi, by omega⟩, if_pos ⟨hj, htj⟩, if_pos htj]
      · rw [if_neg (show ¬(j < n ∧ t ≤ j) from by tauto), mul_zero,
          if_neg htj]
    rw [h1, ← sum_range_extend (fun t => L i t * L j t) hj]
    exact hfa i j hji hi
  intro i j hi hj
  rcases le_or_lt j i with h | h
  · exact key i j h hi hj
  · have hcomm : matProd (lowerTriOf L n) (transposeM (lowerTriOf L n)) n i j
        = matProd (lowerTriOf L n) (transposeM (lowerTriOf L n)) n j i := by
      unfold matProd transposeM
      exact Finset.sum_congr rfl fun t _ => by ring
    rw [hcomm, key j i (by omega) hj hi, hBsym]

/-- The unit lower triangle with implicit ones agrees entrywise with the
masked luEnt convention. -/
theorem unitLowerOf_luEnt (R : Mat K) (n a t : ℕ) :
    unitLowerOf R n a t = if a < n ∧ t ≤ a then luEnt R a t else 0 := by
  unfold unitLowerOf luEnt
  by_cases ha : a < n
  · by_cases h1 : t < a
    · rw [if_pos ⟨ha, h1⟩, if_pos ⟨ha, by omega⟩, if_neg (by omega)]
    · by_cases h2 : t = a
      · rw [if_neg (by omega), if_pos ⟨ha, h2⟩, if_pos ⟨ha, by omega⟩,
          if_pos h2]
      · rw [if_neg (by omega), if_neg (by tauto), if_neg (by omega)]
  · rw [if_neg (by tauto), if_neg (by tauto), if_neg (by tauto)]

/-- The weighted unit lower masked product over the full range agrees with
the truncated factorization sums: packaging lemma for the LDLT
reconstruction. -/
theorem unitLower_prod_eq (R B : Mat K) (n : ℕ)
    (hfa : ∀ i j, j ≤ i → i < n →
      ∑ t ∈ Finset.range (j + 1), luEnt R i t * R t t * luEnt R j t = B i j)
    (hBsym : ∀ i j, B i j = B j i) :
    ∀ i j, i < n → j < n →
      ∑ t ∈ Finset.range n,
        unitLowerOf R n i t * R t t * unitLowerOf R n j t = B i j := by
  have key : ∀ i j, j ≤ i → i < n → j < n →
      ∑ t ∈ Finset.range n,
        unitLowerOf R n i t * R t t * unitLowerOf R n j t = B i j := by
    intro i j hji hi hj
    have h1 : ∑ t ∈ Finset.range n,
        unitLowerOf R n i t * R t t * unitLowerOf R n j t =
        ∑ t ∈ Finset.range n,
          (if t ≤ j then luEnt R i t * R t t * luEnt R j t else 0) := by
      refine Finset.sum_congr rfl fun t _ => ?_
      rw [unitLowerOf_luEnt, unitLowerOf_luEnt]
      by_cases htj : t ≤ j
      · rw [if_pos ⟨hi, by omega⟩, if_pos ⟨hj, htj⟩, if_pos htj]
      · rw [if_neg (show ¬(j < n ∧ t ≤ j) from by tauto), mul_zero,
          if_neg htj]
    rw [h1, ← sum_range_extend
      (fun t => luEnt R i t * R t t * luEnt R j t) hj]
    exact hfa i j hji hi
  intro i j hi hj
  rcases le_or_lt j i with h | h
  · exact key i j h hi hj
  · have hcomm : ∑ t ∈ Finset.range n,
        unitLowerOf R n i t * R t t * unitLowerOf R n j t =
        ∑ t ∈ Finset.range n,
          unitLowerOf R n j t * R t t * unitLowerOf R n i t :=
      Finset.sum_congr rfl fun t _ => by ring
    rw [hcomm, key j i (by omega) hj hi, hBsym]

/-- C1: for every matrix whose lower triangle holds a symmetric positive
definite A (only the lower triangular half of the input is read), the LLT
driver cholesky_in_place with the default regularization succeeds and
overwrites the lower triangle with a lower triangular factor L satisfying
L Lᵀ = A on the whole n by n region, leaving the rest of the plane
untouched; and the LDLT driver raw_cholesky_in_place overwrites it with a
unit lower factor and a diagonal D satisfying L D Lᵀ = A, touching only the
n by n square. Stated for the reals instantiation (the conjugation is the
identity) for any square root function meeting the square root specification
on positive inputs. -/
theorem cholesky_factorizations_reconstruct (sqrt : K → K)
    (hsqrt : ∀ x : K, 0 < x → 0 < sqrt x ∧ sqrt x * sqrt x = x)
    (par : Parallelism) (ambient : ℕ)
    (hdeg : 0 < parallelism_degree ambient par)
    (M : Mat K) (n : ℕ) (hA : PosDefOn (symLower M) n) :
    (∃ tr L c, llt_cholesky_in_place id sqrt ⟨0, 0⟩ par ambient M n =
        (tr, Except.ok (L, c)) ∧
      (∀ i j, i < n → j < n →
        matProd (lowerTriOf L n) (transposeM (lowerTriOf L n)) n i j =
          symLower M i j) ∧
      (∀ i j, ¬(j ≤ i ∧ i < n) → L i j = M i j)) ∧
    (∀ i j, i < n → j < n →
      ∑ t ∈ Finset.range n,
        unitLowerOf (ldlt_raw_cholesky_in_place id M n) n i t *
          ldlt_raw_cholesky_in_place id M n t t *
          unitLowerOf (ldlt_raw_cholesky_in_place id M n) n j t =
        symLower M i j) ∧
    (∀ i j, ¬(j < n ∧ i < n) →
      ldlt_raw_cholesky_in_place id M n i j = M i j) := by
  have hAsym : ∀ i j, symLower M i j = symLower M j i := symLower_symm M
  have hMlow : ∀ i j, j ≤ i → i < n → M i j = symLower M i j :=
    fun i j hji _ => (symLower_low M hji).symm
  constructor
  · obtain ⟨tr, L, heq, hfa, hpo, hfr⟩ :=
      llt_cholesky_in_place_impl_correct sqrt hsqrt par ambient hdeg n
        (symLower M) M hAsym hA hMlow
    exact ⟨tr, L, 0, by
        unfold llt_cholesky_in_place
        exact heq,
      lowerTri_prod_eq L (symLower M) n hfa hAsym, hfr⟩
  · obtain ⟨hfa, hpo, hfr⟩ := ldlt_cholesky_in_place_impl_correct n
      (symLower M) M hAsym hA hMlow
    exact ⟨unitLower_prod_eq (ldlt_raw_cholesky_in_place id M n)
        (symLower M) n (by
          unfold ldlt_raw_cholesky_in_place
          exact hfa) hAsym, by
      unfold ldlt_raw_cholesky_in_place
      exact hfr⟩

/-- Witness for C1: the one by one all ones matrix over the reals with the
real square root, the sequential parallelism setting and one ambient
worker. -/
theorem cholesky_factorizations_reconstruct_witness :
    ((∀ x : ℝ, 0 < x → 0 < Real.sqrt x ∧ Real.sqrt x * Real.sqrt x = x) ∧
      0 < parallelism_degree 1 Parallelism.none ∧
      PosDefOn (symLower (fun _ _ => (1 : ℝ))) 1) ∧
    ((∃ tr L c, llt_cholesky_in_place id Real.sqrt ⟨0, 0⟩ Parallelism.none 1
        (fun _ _ => (1 : ℝ)) 1 = (tr, Except.ok (L, c)) ∧
      (∀ i j, i < 1 → j < 1 →
        matProd (lowerTriOf L 1) (transposeM (lowerTriOf L 1)) 1 i j =
          symLower (fun _ _ => (1 : ℝ)) i j) ∧
      (∀ i j, ¬(j ≤ i ∧ i < 1) → L i j = (fun _ _ => (1 : ℝ)) i j)) ∧
    (∀ i j, i < 1 → j < 1 →
      ∑ t ∈ Finset.range 1,
        unitLowerOf (ldlt_raw_cholesky_in_place id
          (fun _ _ => (1 : ℝ)) 1) 1 i t *
          ldlt_raw_cholesky_in_place id (fun _ _ => (1 : ℝ)) 1 t t *
          unitLowerOf (ldlt_raw_cholesky_in_place id
            (fun _ _ => (1 : ℝ)) 1) 1 j t =
        symLower (fun _ _ => (1 : ℝ)) i j) ∧
    (∀ i j, ¬(j < 1 ∧ i < 1) →
      ldlt_raw_cholesky_in_place id (fun _ _ => (1 : ℝ)) 1 i j =
        (fun _ _ => (1 : ℝ)) i j)) := by
  have h1 : ∀ x : ℝ, 0 < x → 0 < Real.sqrt x ∧ Real.sqrt x * Real.sqrt x = x :=
    fun x hx => ⟨Real.sqrt_pos.mpr hx, Real.mul_self_sqrt hx.le⟩
  have h2 : 0 < parallelism_degree 1 Parallelism.none := by decide
  have h3 : PosDefOn (symLower (fun _ _ => (1 : ℝ))) 1 := by
    intro x hx
    obtain ⟨i, hi, hxi⟩ := hx
    have hi0 : i = 0 := by omega
    subst hi0
    have he : quadForm (symLower (fun _ _ => (1 : ℝ))) 1 x = x 0 * x 0 := by
      simp [quadForm, symLower]
    rw [he]
    exact mul_self_pos.mpr hxi
  exact ⟨⟨h1, h2, h3⟩, cholesky_factorizations_reconstruct Real.sqrt h1
    Parallelism.none 1 h2 (fun _ _ => (1 : ℝ)) 1 h3⟩

/-- C2 (amended): the LLT pivot handling policy. A NEGATIVE pivot always
stops the factorization with CholeskyError, whatever the regularization
parameters are, because the regularization test only catches pivots in
[0, eps]. With regularization disabled (delta = 0), any non positive pivot
stops with CholeskyError. With regularization enabled (delta nonzero, so the
absolute value used internally is positive), a successful run whose pivot
trace contains an exactly zero pivot reports a nonzero regularization
count. -/
theorem llt_pivot_error_policy (conj sqrt : K → K)
    (reg : LltRegularization K) (par : Parallelism) (ambient : ℕ)
    (M : Mat K) (n : ℕ) :
    (∀ tr r, llt_cholesky_in_place conj sqrt reg par ambient M n = (tr, r) →
      ∀ p ∈ tr, p < 0 →
        r = Except.error CholeskyError.nonPositivePivot) ∧
    (reg.dynamic_regularization_delta = 0 →
      ∀ tr r, llt_cholesky_in_place conj sqrt reg par ambient M n =
        (tr, r) →
      ∀ p ∈ tr, p ≤ 0 →
        r = Except.error CholeskyError.nonPositivePivot) ∧
    (reg.dynamic_regularization_delta ≠ 0 →
      ∀ tr L c, llt_cholesky_in_place conj sqrt reg par ambient M n =
        (tr, Except.ok (L, c)) → (0 : K) ∈ tr → 0 < c) := by
  refine ⟨?_, ?_, ?_⟩
  · intro tr r heq
    exact llt_impl_negative_pivot conj sqrt reg par ambient n M tr r heq
  · intro h0 tr r heq
    exact llt_impl_disabled_pivot conj sqrt reg par ambient h0 n M tr r heq
  · intro h0 tr L c heq
    exact llt_impl_regularization_count conj sqrt reg par ambient h0 n M
      tr L c heq

/-- C2, counterexample: an exactly NEGATIVE pivot is not saved by dynamic
regularization. On the one by one matrix [[-1]] with delta = 1 and eps = 0
the LLT driver returns CholeskyError (with the pivot -1 in the trace)
instead of succeeding with a nonzero count as the claim would have it. -/
theorem llt_negative_pivot_counterexample :
    llt_cholesky_in_place (id : ℚ → ℚ) id ⟨1, 0⟩ Parallelism.none 1
      (fun _ _ => (-1 : ℚ)) 1 =
      ([(-1 : ℚ)], Except.error CholeskyError.nonPositivePivot) := by
  unfold llt_cholesky_in_place
  rw [llt_cholesky_in_place_impl.eq_def, if_pos (by norm_num : (1:ℕ) < 32)]
  unfold llt_cholesky_in_place_left_looking_impl
  rw [if_neg (by norm_num : ¬(1:ℕ) = 0)]
  have hr0 : llt_real0 (id : ℚ → ℚ) (fun _ _ => (-1 : ℚ)) 0 = -1 := by
    norm_num [llt_real0]
  have habs1 : |(⟨1, 0⟩ :
      LltRegularization ℚ).dynamic_regularization_delta| = 1 := by
    norm_num
  have habs2 : |(⟨1, 0⟩ :
      LltRegularization ℚ).dynamic_regularization_epsilon| = 0 := by
    norm_num
  rw [habs1, habs2]
  have hr1 : llt_real1 (id : ℚ → ℚ) 1 0 (fun _ _ => (-1 : ℚ)) 0 = -1 := by
    rw [llt_real1, if_neg (by
      rintro ⟨-, h2, -⟩
      rw [hr0] at h2
      norm_num at h2)]
    exact hr0
  rw [llt_left_looking_loop.eq_def, dif_neg (by norm_num : ¬(1:ℕ) ≤ 0),
    if_neg (by
      rw [hr1]
      norm_num)]
  rw [hr0]
  simp

/-- Witness for C2: the negative pivot conjunct applied at the one by one
matrix [[-1]] with delta = 1 yields the CholeskyError outcome. -/
theorem llt_pivot_error_policy_witness :
    (llt_cholesky_in_place (id : ℚ → ℚ) id ⟨1, 0⟩ Parallelism.none 1
      (fun _ _ => (-1 : ℚ)) 1).2 =
      Except.error CholeskyError.nonPositivePivot := by
  have hc : llt_cholesky_in_place (id : ℚ → ℚ) id ⟨1, 0⟩ Parallelism.none 1
      (fun _ _ => (-1 : ℚ)) 1 =
      ([(-1 : ℚ)], Except.error CholeskyError.nonPositivePivot) := by
    unfold llt_cholesky_in_place
    rw [llt_cholesky_in_place_impl.eq_def, if_pos (by norm_num : (1:ℕ) < 32)]
    unfold llt_cholesky_in_place_left_looking_impl
    rw [if_neg (by norm_num : ¬(1:ℕ) = 0)]
    have hr0 : llt_real0 (id : ℚ → ℚ) (fun _ _ => (-1 : ℚ)) 0 = -1 := by
      norm_num [llt_real0]
    have habs1 : |(⟨1, 0⟩ :
        LltRegularization ℚ).dynamic_regularization_delta| = 1 := by
      norm_num
    have habs2 : |(⟨1, 0⟩ :
        LltRegularization ℚ).dynamic_regularization_epsilon| = 0 := by
      norm_num
    rw [habs1, habs2]
    have hr1 : llt_real1 (id : ℚ → ℚ) 1 0 (fun _ _ => (-1 : ℚ)) 0 = -1 := by
      rw [llt_real1, if_neg (by
        rintro ⟨-, h2, -⟩
        rw [hr0] at h2
        norm_num at h2)]
      exact hr0
    rw [llt_left_looking_loop.eq_def, dif_neg (by norm_num : ¬(1:ℕ) ≤ 0),
      if_neg (by
        rw [hr1]
        norm_num)]
    rw [hr0]
    simp
  exact (llt_pivot_error_policy (id : ℚ → ℚ) id ⟨1, 0⟩ Parallelism.none 1
    (fun _ _ => (-1 : ℚ)) 1).1 [(-1 : ℚ)]
    (llt_cholesky_in_place (id : ℚ → ℚ) id ⟨1, 0⟩ Parallelism.none 1
      (fun _ _ => (-1 : ℚ)) 1).2
    (by rw [hc]) (-1) (by simp) (by norm_num)

/-! ### The tridiagonal QR eigenvalue iteration
(src/faer-libs/faer-evd/src/tridiag_qr_algorithm.rs) -/

/-- Write one entry of a vector. -/
def vwrite (f : ℕ → K) (i : ℕ) (v : K) : ℕ → K :=
  fun t => if t = i then v else f t

/-- The small off diagonal zeroing pass at the top of the outer loop: each
entry between start and e whose absolute value is below the consider zero
threshold, or below eps times the square root of the sum of the absolute
values of the two neighbouring diagonal entries, is set to zero. -/
def qr_zero_small (sqrt : K → K) (eps czt : K) (diag offdiag : ℕ → K)
    (start e : ℕ) : ℕ → K :=
  fun i =>
    if start ≤ i ∧ i < e ∧ (|offdiag i| < czt ∨
        |offdiag i| ≤ eps * sqrt (|diag i| + |diag (i + 1)|)) then 0
    else offdiag i

/-- The deflation scan: decrement e while the off diagonal entry just below
it is zero. -/
def qr_shrink_end (offdiag : ℕ → K) : ℕ → ℕ
  | 0 => 0
  | e + 1 => if offdiag e = 0 then qr_shrink_end offdiag e else e + 1

/-- The start scan: from e - 1, decrement start while the off diagonal
entry just below it is nonzero. -/
def qr_find_start (offdiag : ℕ → K) : ℕ → ℕ
  | 0 => 0
  | s + 1 => if offdiag s ≠ 0 then qr_find_start offdiag s else s + 1

/-- The Wilkinson shift of the active block ending at e (mu of the
source). -/
def qr_wilkinson_mu (sqrt : K → K) (diag offdiag : ℕ → K) (e : ℕ) : K :=
  let td := diag (e - 1)
  let ev := offdiag (e - 1)
  if td = 0 then diag e - |ev|
  else if ev ≠ 0 then
    let e2 := ev * ev
    let h0 := sqrt (td * td + ev * ev)
    let h := if 0 < td then h0 else -h0
    if e2 = 0 then diag e - ev / ((td + h) / ev)
    else diag e - e2 / (td + h)
  else diag e

/-- The chasing sweep of one implicit QR step (the inner while loop): the
Givens coefficients come from the supplied makeGivens (the SIMD
make_givens kernel of faer_core::jacobi is outside the staged sources), the
rotation is applied to the tridiagonal entries exactly as in the source, and
the bulge z is chased down until it vanishes or the block ends. Modelled at
u = None, so the eigenvector accumulation branch is skipped as in the
source. -/
def qr_givens_sweep (makeGivens : K → K → K × K) (e : ℕ) :
    (gas : ℕ) → (diag offdiag : ℕ → K) → (k : ℕ) → (x z : K) →
    (start : ℕ) → (ℕ → K) × (ℕ → K)
  | 0, diag, offdiag, _, _, _, _ => (diag, offdiag)
  | gas + 1, diag, offdiag, k, x, z, start =>
    if k < e ∧ z ≠ 0 then
      let c := (makeGivens x z).1
      let s := (makeGivens x z).2
      let sdk := s * diag k + c * offdiag k
      let dkp1 := s * offdiag k + c * diag (k + 1)
      let diag1 := vwrite diag k
        (c * (c * diag k - s * offdiag k) -
          s * (c * offdiag k - s * diag (k + 1)))
      let diag2 := vwrite diag1 (k + 1) (s * sdk + c * dkp1)
      let offdiag1 := vwrite offdiag k (c * sdk - s * dkp1)
      let offdiag2 :=
        if k > start then
          vwrite offdiag1 (k - 1) (c * offdiag1 (k - 1) - s * z)
        else offdiag1
      let x1 := offdiag2 k
      let z1 := if k < e - 1 then -s * offdiag2 (k + 1) else z
      let offdiag3 :=
        if k < e - 1 then vwrite offdiag2 (k + 1) (c * offdiag2 (k + 1))
        else offdiag2
      qr_givens_sweep makeGivens e gas diag2 offdiag3 (k + 1) x1 z1 start
    else (diag, offdiag)

/-- The outer `while end > 0` loop of
compute_tridiag_real_evd_qr_algorithm, run on a fuel parameter: each pass
zeroes the small off diagonal entries, deflates the block end, and if work
remains increments the iteration counter, finds the block start, computes
the Wilkinson shift and chases the bulge. None means the fuel ran out with
the loop still running; the source has no iteration cap (its `iter` counter
is incremented but never read, see the TODO comment) and no error outcome,
so exhausted fuel corresponds to the source spinning further. -/
def qr_outer_loop (makeGivens : K → K → K × K) (sqrt : K → K)
    (eps czt : K) :
    (fuel : ℕ) → (diag offdiag : ℕ → K) → (start e iter : ℕ) →
    Option ((ℕ → K) × (ℕ → K) × ℕ)
  | 0, _, _, _, _, _ => none
  | fuel + 1, diag, offdiag, start, e, iter =>
    if e = 0 then some (diag, offdiag, iter)
    else
      let od1 := qr_zero_small sqrt eps czt diag offdiag start e
      let e1 := qr_shrink_end od1 e
      if e1 = 0 then some (diag, od1, iter)
      else
        let start1 := qr_find_start od1 (e1 - 1)
        let mu := qr_wilkinson_mu sqrt diag od1 e1
        let p := qr_givens_sweep makeGivens e1 (e1 - start1) diag od1 start1
          (diag start1 - mu) (od1 start1) start1
        qr_outer_loop makeGivens sqrt eps czt fuel p.1 p.2 start1 e1
          (iter + 1)

/-- compute_tridiag_real_evd_qr_algorithm from
src/faer-libs/faer-evd/src/tridiag_qr_algorithm.rs, modelled at u = None on
the diagonal and off diagonal vectors (the final ascending selection sort of
the eigenvalues, which runs after the loop and always terminates, is not
part of the model). The returned value on success is the pair of vectors
together with the number of QR iterations that ran; there is no error
variant because the source returns () and reports nothing. -/
def compute_tridiag_real_evd_qr_algorithm (makeGivens : K → K → K × K)
    (sqrt : K → K) (fuel : ℕ) (diag offdiag : ℕ → K) (n : ℕ)
    (eps czt : K) : Option ((ℕ → K) × (ℕ → K) × ℕ) :=
  if n ≤ 1 then some (diag, offdiag, 0)
  else qr_outer_loop makeGivens sqrt eps czt fuel diag offdiag 0 (n - 1) 0

/-- C3: the iteration counter of the tridiagonal QR loop is dead code. The
loop body never consults it: the computed vectors are independent of the
entered count and the exit count is the entered count plus the number of
passes, whatever that is. In particular the loop has no internal iteration
cap (the source marks this with `// TODO: abort after too many
iterations`), and since the function returns plain unit data there is no
typed convergence failure it could report: on a non converging input the
source loops forever. -/
theorem tridiag_qr_iteration_counter_dead (makeGivens : K → K → K × K)
    (sqrt : K → K) (eps czt : K) :
    ∀ (fuel : ℕ) (diag offdiag : ℕ → K) (start e iter : ℕ),
      qr_outer_loop makeGivens sqrt eps czt fuel diag offdiag start e iter =
        (qr_outer_loop makeGivens sqrt eps czt fuel diag offdiag start e
          0).map (fun p => (p.1, p.2.1, iter + p.2.2)) := by
  intro fuel
  induction fuel with
  | zero =>
    intro diag offdiag start e iter
    rfl
  | succ fuel ih =>
    intro diag offdiag start e iter
    by_cases he : e = 0
    · simp [qr_outer_loop, he]
    · by_cases he1 : qr_shrink_end
          (qr_zero_small sqrt eps czt diag offdiag start e) e = 0
      · simp [qr_outer_loop, he, he1]
      · simp only [qr_outer_loop, he, he1, if_false, ite_false]
        rw [ih _ _ _ _ (iter + 1), ih _ _ _ _ (0 + 1), Option.map_map]
        congr 1
        funext p
        simp only [Function.comp_apply, Prod.mk.injEq]
        exact ⟨trivial, trivial, by omega⟩

/-! ### The 2 by 2 Jacobi SVD kernel (src/faer-svd/src/jacobi.rs) -/

/-- The Jacobi plane rotation, a cosine and a sine. -/
structure JacobiRotation (K : Type) where
  c : K
  s : K
  deriving DecidableEq

/-- JacobiRotation::from_triplet from src/faer-svd/src/jacobi.rs, with the
scalar square root supplied as a function. -/
def JacobiRotation.from_triplet (sqrt : K → K) (x y z : K) :
    JacobiRotation K :=
  let abs_y := |y|
  let two_abs_y := abs_y + abs_y
  if two_abs_y = 0 then ⟨1, 0⟩
  else
    let tau := (x - z) * two_abs_y⁻¹
    let w := sqrt (tau * tau + 1)
    let t := if tau > 0 then (tau + w)⁻¹ else (tau - w)⁻¹
    let neg_sign_y := if y > 0 then -1 else 1
    let nn := (sqrt (t * t + 1))⁻¹
    ⟨nn, neg_sign_y * t * nn⟩

/-- JacobiRotation::apply_on_the_left_2x2 from src/faer-svd/src/jacobi.rs. -/
def JacobiRotation.apply_on_the_left_2x2 (r : JacobiRotation K)
    (m00 m01 m10 m11 : K) : K × K × K × K :=
  (m00 * r.c + m10 * r.s, m01 * r.c + m11 * r.s,
    -r.s * m00 + r.c * m10, -r.s * m01 + r.c * m11)

/-- JacobiRotation::transpose from src/faer-svd/src/jacobi.rs. -/
def JacobiRotation.transpose (r : JacobiRotation K) : JacobiRotation K :=
  ⟨r.c, -r.s⟩

/-- The rotation product (the Mul impl) from src/faer-svd/src/jacobi.rs. -/
def JacobiRotation.mul (a b : JacobiRotation K) : JacobiRotation K :=
  ⟨a.c * b.c - a.s * b.s, a.c * b.s + a.s * b.c⟩

/-- compute_2x2 from src/faer-svd/src/jacobi.rs: the pair of left and right
rotations diagonalizing a 2 by 2 block. -/
def compute_2x2 (sqrt : K → K) (m00 m01 m10 m11 : K) :
    JacobiRotation K × JacobiRotation K :=
  let t := m00 + m11
  let d := m10 - m01
  let rot1 : JacobiRotation K :=
    if d = 0 then ⟨1, 0⟩
    else
      let u := t * d⁻¹
      let tmp0 := (sqrt (1 + u * u))⁻¹
      let tmp := if tmp0 = 0 then |u|⁻¹ else tmp0
      ⟨u * tmp, tmp⟩
  let appl := rot1.apply_on_the_left_2x2 m00 m01 m10 m11
  let j_right := JacobiRotation.from_triplet sqrt appl.1 appl.2.1 appl.2.2.2
  (rot1.mul j_right.transpose, j_right)

/-- JacobiRotation::apply_on_the_left_in_place on the row pair (p, q) of the
plane: row p becomes c row p + s row q, row q becomes -s row p + c row q. -/
def applyRotLeftRows (c s : K) (M : Mat K) (p q : ℕ) : Mat K :=
  fun i j =>
    if i = p then c * M p j + s * M q j
    else if i = q then -s * M p j + c * M q j
    else M i j

/-- JacobiRotation::apply_on_the_right_in_place on the column pair (p, q) of
the plane: the left application of the transposed rotation on the transposed
view, so column p becomes c col p - s col q and column q becomes
s col p + c col q. -/
def applyRotRightCols (c s : K) (M : Mat K) (p q : ℕ) : Mat K :=
  fun i j =>
    if j = p then c * M i p - s * M i q
    else if j = q then s * M i p + c * M i q
    else M i j

/-- The row and column skip selector of jacobi_svd. -/
inductive Skip where
  | none
  | first
  | last
  deriving DecidableEq

/-- The initial maximum absolute diagonal entry scan of jacobi_svd. -/
def init_max_diag (M : Mat K) : ℕ → K
  | 0 => 0
  | k + 1 =>
    let md := init_max_diag M k
    if |M k k| > md then |M k k| else md

/-- One (p, q) step of the Jacobi sweep, modelled at u = None and v = None:
if either off diagonal entry of the 2 by 2 block exceeds the threshold, the
block is diagonalized by the rotation pair applied to row pair and column
pair, the maximum diagonal is refreshed at p and q, and the failed flag is
raised. -/
def jacobi_rotate_step (sqrt : K → K) (precision czt : K) (p q : ℕ)
    (st : Mat K × K × Bool) : Mat K × K × Bool :=
  let M := st.1
  let md := st.2.1
  let threshold0 := precision * md
  let threshold := if threshold0 > czt then threshold0 else czt
  if |M p q| > threshold ∨ |M q p| > threshold then
    let jj := compute_2x2 sqrt (M p p) (M p q) (M q p) (M q q)
    let M1 := applyRotLeftRows jj.1.c jj.1.s M p q
    let M2 := applyRotRightCols jj.2.c jj.2.s M1 p q
    let md1 := if |M2 p p| > md then |M2 p p| else md
    let md2 := if |M2 q q| > md1 then |M2 q q| else md1
    (M2, md2, true)
  else st

/-- The inner q loop of one Jacobi pass. -/
def jacobi_pass_inner (sqrt : K → K) (precision czt : K) (p : ℕ) :
    (qrem : ℕ) → (q : ℕ) → Mat K × K × Bool → Mat K × K × Bool
  | 0, _, st => st
  | qrem + 1, q, st =>
    jacobi_pass_inner sqrt precision czt p qrem (q + 1)
      (jacobi_rotate_step sqrt precision czt p q st)

/-- The outer p loop of one Jacobi pass. -/
def jacobi_pass_outer (sqrt : K → K) (precision czt : K) :
    (prem : ℕ) → (p : ℕ) → Mat K × K × Bool → Mat K × K × Bool
  | 0, _, st => st
  | prem + 1, p, st =>
    jacobi_pass_outer sqrt precision czt prem (p + 1)
      (jacobi_pass_inner sqrt precision czt p p 0 st)

/-- The convergence loop of jacobi_svd: sweep until a full pass applies no
rotation, on a fuel parameter (the source loop has no iteration bound). -/
def jacobi_main_loop (sqrt : K → K) (precision czt : K) (n : ℕ) :
    (fuel : ℕ) → Mat K → K → Option (Mat K)
  | 0, _, _ => none
  | fuel + 1, M, md =>
    let st := jacobi_pass_outer sqrt precision czt (n - 1) 1 (M, md, false)
    if st.2.2 then jacobi_main_loop sqrt precision czt n fuel st.1 st.2.1
    else some st.1

/-- The make the diagonal positive pass of jacobi_svd (at u = None the sign
flip of the matching column of u is skipped, as in the source). -/
def svd_make_positive (M : Mat K) (n : ℕ) : Mat K :=
  fun i j => if i = j ∧ i < n ∧ M i i < 0 then -(M i i) else M i j

/-- The start offset of the worked block under the skip selector. -/
def skip_start : Skip → ℕ
  | .none => 0
  | .first => 1
  | .last => 0

/-- The dimension of the worked block under the skip selector. -/
def skip_new_n (n : ℕ) : Skip → ℕ
  | .none => n
  | .first => n - 1
  | .last => n - 1

/-- The largest remaining diagonal entry scan of the sorting phase, from
index j with jrem entries left, carrying the largest value and its
position. -/
def svd_largest (M : Mat K) :
    (jrem : ℕ) → (j : ℕ) → (le_ : K) → (lp : ℕ) → K × ℕ
  | 0, _, le_, lp => (le_, lp)
  | jrem + 1, j, le_, lp =>
    if M j j > le_ then svd_largest M jrem (j + 1) (M j j) j
    else svd_largest M jrem (j + 1) le_ lp

/-- The sorting and counting loop of jacobi_svd (at u = None and v = None
the paired column swaps are skipped, as in the source): at each index i the
largest remaining diagonal entry is looked up; when it is zero the counter
is overwritten with i (note: with no break, as in the source); when it sits
strictly past i the two diagonal entries are exchanged. -/
def svd_sort_loop (n : ℕ) :
    (irem : ℕ) → (i : ℕ) → Mat K → ℕ → Mat K × ℕ
  | 0, _, M, nnz => (M, nnz)
  | irem + 1, i, M, nnz =>
    let lelp := svd_largest M (n - i) i 0 i
    let nnz1 := if lelp.1 = 0 then i else nnz
    let M1 :=
      if lelp.2 > i then
        mwrite (mwrite M i i lelp.1) lelp.2 lelp.2 (M i i)
      else M
    svd_sort_loop n irem (i + 1) M1 nnz1

/-- jacobi_svd from src/faer-svd/src/jacobi.rs, modelled at u = None and
v = None (so the eigenvector bookkeeping branches are skipped, as in the
source when no factors are requested), over the worked plane: the maximum
diagonal is scanned, the two sided Jacobi sweeps run until a pass applies no
rotation (fuel bounds the passes), the diagonal is made positive, and the
worked block selected by skip is sorted while counting, the count being
returned together with the final plane. -/
def jacobi_svd (sqrt : K → K) (fuel : ℕ) (M : Mat K) (n : ℕ) (skip : Skip)
    (epsilon czt : K) : Option (Mat K × ℕ) :=
  let md := init_max_diag M n
  let precision := epsilon * 2
  match jacobi_main_loop sqrt precision czt n fuel M md with
  | Option.none => Option.none
  | Option.some M1 =>
    let M2 := svd_make_positive M1 n
    let s := skip_start skip
    let m := skip_new_n n skip
    let res := svd_sort_loop m m 0 (subm M2 s s) m
    Option.some (wback M2 res.1 s s m m, res.2)

/-- C5: the returned value of jacobi_svd is NOT the count of nonzero
singular values. On the 2 by 2 zero matrix (no skip, epsilon and threshold
one, any square root) the function converges immediately, both singular
values are zero, yet it returns 1: the sorting loop overwrites the counter
with i at every index whose remaining maximum is zero instead of stopping at
the first, so the last zero index wins. -/
theorem jacobi_svd_zero_matrix_count_bug (sqrt : ℚ → ℚ) :
    ((jacobi_svd sqrt 1 (fun _ _ => (0 : ℚ)) 2 Skip.none 1 1).map
        Prod.snd = some 1) ∧
    ((jacobi_svd sqrt 1 (fun _ _ => (0 : ℚ)) 2 Skip.none 1 1).map
        (fun p => (p.1 0 0, p.1 1 1)) = some (0, 0)) := by
  constructor <;>
    norm_num [jacobi_svd, jacobi_main_loop, jacobi_pass_outer,
      jacobi_pass_inner, jacobi_rotate_step, init_max_diag,
      svd_make_positive, svd_sort_loop, svd_largest, skip_start,
      skip_new_n, subm, wback, mwrite, Option.map]

/-! ### The Bunch Kaufman pivoting
(src/faer-libs/faer-cholesky/src/bunch_kaufman/mod.rs) -/

/-- The Bunch Kaufman threshold constant of cholesky_in_place: one plus the
square root of seventeen, scaled by the power of two 1/8. -/
def bk_alpha (sqrt : K → K) : K := (1 + sqrt 17) * (1 / 8)

/-- The pivot kind chosen at one elimination step. -/
inductive BkPivot where
  | oneAtK
  | oneAtImax
  | twoByTwo
  deriving DecidableEq

/-- The pivot decision tree of cholesky_diagonal_pivoting_blocked_step (the
unblocked routine applies the same tree): abs_akk is the magnitude of the
diagonal entry at k, colmax the largest magnitude below it in column k,
rowmax the largest magnitude in the row of the column maximum, abs_aimax the
magnitude of the diagonal entry at the column maximum. A zero column keeps
the diagonal pivot; the diagonal pivot is kept when abs_akk is at least
alpha times colmax, and again when it is at least
alpha * colmax * (colmax / rowmax); otherwise the diagonal entry at imax is
probed against alpha * rowmax for a 1 by 1 pivot at imax, with the 2 by 2
pivot as the final fallback. -/
def bk_pivot_decision (alpha abs_akk colmax rowmax abs_aimax : K) :
    BkPivot :=
  if max abs_akk colmax = 0 then .oneAtK
  else if abs_akk ≥ colmax * alpha then .oneAtK
  else if abs_akk ≥ alpha * colmax * (colmax / rowmax) then .oneAtK
  else if abs_aimax ≥ alpha * rowmax then .oneAtImax
  else .twoByTwo

/-- A transposition of two values of the permutation array (slice::swap of
the source). -/
def bk_swap (perm : ℕ → ℕ) (a b : ℕ) : ℕ → ℕ :=
  fun t => if t = a then perm b else if t = b then perm a else perm t

/-- The pivot array to permutation conversion loop of cholesky_in_place: a
non negative entry p at i swaps positions i and p and advances by one; a
negative entry (the bitwise complement encoding of a 2 by 2 pivot, stored
twice) swaps positions i + 1 and the complement and advances by two. The gas
parameter bounds the passes (n suffices since i grows each pass). -/
def bk_perm_loop (pivots : ℕ → ℤ) (n : ℕ) :
    (gas : ℕ) → (i : ℕ) → (ℕ → ℕ) → (ℕ → ℕ)
  | 0, _, perm => perm
  | gas + 1, i, perm =>
    if i < n then
      if pivots i < 0 then
        bk_perm_loop pivots n gas (i + 2)
          (bk_swap perm (i + 1) (Int.toNat (-(pivots i) - 1)))
      else bk_perm_loop pivots n gas (i + 1)
        (bk_swap perm i (Int.toNat (pivots i)))
    else perm

/-- The forward permutation of cholesky_in_place: the identity followed by
the recorded swaps. -/
def bk_build_perm (pivots : ℕ → ℤ) (n : ℕ) : ℕ → ℕ :=
  bk_perm_loop pivots n n 0 (fun i => i)

/-- The inverse fill loop of cholesky_in_place: for each i below n the
position perm i receives i. -/
def bk_inv_loop (perm : ℕ → ℕ) :
    (gas : ℕ) → (i : ℕ) → (ℕ → ℕ) → (ℕ → ℕ)
  | 0, _, inv => inv
  | gas + 1, i, inv =>
    bk_inv_loop perm gas (i + 1) (fun q => if q = perm i then i else inv q)

/-- The inverse permutation of cholesky_in_place. -/
def bk_build_perm_inv (perm : ℕ → ℕ) (n : ℕ) : ℕ → ℕ :=
  bk_inv_loop perm n 0 (fun i => i)

theorem bk_swap_eq (perm : ℕ → ℕ) (a b : ℕ) :
    bk_swap perm a b = fun t => perm (Equiv.swap a b t) := by
  funext t
  rw [bk_swap, Equiv.swap_apply_def]
  split_ifs <;> rfl

theorem bk_swap_injective {perm : ℕ → ℕ} (h : Function.Injective perm)
    (a b : ℕ) : Function.Injective (bk_swap perm a b) := by
  rw [bk_swap_eq]
  exact h.comp (Equiv.swap a b).injective

theorem bk_perm_loop_injective (pivots : ℕ → ℤ) (n : ℕ) :
    ∀ (gas i : ℕ) (perm : ℕ → ℕ), Function.Injective perm →
      Function.Injective (bk_perm_loop pivots n gas i perm) := by
  intro gas
  induction gas with
  | zero =>
    intro i perm h
    exact h
  | succ gas ih =>
    intro i perm h
    rw [bk_perm_loop]
    by_cases hi : i < n
    · rw [if_pos hi]
      by_cases hp : pivots i < 0
      · rw [if_pos hp]
        exact ih _ _ (bk_swap_injective h _ _)
      · rw [if_neg hp]
        exact ih _ _ (bk_swap_injective h _ _)
    · rw [if_neg hi]
      exact h

theorem bk_inv_loop_frame (perm : ℕ → ℕ) :
    ∀ (gas i0 : ℕ) (inv : ℕ → ℕ) (q : ℕ),
      (∀ j, i0 ≤ j → j < i0 + gas → perm j ≠ q) →
      bk_inv_loop perm gas i0 inv q = inv q := by
  intro gas
  induction gas with
  | zero =>
    intro i0 inv q _
    rfl
  | succ gas ih =>
    intro i0 inv q hne
    rw [bk_inv_loop, ih (i0 + 1) _ q (fun j h1 h2 => hne j (by omega)
      (by omega))]
    rw [if_neg (by
      intro he
      exact hne i0 (le_refl i0) (by omega) he.symm)]

theorem bk_inv_loop_spec (perm : ℕ → ℕ) (hinj : Function.Injective perm) :
    ∀ (gas i0 : ℕ) (inv : ℕ → ℕ) (i : ℕ), i0 ≤ i → i < i0 + gas →
      bk_inv_loop perm gas i0 inv (perm i) = i := by
  intro gas
  induction gas with
  | zero =>
    intro i0 inv i h1 h2
    omega
  | succ gas ih =>
    intro i0 inv i h1 h2
    rw [bk_inv_loop]
    by_cases he : i = i0
    · rw [bk_inv_loop_frame perm gas (i0 + 1) _ (perm i) (fun j hj1 hj2 hne =>
        by
          have : j = i := hinj hne
          omega)]
      rw [if_pos (by rw [he])]
      omega
    · exact ih (i0 + 1) _ i (by omega) (by omega)

/-- C7: whatever pivot array the factorization records, the permutation pair
built by cholesky_in_place is mutually inverse on the first n indices: the
forward array is the identity transformed by the recorded swaps (so it is
injective), and the inverse fill assigns each position perm i the index i
exactly once. -/
theorem bunch_kaufman_perm_inverse (pivots : ℕ → ℤ) (n : ℕ) :
    ∀ i, i < n →
      bk_build_perm_inv (bk_build_perm pivots n) n
        (bk_build_perm pivots n i) = i := by
  intro i hi
  have hinj : Function.Injective (bk_build_perm pivots n) :=
    bk_perm_loop_injective pivots n n 0 (fun t => t) fun a b h => h
  exact bk_inv_loop_spec (bk_build_perm pivots n) hinj n 0 (fun t => t) i
    (by omega) (by omega)

/-- Witness for C7: a single 1 by 1 pivot pointing at itself. -/
theorem bunch_kaufman_perm_inverse_witness :
    0 < 1 ∧
      bk_build_perm_inv (bk_build_perm (fun _ => (0 : ℤ)) 1) 1
        (bk_build_perm (fun _ => (0 : ℤ)) 1 0) = 0 :=
  ⟨by decide, bunch_kaufman_perm_inverse (fun _ => (0 : ℤ)) 1 0 (by decide)⟩

/-- C6: the Bunch Kaufman threshold constant equals (1 + √17) / 8, and the
pivot decision of the elimination step accepts the 1 by 1 diagonal pivot at
k whenever its magnitude is at least alpha times the column maximum (and
when the whole column is zero, and again under the rescaled second test);
when those fail it accepts a 1 by 1 pivot at the row of the column maximum
if that diagonal magnitude is at least alpha times the row maximum, and
falls back to the 2 by 2 pivot exactly when every test fails. -/
theorem bunch_kaufman_pivot_policy :
    bk_alpha Real.sqrt = (1 + Real.sqrt 17) / 8 ∧
    ∀ abs_akk colmax rowmax abs_aimax : ℝ,
      (abs_akk ≥ colmax * bk_alpha Real.sqrt →
        bk_pivot_decision (bk_alpha Real.sqrt) abs_akk colmax rowmax
          abs_aimax = BkPivot.oneAtK) ∧
      (max abs_akk colmax ≠ 0 → ¬ abs_akk ≥ colmax * bk_alpha Real.sqrt →
        ¬ abs_akk ≥ bk_alpha Real.sqrt * colmax * (colmax / rowmax) →
        abs_aimax ≥ bk_alpha Real.sqrt * rowmax →
        bk_pivot_decision (bk_alpha Real.sqrt) abs_akk colmax rowmax
          abs_aimax = BkPivot.oneAtImax) ∧
      (max abs_akk colmax ≠ 0 → ¬ abs_akk ≥ colmax * bk_alpha Real.sqrt →
        ¬ abs_akk ≥ bk_alpha Real.sqrt * colmax * (colmax / rowmax) →
        ¬ abs_aimax ≥ bk_alpha Real.sqrt * rowmax →
        bk_pivot_decision (bk_alpha Real.sqrt) abs_akk colmax rowmax
          abs_aimax = BkPivot.twoByTwo) := by
  constructor
  · rw [bk_alpha]
    ring
  · intro abs_akk colmax rowmax abs_aimax
    refine ⟨?_, ?_, ?_⟩
    · intro h1
      rw [bk_pivot_decision]
      by_cases h0 : max abs_akk colmax = 0
      · rw [if_pos h0]
      · rw [if_neg h0, if_pos h1]
    · intro h0 h1 h2 h3
      rw [bk_pivot_decision, if_neg h0, if_neg h1, if_neg h2, if_pos h3]
    · intro h0 h1 h2 h3
      rw [bk_pivot_decision, if_neg h0, if_neg h1, if_neg h2, if_neg h3]

/-- Witness for C6: with a zero column maximum the diagonal pivot is
kept. -/
theorem bunch_kaufman_pivot_policy_witness :
    (1 : ℝ) ≥ 0 * bk_alpha Real.sqrt ∧
      bk_pivot_decision (bk_alpha Real.sqrt) 1 0 0 0 = BkPivot.oneAtK := by
  have h1 : (1 : ℝ) ≥ 0 * bk_alpha Real.sqrt := by
    rw [zero_mul]
    norm_num
  exact ⟨h1, (bunch_kaufman_pivot_policy.2 1 0 0 0).1 h1⟩

end Faer
